import Mathlib

/-!
# Repository bootstrap of git-repo-go (`project/init.go`)

A shallow embedding of `Project.GitInit`, `Repository.initMissing`,
`Repository.Init`, `Repository.InitByLink` and `Repository.InitHooks`.

The Go code mutates the file system.  Here the file system is explicit: a
`World` is passed in and every operation returns an `Outcome` holding the
world it leaves behind, the list of mutating system calls it attempted, and
the Go `error` value (`none` is `nil`).

Modelling decisions:

* Paths are kept in cleaned form: a flag telling whether the path is
  absolute, and its components.  The process runs in the root directory, so
  a relative path names the same entry as the absolute path with the same
  components.
* The entries of the file system are kept under their canonical paths (no
  symbolic link on the way).  A path is resolved by walking its components
  and following the symbolic links it meets, at most `linkDepth` links
  nested in one another.  `os.Stat`, `os.MkdirAll` and the opening of a
  file follow links; `os.Symlink` resolves the directory of the new link and
  does not follow an entry at the place of the link.
* System calls fail for structural reasons only (an entry that exists
  already, a missing directory, a file where a directory is needed); there
  are no permissions.
* A file holds text, or the key/value list of a configuration file.  The
  configuration of a repository is the entry `config` of its directory; it
  is read as empty when that entry is not a configuration file, and saving
  fails when the entry is a directory or a symbolic link.
* The version-control engine, the hook directory and the hook registry come
  from outside and are parameters (`Env`).
* Go visits a map in an order it does not fix.  The hook registry is visited
  in the order `Env` gives; the map `files` of `initMissing` is visited in
  source order.
-/

namespace GitRepo

/-! ## Paths (`path/filepath`) -/

/-- A cleaned path: `abs` says whether it starts at the root, `comps` are its
components.  The relative path without components is `.`. -/
structure FPath where
  abs : Bool
  comps : List String
deriving DecidableEq, Repr

/-- Text of a path, as `fmt.Sprintf("%s", ...)` prints it. -/
def FPath.render (p : FPath) : String :=
  if p.abs then "/" ++ "/".intercalate p.comps
  else if p.comps = [] then "." else "/".intercalate p.comps

/-- The call `filepath.Join(p, name)` for a single component `name`. -/
def FPath.join (p : FPath) (name : String) : FPath :=
  ⟨p.abs, p.comps ++ [name]⟩

/-- The directory holding `p`; the root is its own parent. -/
def FPath.parent (p : FPath) : FPath :=
  ⟨p.abs, p.comps.dropLast⟩

/-- Drops the leading components two component lists share. -/
def stripCommon : List String → List String → List String × List String
  | b :: bs, t :: ts => if b = t then stripCommon bs ts else (b :: bs, t :: ts)
  | bs, ts => (bs, ts)

/-- The call `filepath.Rel(base, targ)` on cleaned paths: it fails when only
one of the two is absolute, or when what is left of `base` after the shared
components starts with `..`; otherwise it climbs out of what is left of
`base` and descends into what is left of `targ`. -/
def Rel (base targ : FPath) : Option FPath :=
  if base.abs ≠ targ.abs then none
  else
    let bt := stripCommon base.comps targ.comps
    if bt.1.head? = some ".." then none
    else some ⟨false, List.replicate bt.1.length ".." ++ bt.2⟩

/-- The call `strings.HasSuffix(s, suffix)`. -/
def hasSuffix (s suffix : String) : Bool :=
  suffix.data.isSuffixOf s.data

/-! ## File system and outcomes -/

/-- What a regular file holds: text, or the key/value list of a configuration
file. -/
inductive Content where
  | text (s : String)
  | config (kv : List (String × String))
deriving DecidableEq, Repr

/-- An entry of the file system. -/
inductive Node where
  | dir
  | file (content : Content)
  | symlink (target : FPath)
deriving DecidableEq, Repr

/-- A mutating call the code attempts, whether or not it succeeds. -/
inductive Op where
  | mkdirAll (dir : FPath)
  | create (name : FPath) (content : Content)
  | symlink (oldname newname : FPath)
  | saveConfig (gitdir : FPath)
  | setRemote (gitdir : FPath) (name url : String)
  | setAlternates (gitdir : FPath) (reference : String)
  | gitInit (gitdir : FPath)
deriving DecidableEq, Repr

/-- The state the code works on: the entries of the file system under their
canonical paths. -/
structure World where
  fs : FPath → Option Node

/-- What a call leaves behind: the world, the mutating calls attempted in
order, and the returned `error` (`none` is `nil`). -/
structure Outcome where
  world : World
  ops : List Op
  err : Option String

/-- The root directory. -/
def rootDir : FPath := ⟨true, []⟩

/-- Entry at a canonical path; the root is a directory. -/
def World.nodeAt (w : World) (p : FPath) : Option Node :=
  if p.comps = [] then some Node.dir else w.fs p

/-- Where the text of a link starts from: the root for an absolute text, the
directory of the link otherwise. -/
def linkBase (t cur : FPath) : FPath :=
  if t.abs then rootDir else cur

/-- Walks components that must all be directories, or links to directories,
starting in the canonical directory `cur`; `R` resolves the text of a link.
Gives the canonical directory reached. -/
def walkDirs (w : World) (R : FPath → List String → Option FPath) :
    FPath → List String → Option FPath
  | cur, [] => some cur
  | cur, c :: rest =>
    if c = ".." then
      if w.nodeAt cur.parent = some Node.dir then walkDirs w R cur.parent rest else none
    else
      match w.fs (cur.join c) with
      | some Node.dir => walkDirs w R (cur.join c) rest
      | some (Node.symlink t) =>
        match R (linkBase t cur) t.comps with
        | some l => if w.nodeAt l = some Node.dir then walkDirs w R l rest else none
        | none => none
      | _ => none

/-- The last component `c` of a path in the canonical directory `g`: the place
of the entry, and with `follow` the place a link there leads to. -/
def lastStep (w : World) (R : FPath → List String → Option FPath) (follow : Bool)
    (g : FPath) (c : String) : Option FPath :=
  if c = ".." then
    if w.nodeAt g.parent = some Node.dir then some g.parent else none
  else
    match w.fs (g.join c) with
    | some (Node.symlink t) => if follow then R (linkBase t g) t.comps else some (g.join c)
    | _ => some (g.join c)

/-- Resolves components from the canonical directory `cur`: all but the last
as directories, then the last one.  The result is the canonical place of the
entry, whether or not there is one. -/
def walkPath (w : World) (R : FPath → List String → Option FPath) (follow : Bool)
    (cur : FPath) (comps : List String) : Option FPath :=
  match comps.getLast? with
  | none => some cur
  | some c => (walkDirs w R cur comps.dropLast).bind (fun g => lastStep w R follow g c)

/-- Resolution of the text of a link, following at most `n` links nested in
one another. -/
def resolveLink (w : World) : Nat → FPath → List String → Option FPath
  | 0 => fun _ _ => none
  | n + 1 => fun cur comps => walkPath w (resolveLink w n) true cur comps

/-- How many links nested in one another a resolution follows (`ELOOP`
beyond). -/
def linkDepth : Nat := 40

/-- Canonical place of the entry a path names; with `follow` a link at the
last component is followed (`stat`), without it is not (`lstat`). -/
def World.resolve (w : World) (follow : Bool) (p : FPath) : Option FPath :=
  walkPath w (resolveLink w linkDepth) follow rootDir p.comps

/-- The entry a path names, links followed. -/
def World.lookup (w : World) (p : FPath) : Option Node :=
  (w.resolve true p).bind w.nodeAt

/-- The entry a path names, a link at the last component not followed
(`os.Lstat`). -/
def World.entry (w : World) (p : FPath) : Option Node :=
  (w.resolve false p).bind w.nodeAt

/-- The call `os.Stat(p)` succeeded (`err == nil`). -/
def World.stat (w : World) (p : FPath) : Bool :=
  (w.lookup p).isSome

/-- The path names a directory, links followed. -/
def World.isDir (w : World) (p : FPath) : Bool :=
  w.lookup p = some Node.dir

/-- Canonical directory a path names, every link on the way followed; `none`
when the path does not name a directory. -/
def World.dirOf (w : World) (p : FPath) : Option FPath :=
  walkDirs w (resolveLink w linkDepth) rootDir p.comps

/-- The directory of the path exists and holds no entry of that name. -/
def World.free (w : World) (p : FPath) : Bool :=
  match w.resolve false p with
  | some l => w.nodeAt l = none
  | none => false

/-- The world with the entry at the canonical path `p` replaced. -/
def World.put (w : World) (p : FPath) (n : Node) : World :=
  ⟨fun q => if q = p then some n else w.fs q⟩

/-- The directories to make below the canonical directory `cur`, none of
which may be there. -/
def freshDirs (w : World) : FPath → List String → Option (List FPath)
  | _, [] => some []
  | cur, c :: rest =>
    if c = ".." ∨ w.fs (cur.join c) ≠ none then none
    else (freshDirs w (cur.join c) rest).map (fun ds => cur.join c :: ds)

/-- What `os.MkdirAll` has to make: walks the components as `walkDirs` does
and, from the first one that is missing, lists the directories to make. -/
def mkdirPlan (w : World) (R : FPath → List String → Option FPath) :
    FPath → List String → Option (List FPath)
  | _, [] => some []
  | cur, c :: rest =>
    if c = ".." then
      if w.nodeAt cur.parent = some Node.dir then mkdirPlan w R cur.parent rest else none
    else
      match w.fs (cur.join c) with
      | some Node.dir => mkdirPlan w R (cur.join c) rest
      | some (Node.symlink t) =>
        match R (linkBase t cur) t.comps with
        | some l => if w.nodeAt l = some Node.dir then mkdirPlan w R l rest else none
        | none => none
      | some (Node.file _) => none
      | none => freshDirs w cur (c :: rest)

/-- The call `os.MkdirAll(p, 0755)`: fails when an entry on the way is
neither a directory nor a link to one, and otherwise makes every missing
directory. -/
def mkdirAll (w : World) (p : FPath) : Outcome :=
  match mkdirPlan w (resolveLink w linkDepth) rootDir p.comps with
  | some ds => ⟨⟨fun q => if q ∈ ds then some Node.dir else w.fs q⟩, [Op.mkdirAll p], none⟩
  | none => ⟨w, [Op.mkdirAll p], some "mkdir: not a directory"⟩

/-- The call `os.Symlink(oldname, newname)`: fails when `newname` exists
already or its directory is missing. -/
def Symlink (w : World) (oldname newname : FPath) : Outcome :=
  match w.resolve false newname with
  | some l =>
    if w.nodeAt l = none then ⟨w.put l (Node.symlink oldname), [Op.symlink oldname newname], none⟩
    else ⟨w, [Op.symlink oldname newname], some "symlink: file exists"⟩
  | none => ⟨w, [Op.symlink oldname newname], some "symlink: no such file or directory"⟩

/-- Writes a file at a canonical place: the place must be empty or hold a
regular file. -/
def writeAt (w : World) (l : FPath) (content : Content) : Option World :=
  match w.nodeAt l with
  | none => some (w.put l (Node.file content))
  | some (Node.file _) => some (w.put l (Node.file content))
  | some _ => none

/-- Modelled from the spec: `file.New(name).OpenCreateRewrite()` followed by
`WriteString(content)` and `Close()`; the helper of package `file` is not part
of the source at hand.  It creates or truncates the file, following links,
and fails when the directory is missing or the place holds a directory. -/
def createFile (w : World) (name : FPath) (content : Content) : Outcome :=
  match (w.resolve true name).bind (fun l => writeAt w l content) with
  | some w2 => ⟨w2, [Op.create name content], none⟩
  | none => ⟨w, [Op.create name content], some "open: cannot create file"⟩

/-! ## Repositories and their configuration -/

/-- The fields of `Repository` the code reads. -/
structure Repository where
  Name : String
  GitDir : FPath
  IsBare : Bool
deriving DecidableEq, Repr

/-- Value of a key in a key/value list. -/
def kvGet (kv : List (String × String)) (key : String) : Option String :=
  (kv.find? (fun e => e.1 = key)).map (fun e => e.2)

/-- Modelled from the spec: `cfg.Unset(key)` of the configuration store. -/
def cfgUnset (kv : List (String × String)) (key : String) : List (String × String) :=
  kv.filter (fun e => e.1 ≠ key)

/-- Modelled from the spec: `cfg.Set(key, value)` of the configuration store. -/
def cfgSet (kv : List (String × String)) (key value : String) : List (String × String) :=
  cfgUnset kv key ++ [(key, value)]

/-- The method `v.configFile()`: the entry `config` of the repository. -/
def Repository.configFile (v : Repository) : FPath :=
  v.GitDir.join "config"

/-- The key/value list of the configuration file of the repository at
`gitdir`; empty when the entry `config` is not a configuration file. -/
def World.configAt (w : World) (gitdir : FPath) : List (String × String) :=
  match w.entry (gitdir.join "config") with
  | some (Node.file (Content.config kv)) => kv
  | _ => []

/-- Value of a key in the configuration of the repository at `gitdir`. -/
def World.cfg (w : World) (gitdir : FPath) (key : String) : Option String :=
  kvGet (w.configAt gitdir) key

/-- Modelled from the spec: `v.Config()`, the configuration loaded from the
repository. -/
def Repository.Config (v : Repository) (w : World) : List (String × String) :=
  w.configAt v.GitDir

/-- Modelled from the spec: `cfg.Save(v.configFile())` and `v.SaveConfig(cfg)`,
which write the configuration file of the repository; they fail when its
directory is missing or the entry `config` is a directory or a link. -/
def Repository.SaveConfig (v : Repository) (kv : List (String × String)) (w : World) : Outcome :=
  match (w.resolve false v.configFile).bind (fun l => writeAt w l (Content.config kv)) with
  | some w2 => ⟨w2, [Op.saveConfig v.GitDir], none⟩
  | none => ⟨w, [Op.saveConfig v.GitDir], some "config: cannot write"⟩

/-- The calls `cfg.Unset("core.bare"); cfg.Set("core.logAllRefUpdates", "true")`
on a key/value list. -/
def normalizeKV (kv : List (String × String)) : List (String × String) :=
  cfgSet (cfgUnset kv "core.bare") "core.logAllRefUpdates" "true"

/-- The block `cfg.Unset("core.bare"); cfg.Set("core.logAllRefUpdates", "true")`
followed by saving, which `initMissing` and `Init` run for a repository that is
not bare. -/
def Repository.normalizeBare (v : Repository) (w : World) : Outcome :=
  v.SaveConfig (normalizeKV (v.Config w)) w

/-- The list `dirs` of `initMissing`, in source order (`hooks` is listed twice). -/
def initMissingDirs : List String :=
  ["hooks", "branches", "hooks", "info", "refs"]

/-- The map `files` of `initMissing`, listed in source order.  Go visits a map
in an order it does not fix; the three files are written at three different
places unless one of the entries is a symbolic link, so the order matters only
then.  The text of `config`, `[core]\n\trepositoryformatversion = 0\n`, is
kept as the key/value list it stands for. -/
def initMissingFiles (v : Repository) : List (String × Content) :=
  [("description",
      Content.text ("Repository: " ++ v.Name ++ ", path: " ++ v.GitDir.render ++ "\n")),
   ("config", Content.config [("core.repositoryformatversion", "0")]),
   ("HEAD", Content.text "ref: refs/heads/master\n")]

/-- The loop over `dirs` in `initMissing`. -/
def mkdirLoop (gitdir : FPath) : List String → World → Outcome
  | [], w => ⟨w, [], none⟩
  | d :: ds, w =>
    if w.stat (gitdir.join d) then mkdirLoop gitdir ds w
    else
      let r := mkdirAll w (gitdir.join d)
      match r.err with
      | some e => ⟨r.world, r.ops, some e⟩
      | none =>
        let r2 := mkdirLoop gitdir ds r.world
        ⟨r2.world, r.ops ++ r2.ops, r2.err⟩

/-- The loop over `files` in `initMissing`. -/
def fileLoop (gitdir : FPath) : List (String × Content) → World → Outcome
  | [], w => ⟨w, [], none⟩
  | (name, content) :: fs, w =>
    if w.stat (gitdir.join name) then fileLoop gitdir fs w
    else
      let r := createFile w (gitdir.join name) content
      match r.err with
      | some e => ⟨r.world, r.ops, some e⟩
      | none =>
        let r2 := fileLoop gitdir fs r.world
        ⟨r2.world, r.ops ++ r2.ops, r2.err⟩

/-- The method `Repository.initMissing`.  The result of `cfg.Save` is not
looked at. -/
def Repository.initMissing (v : Repository) (w : World) : Outcome :=
  if w.stat v.GitDir then
    let r1 := mkdirLoop v.GitDir initMissingDirs w
    match r1.err with
    | some e => ⟨r1.world, r1.ops, some e⟩
    | none =>
      let r2 := fileLoop v.GitDir (initMissingFiles v) r1.world
      match r2.err with
      | some e => ⟨r2.world, r1.ops ++ r2.ops, some e⟩
      | none =>
        if !v.IsBare then
          let r3 := v.normalizeBare r2.world
          ⟨r3.world, r1.ops ++ r2.ops ++ r3.ops, none⟩
        else ⟨r2.world, r1.ops ++ r2.ops, none⟩
  else ⟨w, [], some "stat: no such file or directory"⟩

/-! ## Collaborators outside the source at hand -/

/-- What the code takes from outside: the version-control engine run by
`exec.Command(GIT, "init", "-q", "--bare", dir)`, the result of
`config.GetRepoHooksDir()`, and the keys of `config.GerritHooks` in the order
the `range` loop visits them. -/
structure Env where
  gitInitBare : FPath → World → Outcome
  hooksDir : Except String FPath
  gerritHooks : List String

/-- Modelled from the spec: `repo.Exists()`, the source repository physically
exists, that is, its directory is there. -/
def Repository.Exists (v : Repository) (w : World) : Bool :=
  w.isDir v.GitDir

/-- Name of the configuration key holding the URL of a remote. -/
def remoteURLKey (remoteName : String) : String :=
  "remote." ++ remoteName ++ ".url"

/-- Modelled from the spec: `v.GitConfigRemoteURL(name)`, the current value
of `remote.<name>.url`, empty when the key is not set. -/
def Repository.GitConfigRemoteURL (v : Repository) (remoteName : String) (w : World) : String :=
  (w.cfg v.GitDir (remoteURLKey remoteName)).getD ""

/-- Modelled from the spec: `v.setRemote(name, url)`, which sets the key
`remote.<name>.url` of the repository to `url` and saves the configuration. -/
def Repository.setRemote (v : Repository) (remoteName remoteURL : String) (w : World) : Outcome :=
  let r := v.SaveConfig (cfgSet (v.Config w) (remoteURLKey remoteName) remoteURL) w
  ⟨r.world, [Op.setRemote v.GitDir remoteName remoteURL], r.err⟩

/-- Modelled from the spec: `v.setAlternates(reference)`, which records the
reference directory as an alternates path of the object store, in the file
`objects/info/alternates`. -/
def Repository.setAlternates (v : Repository) (reference : String) (w : World) : Outcome :=
  match (w.resolve false (((v.GitDir.join "objects").join "info").join "alternates")).bind
      (fun l => writeAt w l (Content.text (reference ++ "/objects\n"))) with
  | some w2 => ⟨w2, [Op.setAlternates v.GitDir reference], none⟩
  | none => ⟨w, [Op.setAlternates v.GitDir reference], some "alternates: cannot write"⟩

/-- The URL `Init` persists: `remoteURL` itself when it ends with `.git`, and
`remoteURL + ".git"` otherwise. -/
def normalizeURL (remoteURL : String) : String :=
  if !hasSuffix remoteURL ".git" then remoteURL ++ ".git" else remoteURL

/-- Lines 126-131 of `Init`: the configuration block run for a repository
that is not bare.  The result of `v.SaveConfig` is not looked at. -/
def Repository.afterBare (v : Repository) (w0 : World) : Outcome :=
  if !v.IsBare then ⟨(v.normalizeBare w0).world, (v.normalizeBare w0).ops, none⟩
  else ⟨w0, [], none⟩

/-- Lines 133-144 of `Init`: with a remote name and a remote URL, the URL is
normalised and written through `setRemote` unless the key holds it already. -/
def Repository.afterRemote (v : Repository) (remoteName remoteURL : String) (w1 : World) :
    Outcome :=
  if remoteName ≠ "" ∧ remoteURL ≠ "" then
    if v.GitConfigRemoteURL remoteName w1 ≠ normalizeURL remoteURL then
      v.setRemote remoteName (normalizeURL remoteURL) w1
    else ⟨w1, [], none⟩
  else ⟨w1, [], none⟩

/-- Lines 146-148 of `Init`: the reference directory is recorded when one is
given; the result of `setAlternates` is not looked at. -/
def Repository.afterReference (v : Repository) (referenceGitDir : String) (w2 : World) :
    Outcome :=
  if referenceGitDir ≠ "" then
    ⟨(v.setAlternates referenceGitDir w2).world, (v.setAlternates referenceGitDir w2).ops, none⟩
  else ⟨w2, [], none⟩

/-- The method `Repository.Init`: the engine is run, then the three blocks
above in order. -/
def Repository.Init (env : Env) (v : Repository) (remoteName remoteURL referenceGitDir : String)
    (w : World) : Outcome :=
  let r0 := env.gitInitBare v.GitDir w
  match r0.err with
  | some e => ⟨r0.world, r0.ops, some e⟩
  | none =>
    let r1 := v.afterBare r0.world
    let r2 := v.afterRemote remoteName remoteURL r1.world
    match r2.err with
    | some e => ⟨r2.world, r0.ops ++ r1.ops ++ r2.ops, some e⟩
    | none =>
      let r3 := v.afterReference referenceGitDir r2.world
      ⟨r3.world, r0.ops ++ r1.ops ++ r2.ops ++ r3.ops, none⟩

/-- The list `items` of `InitByLink`. -/
def attachItems : List String :=
  ["objects", "description", "info", "hooks", "svn", "rr-cache"]

/-- Lines 185-188 of `InitByLink`: the text of the link is the path of the
source item relative to the project directory, and the path of the source item
itself when `filepath.Rel` fails. -/
def linkTarget (vGitDir source : FPath) : FPath :=
  match Rel vGitDir source with
  | some r => r
  | none => source

/-- The loop over `items` in `InitByLink`.  The `err` of the outcome is the
error the loop stopped on (`break`), `none` when it ran to the end. -/
def linkLoop (vGitDir repoGitDir : FPath) : List String → World → Outcome
  | [], w => ⟨w, [], none⟩
  | item :: rest, w =>
    let source := repoGitDir.join item
    let target := vGitDir.join item
    if !w.stat source then linkLoop vGitDir repoGitDir rest w
    else
      let r := Symlink w (linkTarget vGitDir source) target
      match r.err with
      | some e => ⟨r.world, r.ops, some e⟩
      | none =>
        let r2 := linkLoop vGitDir repoGitDir rest r.world
        ⟨r2.world, r.ops ++ r2.ops, r2.err⟩

/-- The method `Repository.InitByLink`. -/
def Repository.InitByLink (env : Env) (v : Repository) (remoteName remoteURL : String)
    (repo : Repository) (w : World) : Outcome :=
  if !repo.Exists w then ⟨w, [], some ("attach a non-exist repo: " ++ repo.GitDir.render)⟩
  else
    let r0 := repo.initMissing w
    if repo.GitDir = v.GitDir then ⟨r0.world, r0.ops, none⟩
    else
      let r1 := mkdirAll r0.world v.GitDir
      match r1.err with
      | some e => ⟨r1.world, r0.ops ++ r1.ops, some e⟩
      | none =>
        let r2 := linkLoop v.GitDir repo.GitDir attachItems r1.world
        let r3 := v.Init env remoteName remoteURL "" r2.world
        ⟨r3.world, r0.ops ++ r1.ops ++ r2.ops ++ r3.ops, none⟩

/-- The loop over `config.GerritHooks` in `InitHooks`. -/
def hookLoop (gitdir hookdir : FPath) : List String → World → Outcome
  | [], w => ⟨w, [], none⟩
  | name :: rest, w =>
    let target := (gitdir.join "hooks").join name
    let source := hookdir.join name
    let r := Symlink w source target
    match r.err with
    | some e => ⟨r.world, r.ops, some ("fail to set link for hook " ++ name ++ ": " ++ e)⟩
    | none =>
      let r2 := hookLoop gitdir hookdir rest r.world
      ⟨r2.world, r.ops ++ r2.ops, r2.err⟩

/-- The method `Repository.InitHooks`. -/
def Repository.InitHooks (env : Env) (v : Repository) (w : World) : Outcome :=
  match env.hooksDir with
  | Except.error e => ⟨w, [], some ("fail to get hook path " ++ e)⟩
  | Except.ok hookdir => hookLoop v.GitDir hookdir env.gerritHooks w

/-- The fields and results `GitInit` reads from a `Project`: its own
repository, `RemoteName`, the result of `v.GetRemoteURL()` and the one of
`v.ObjectsRepository()` (`none` is `nil`). -/
structure Project where
  repo : Repository
  RemoteName : String
  GetRemoteURL : Except String String
  ObjectsRepository : Option Repository

/-- The method `Project.GitInit`. -/
def Project.GitInit (env : Env) (v : Project) (w : World) : Outcome :=
  match v.GetRemoteURL with
  | Except.error e => ⟨w, [], some e⟩
  | Except.ok remoteURL =>
    match v.ObjectsRepository with
    | some objectsRepo =>
      if v.repo.GitDir ≠ objectsRepo.GitDir then
        let r1 := objectsRepo.Init env "" "" "" w
        let r2 := objectsRepo.InitHooks env r1.world
        let r3 := v.repo.InitByLink env v.RemoteName remoteURL objectsRepo r2.world
        ⟨r3.world, r1.ops ++ r2.ops ++ r3.ops, none⟩
      else
        let r := v.repo.Init env v.RemoteName remoteURL "" w
        ⟨r.world, r.ops, none⟩
    | none =>
      let r := v.repo.Init env v.RemoteName remoteURL "" w
      ⟨r.world, r.ops, none⟩

/-! ## Sample worlds -/

/-- An absolute path from its components. -/
def absPath (comps : List String) : FPath := ⟨true, comps⟩

/-- A world from a finite table of entries. -/
def worldOf (entries : List (FPath × Node)) : World :=
  ⟨fun p => (entries.find? (fun e => e.1 = p)).map (fun e => e.2)⟩

/-- An engine that makes the repository directory, and in it the `objects`
and `refs` entries that are not there yet, and succeeds. -/
def sampleGit (dir : FPath) (w : World) : Outcome :=
  let r1 := mkdirAll w dir
  match r1.err with
  | some e => ⟨r1.world, [Op.gitInit dir], some e⟩
  | none =>
    let r2 := mkdirLoop dir ["objects", "refs"] r1.world
    ⟨r2.world, [Op.gitInit dir], r2.err⟩

/-- An engine that, like `git init --bare`, also writes `core.bare = true`
into the configuration of the repository. -/
def bareGit (dir : FPath) (w : World) : Outcome :=
  let r := sampleGit dir w
  match r.err with
  | some e => ⟨r.world, r.ops, some e⟩
  | none =>
    let r2 := Repository.SaveConfig ⟨"", dir, true⟩
      (cfgSet (r.world.configAt dir) "core.bare" "true") r.world
    ⟨r2.world, r.ops, r2.err⟩

/-- An engine that cannot be started. -/
def failingGit (dir : FPath) (w : World) : Outcome :=
  ⟨w, [Op.gitInit dir], some "exec: git: executable file not found"⟩

/-- Hook registry and hook directory of Scenario C of the specification. -/
def sampleEnv : Env :=
  ⟨sampleGit, Except.ok (absPath ["central", "hooks"]), ["pre-commit", "commit-msg"]⟩

/-- The environment of `sampleEnv` with an engine that writes `core.bare`. -/
def bareEnv : Env :=
  ⟨bareGit, Except.ok (absPath ["central", "hooks"]), ["pre-commit", "commit-msg"]⟩

/-- The environment of `sampleEnv` with an engine that fails. -/
def brokenEnv : Env :=
  ⟨failingGit, Except.ok (absPath ["central", "hooks"]), ["pre-commit", "commit-msg"]⟩

/-- The shared repository of Scenario A: `/shared/objs` with `objects` and `hooks`. -/
def sharedWorld : World :=
  worldOf [(absPath ["shared"], Node.dir), (absPath ["shared", "objs"], Node.dir),
    (absPath ["shared", "objs", "objects"], Node.dir),
    (absPath ["shared", "objs", "hooks"], Node.dir)]

/-- The repository at `/shared/objs`. -/
def sharedRepo : Repository := ⟨"objs", absPath ["shared", "objs"], true⟩

/-- The repository at `/proj/.git`. -/
def projRepo : Repository := ⟨"proj", absPath ["proj", ".git"], true⟩

/-- A repository with a work tree at `/work/.git`. -/
def workRepo : Repository := ⟨"work", absPath ["work", ".git"], false⟩

/-- The repository `/work/.git` with its whole layout, whose configuration
holds `core.bare = true` and nothing else. -/
def workWorld : World :=
  worldOf [(absPath ["work"], Node.dir), (absPath ["work", ".git"], Node.dir),
    (absPath ["work", ".git", "hooks"], Node.dir),
    (absPath ["work", ".git", "branches"], Node.dir),
    (absPath ["work", ".git", "info"], Node.dir),
    (absPath ["work", ".git", "refs"], Node.dir),
    (absPath ["work", ".git", "description"], Node.file (Content.text "work\n")),
    (absPath ["work", ".git", "config"], Node.file (Content.config [("core.bare", "true")])),
    (absPath ["work", ".git", "HEAD"], Node.file (Content.text "ref: refs/heads/main\n"))]

/-- The directory `/work/.git`, empty. -/
def emptyWorkWorld : World :=
  worldOf [(absPath ["work"], Node.dir), (absPath ["work", ".git"], Node.dir)]

/-- The repository `/work/.git` with its whole layout, where `config` is a
directory. -/
def lockedWorld : World :=
  worldOf [(absPath ["work"], Node.dir), (absPath ["work", ".git"], Node.dir),
    (absPath ["work", ".git", "hooks"], Node.dir),
    (absPath ["work", ".git", "branches"], Node.dir),
    (absPath ["work", ".git", "info"], Node.dir),
    (absPath ["work", ".git", "refs"], Node.dir),
    (absPath ["work", ".git", "description"], Node.file (Content.text "work\n")),
    (absPath ["work", ".git", "config"], Node.dir),
    (absPath ["work", ".git", "HEAD"], Node.file (Content.text "ref: refs/heads/main\n"))]

/-- The shared repository of Scenario A next to a project directory
`/proj/.git` in which `objects` is taken already. -/
def occupiedWorld : World :=
  worldOf [(absPath ["shared"], Node.dir), (absPath ["shared", "objs"], Node.dir),
    (absPath ["shared", "objs", "objects"], Node.dir),
    (absPath ["shared", "objs", "hooks"], Node.dir),
    (absPath ["proj"], Node.dir), (absPath ["proj", ".git"], Node.dir),
    (absPath ["proj", ".git", "objects"], Node.dir)]

/-- The shared repository of Scenario A next to a project directory
`/proj/.git` in which `info` is taken already. -/
def takenInfoWorld : World :=
  worldOf [(absPath ["shared"], Node.dir), (absPath ["shared", "objs"], Node.dir),
    (absPath ["shared", "objs", "objects"], Node.dir),
    (absPath ["shared", "objs", "hooks"], Node.dir),
    (absPath ["proj"], Node.dir), (absPath ["proj", ".git"], Node.dir),
    (absPath ["proj", ".git", "info"], Node.dir)]

/-- The shared repository of Scenario A next to a regular file `/proj`. -/
def blockedWorld : World :=
  worldOf [(absPath ["shared"], Node.dir), (absPath ["shared", "objs"], Node.dir),
    (absPath ["shared", "objs", "objects"], Node.dir),
    (absPath ["shared", "objs", "hooks"], Node.dir),
    (absPath ["proj"], Node.file (Content.text ""))]

/-- The project repository named by the relative path `proj/.git`. -/
def relProjRepo : Repository := ⟨"proj", ⟨false, ["proj", ".git"]⟩, true⟩

/-- The shared repository of Scenario A, in whose `hooks` directory a regular
file `commit-msg` lies already. -/
def hookedWorld : World :=
  worldOf [(absPath ["shared"], Node.dir), (absPath ["shared", "objs"], Node.dir),
    (absPath ["shared", "objs", "objects"], Node.dir),
    (absPath ["shared", "objs", "hooks"], Node.dir),
    (absPath ["shared", "objs", "hooks", "commit-msg"],
      Node.file (Content.text "#!/bin/sh\n"))]

/-- The shared repository of Scenario A, where `svn` is a link that leads
nowhere. -/
def danglingWorld : World :=
  worldOf [(absPath ["shared"], Node.dir), (absPath ["shared", "objs"], Node.dir),
    (absPath ["shared", "objs", "objects"], Node.dir),
    (absPath ["shared", "objs", "hooks"], Node.dir),
    (absPath ["shared", "objs", "svn"], Node.symlink ⟨false, ["nowhere"]⟩)]

/-! ## Predicates used in the statements -/

/-- What the resolution of paths sees of an entry: a directory, a link and
its text, or nothing of either kind. -/
def shape : Option Node → Option Node
  | some Node.dir => some Node.dir
  | some (Node.symlink t) => some (Node.symlink t)
  | _ => none

/-- Whether what `os.Lstat` finds is a symbolic link. -/
def isLink : Option Node → Bool
  | some (Node.symlink _) => true
  | _ => false

/-- One world extends another: every entry is kept as it is. -/
def Grows (w w2 : World) : Prop :=
  ∀ q n, w.fs q = some n → w2.fs q = some n

/-- Every entry is kept, a regular file possibly with another content. -/
def Le (w w2 : World) : Prop :=
  ∀ q n, w.fs q = some n → w2.fs q = some n ∨ ∃ c c2, n = Node.file c ∧ w2.fs q = some (Node.file c2)

/-- A resolver of link texts is carried over from one world to another: a
place it finds is found again, provided the place, if empty, stays empty. -/
def Carries (w w2 : World) (R R2 : FPath → List String → Option FPath) : Prop :=
  ∀ cur ts l, R cur ts = some l → (w.nodeAt l = none → w2.nodeAt l = none) → R2 cur ts = some l

/-- The layout of the repository is complete: its directory and every entry
`initMissing` looks for are there. -/
def Complete (v : Repository) (w : World) : Prop :=
  w.stat v.GitDir = true
    ∧ (∀ d ∈ initMissingDirs, w.stat (v.GitDir.join d) = true)
    ∧ (∀ x ∈ initMissingFiles v, w.stat (v.GitDir.join x.1) = true)

/-! ## Resolution of paths -/

theorem Grows.refl (w : World) : Grows w w := fun _ _ h => h

theorem Grows.trans {a b c : World} (h1 : Grows a b) (h2 : Grows b c) : Grows a c :=
  fun q n h => h2 q n (h1 q n h)

theorem Grows.le {w w2 : World} (h : Grows w w2) : Le w w2 :=
  fun q n hq => Or.inl (h q n hq)

theorem Le.same (w : World) : Le w w := fun _ _ h => Or.inl h

theorem Le.chain {a b c : World} (h1 : Le a b) (h2 : Le b c) : Le a c := by
  intro q n hq
  rcases h1 q n hq with h | ⟨x, y, rfl, h⟩
  · exact h2 q n h
  · rcases h2 q _ h with h3 | ⟨_, z, _, h3⟩
    · exact Or.inr ⟨x, y, rfl, h3⟩
    · exact Or.inr ⟨x, z, rfl, h3⟩

theorem Le.dir {w w2 : World} (h : Le w w2) {q : FPath} (hq : w.fs q = some Node.dir) :
    w2.fs q = some Node.dir := by
  rcases h q _ hq with h1 | ⟨c, _, hc, _⟩
  · exact h1
  · cases hc

theorem Le.symlink {w w2 : World} (h : Le w w2) {q t : FPath}
    (hq : w.fs q = some (Node.symlink t)) : w2.fs q = some (Node.symlink t) := by
  rcases h q _ hq with h1 | ⟨c, _, hc, _⟩
  · exact h1
  · cases hc

theorem Le.file {w w2 : World} (h : Le w w2) {q : FPath} {c : Content}
    (hq : w.fs q = some (Node.file c)) : ∃ c2, w2.fs q = some (Node.file c2) := by
  rcases h q _ hq with h1 | ⟨_, c2, _, h2⟩
  · exact ⟨c, h1⟩
  · exact ⟨c2, h2⟩

theorem Le.nodeAt_dir {w w2 : World} (h : Le w w2) {q : FPath}
    (hq : w.nodeAt q = some Node.dir) : w2.nodeAt q = some Node.dir := by
  unfold World.nodeAt at hq ⊢
  by_cases hc : q.comps = []
  · simp [hc]
  · simp only [hc, if_false] at hq ⊢
    exact h.dir hq

theorem Le.nodeAt_some {w w2 : World} (h : Le w w2) {q : FPath} {n : Node}
    (hq : w.nodeAt q = some n) : ∃ n2, w2.nodeAt q = some n2 := by
  unfold World.nodeAt at hq ⊢
  by_cases hc : q.comps = []
  · simp [hc]
  · simp only [hc, if_false] at hq ⊢
    rcases h q n hq with h1 | ⟨_, c2, _, h2⟩
    · exact ⟨n, h1⟩
    · exact ⟨_, h2⟩

theorem join_comps_ne_nil (g : FPath) (d : String) : (g.join d).comps ≠ [] := by
  simp [FPath.join]

theorem join_injective (g : FPath) {a b : String} (h : g.join a = g.join b) : a = b := by
  simp [FPath.join] at h
  exact h

theorem nodeAt_join (w : World) (g : FPath) (d : String) :
    w.nodeAt (g.join d) = w.fs (g.join d) := by
  simp [World.nodeAt, join_comps_ne_nil]

theorem walkDirs_le {w w2 : World} {R R2 : FPath → List String → Option FPath}
    (hle : Le w w2) (hR : Carries w w2 R R2) :
    ∀ (xs : List String) (cur g : FPath), walkDirs w R cur xs = some g →
      walkDirs w2 R2 cur xs = some g
  | [], _, _ => fun h => h
  | c :: rest, cur, g => by
    intro h
    unfold walkDirs at h ⊢
    by_cases hc : c = ".."
    · simp only [hc, if_true] at h ⊢
      by_cases hp : w.nodeAt cur.parent = some Node.dir
      · rw [if_pos hp] at h
        rw [if_pos (hle.nodeAt_dir hp)]
        exact walkDirs_le hle hR rest _ g h
      · rw [if_neg hp] at h; cases h
    · simp only [hc, if_false] at h ⊢
      cases hn : w.fs (cur.join c) with
      | none => rw [hn] at h; cases h
      | some n =>
        cases n with
        | dir =>
          rw [hn] at h
          rw [hle.dir hn]
          exact walkDirs_le hle hR rest _ g h
        | file x => rw [hn] at h; cases h
        | symlink t =>
          rw [hn] at h
          rw [hle.symlink hn]
          simp only at h ⊢
          cases hr : R (linkBase t cur) t.comps with
          | none => rw [hr] at h; cases h
          | some l =>
            rw [hr] at h
            simp only at h
            by_cases hd : w.nodeAt l = some Node.dir
            · rw [if_pos hd] at h
              rw [hR _ _ l hr (fun h0 => by rw [hd] at h0; cases h0)]
              simp only
              rw [if_pos (hle.nodeAt_dir hd)]
              exact walkDirs_le hle hR rest _ g h
            · rw [if_neg hd] at h; cases h

theorem lastStep_le {w w2 : World} {R R2 : FPath → List String → Option FPath}
    (hle : Le w w2) (hR : Carries w w2 R R2) (follow : Bool) (g : FPath) (c : String)
    {l : FPath} (h : lastStep w R follow g c = some l)
    (hkeep : w.nodeAt l = none → w2.nodeAt l = none) :
    lastStep w2 R2 follow g c = some l := by
  unfold lastStep at h ⊢
  by_cases hc : c = ".."
  · simp only [hc, if_true] at h ⊢
    by_cases hp : w.nodeAt g.parent = some Node.dir
    · rw [if_pos hp] at h
      rw [if_pos (hle.nodeAt_dir hp)]
      exact h
    · rw [if_neg hp] at h; cases h
  · simp only [hc, if_false] at h ⊢
    cases hn : w.fs (g.join c) with
    | none =>
      rw [hn] at h
      simp only [Option.some.injEq] at h
      subst h
      have h2 : w2.fs (g.join c) = none := by
        have := hkeep (by rw [nodeAt_join]; exact hn)
        rwa [nodeAt_join] at this
      rw [h2]
    | some n =>
      cases n with
      | dir => rw [hn] at h; rw [hle.dir hn]; exact h
      | file x =>
        rw [hn] at h
        obtain ⟨c2, h2⟩ := hle.file hn
        rw [h2]; exact h
      | symlink t =>
        rw [hn] at h
        rw [hle.symlink hn]
        simp only at h ⊢
        cases follow
        · exact h
        · simp only [if_true] at h ⊢
          exact hR _ _ l h hkeep

theorem walkPath_le {w w2 : World} {R R2 : FPath → List String → Option FPath}
    (hle : Le w w2) (hR : Carries w w2 R R2) (follow : Bool) (cur : FPath) (xs : List String)
    {l : FPath} (h : walkPath w R follow cur xs = some l)
    (hkeep : w.nodeAt l = none → w2.nodeAt l = none) :
    walkPath w2 R2 follow cur xs = some l := by
  unfold walkPath at h ⊢
  cases hx : xs.getLast? with
  | none => rw [hx] at h; exact h
  | some c =>
    rw [hx] at h
    simp only at h ⊢
    cases hg : walkDirs w R cur xs.dropLast with
    | none => rw [hg] at h; cases h
    | some g =>
      rw [hg] at h
      rw [walkDirs_le hle hR _ _ _ hg]
      exact lastStep_le hle hR follow g c h hkeep

theorem resolveLink_le {w w2 : World} (hle : Le w w2) :
    ∀ n : Nat, Carries w w2 (resolveLink w n) (resolveLink w2 n)
  | 0 => by intro cur ts l h; cases h
  | n + 1 => by
    intro cur ts l h hkeep
    exact walkPath_le hle (resolveLink_le hle n) true cur ts h hkeep

/-- A place a path resolves to is the place it resolves to in every world
that keeps the entries, provided the place, if empty, stays empty. -/
theorem resolve_le {w w2 : World} (hle : Le w w2) {follow : Bool} {p l : FPath}
    (h : w.resolve follow p = some l) (hkeep : w.nodeAt l = none → w2.nodeAt l = none) :
    w2.resolve follow p = some l :=
  walkPath_le hle (resolveLink_le hle linkDepth) follow rootDir p.comps h hkeep

theorem dirOf_le {w w2 : World} (hle : Le w w2) {p g : FPath} (h : w.dirOf p = some g) :
    w2.dirOf p = some g :=
  walkDirs_le hle (resolveLink_le hle linkDepth) _ _ _ h

/-- An entry a path names, links followed, is still named by it in a world
that keeps the entries. -/
theorem lookup_le {w w2 : World} (hle : Le w w2) {p : FPath} {n : Node}
    (h : w.lookup p = some n) :
    w2.lookup p = some n ∨ ∃ c c2, n = Node.file c ∧ w2.lookup p = some (Node.file c2) := by
  unfold World.lookup at h ⊢
  cases hr : w.resolve true p with
  | none => rw [hr] at h; cases h
  | some l =>
    rw [hr] at h
    simp only [Option.some_bind] at h
    rw [resolve_le hle hr (fun h0 => by rw [h] at h0; cases h0)]
    simp only [Option.some_bind]
    unfold World.nodeAt at h ⊢
    by_cases hc : l.comps = []
    · simp only [hc, if_true] at h ⊢; exact Or.inl h
    · simp only [hc, if_false] at h ⊢
      exact hle l n h

theorem stat_le {w w2 : World} (hle : Le w w2) {p : FPath} (h : w.stat p = true) :
    w2.stat p = true := by
  unfold World.stat at h ⊢
  obtain ⟨n, hn⟩ := Option.isSome_iff_exists.1 h
  rcases lookup_le hle hn with h2 | ⟨_, _, _, h2⟩ <;> rw [h2] <;> rfl

theorem isDir_le {w w2 : World} (hle : Le w w2) {p : FPath} (h : w.isDir p = true) :
    w2.isDir p = true := by
  unfold World.isDir at h ⊢
  simp only [decide_eq_true_eq] at h ⊢
  rcases lookup_le hle h with h2 | ⟨_, _, hc, _⟩
  · exact h2
  · cases hc

theorem entry_le {w w2 : World} (hle : Le w w2) {p : FPath} {n : Node}
    (h : w.entry p = some n) :
    w2.entry p = some n ∨ ∃ c c2, n = Node.file c ∧ w2.entry p = some (Node.file c2) := by
  unfold World.entry at h ⊢
  cases hr : w.resolve false p with
  | none => rw [hr] at h; cases h
  | some l =>
    rw [hr] at h
    simp only [Option.some_bind] at h
    rw [resolve_le hle hr (fun h0 => by rw [h] at h0; cases h0)]
    simp only [Option.some_bind]
    unfold World.nodeAt at h ⊢
    by_cases hc : l.comps = []
    · simp only [hc, if_true] at h ⊢; exact Or.inl h
    · simp only [hc, if_false] at h ⊢
      exact hle l n h

theorem lookup_grows {w w2 : World} (hg : Grows w w2) {p : FPath} {n : Node}
    (h : w.lookup p = some n) : w2.lookup p = some n := by
  unfold World.lookup at h ⊢
  cases hr : w.resolve true p with
  | none => rw [hr] at h; cases h
  | some l =>
    rw [hr] at h
    simp only [Option.some_bind] at h
    rw [resolve_le hg.le hr (fun h0 => by rw [h] at h0; cases h0)]
    simp only [Option.some_bind]
    unfold World.nodeAt at h ⊢
    by_cases hc : l.comps = []
    · simp only [hc, if_true] at h ⊢; exact h
    · simp only [hc, if_false] at h ⊢
      exact hg l n h

theorem entry_grows {w w2 : World} (hg : Grows w w2) {p : FPath} {n : Node}
    (h : w.entry p = some n) : w2.entry p = some n := by
  unfold World.entry at h ⊢
  cases hr : w.resolve false p with
  | none => rw [hr] at h; cases h
  | some l =>
    rw [hr] at h
    simp only [Option.some_bind] at h
    rw [resolve_le hg.le hr (fun h0 => by rw [h] at h0; cases h0)]
    simp only [Option.some_bind]
    unfold World.nodeAt at h ⊢
    by_cases hc : l.comps = []
    · simp only [hc, if_true] at h ⊢; exact h
    · simp only [hc, if_false] at h ⊢
      exact hg l n h

/-! Regular files play no part in the resolution of paths. -/

theorem nodeAt_dir_of_shape {w w2 : World} (hs : ∀ q, shape (w.fs q) = shape (w2.fs q))
    (q : FPath) : (w.nodeAt q = some Node.dir) = (w2.nodeAt q = some Node.dir) := by
  unfold World.nodeAt
  by_cases hc : q.comps = []
  · simp [hc]
  · simp only [hc, if_false]
    have := hs q
    cases h1 : w.fs q with
    | none =>
      cases h2 : w2.fs q with
      | none => rfl
      | some n2 => cases n2 <;> simp_all [shape]
    | some n1 =>
      cases h2 : w2.fs q with
      | none => cases n1 <;> simp_all [shape]
      | some n2 => cases n1 <;> cases n2 <;> simp_all [shape]

theorem walkDirs_shape {w w2 : World} (hs : ∀ q, shape (w.fs q) = shape (w2.fs q))
    (R : FPath → List String → Option FPath) :
    ∀ (xs : List String) (cur : FPath), walkDirs w R cur xs = walkDirs w2 R cur xs
  | [], _ => rfl
  | c :: rest, cur => by
    unfold walkDirs
    by_cases hc : c = ".."
    · simp only [hc, if_true]
      rw [walkDirs_shape hs R rest]
      by_cases hp : w.nodeAt cur.parent = some Node.dir
      · rw [if_pos hp, if_pos ((nodeAt_dir_of_shape hs _).mp hp)]
      · rw [if_neg hp, if_neg (fun h => hp ((nodeAt_dir_of_shape hs _).mpr h))]
    · simp only [hc, if_false]
      have := hs (cur.join c)
      have ih := walkDirs_shape hs R rest
      have hd := nodeAt_dir_of_shape hs
      cases h1 : w.fs (cur.join c) with
      | none =>
        cases h2 : w2.fs (cur.join c) with
        | none => rfl
        | some n2 => cases n2 <;> simp_all [shape]
      | some n1 =>
        cases h2 : w2.fs (cur.join c) with
        | none => cases n1 <;> simp_all [shape]
        | some n2 => cases n1 <;> cases n2 <;> simp_all [shape]

theorem lastStep_shape {w w2 : World} (hs : ∀ q, shape (w.fs q) = shape (w2.fs q))
    (R : FPath → List String → Option FPath) (follow : Bool) (g : FPath) (c : String) :
    lastStep w R follow g c = lastStep w2 R follow g c := by
  unfold lastStep
  by_cases hc : c = ".."
  · simp only [hc, if_true]
    by_cases hp : w.nodeAt g.parent = some Node.dir
    · rw [if_pos hp, if_pos ((nodeAt_dir_of_shape hs _).mp hp)]
    · rw [if_neg hp, if_neg (fun h => hp ((nodeAt_dir_of_shape hs _).mpr h))]
  · simp only [hc, if_false]
    have := hs (g.join c)
    cases h1 : w.fs (g.join c) with
    | none =>
      cases h2 : w2.fs (g.join c) with
      | none => rfl
      | some n2 => cases n2 <;> simp_all [shape]
    | some n1 =>
      cases h2 : w2.fs (g.join c) with
      | none => cases n1 <;> simp_all [shape]
      | some n2 => cases n1 <;> cases n2 <;> simp_all [shape]

theorem walkPath_shape {w w2 : World} (hs : ∀ q, shape (w.fs q) = shape (w2.fs q))
    (R : FPath → List String → Option FPath) (follow : Bool) (cur : FPath) (xs : List String) :
    walkPath w R follow cur xs = walkPath w2 R follow cur xs := by
  unfold walkPath
  cases xs.getLast? with
  | none => rfl
  | some c =>
    simp only
    rw [walkDirs_shape hs R]
    congr 1
    funext g
    exact lastStep_shape hs R follow g c

theorem resolveLink_shape {w w2 : World} (hs : ∀ q, shape (w.fs q) = shape (w2.fs q)) :
    ∀ n : Nat, resolveLink w n = resolveLink w2 n
  | 0 => rfl
  | n + 1 => by
    funext cur ts
    show walkPath w (resolveLink w n) true cur ts = walkPath w2 (resolveLink w2 n) true cur ts
    rw [resolveLink_shape hs n]
    exact walkPath_shape hs _ true cur ts

/-- Two worlds that differ in regular files only resolve every path alike. -/
theorem resolve_shape {w w2 : World} (hs : ∀ q, shape (w.fs q) = shape (w2.fs q))
    (follow : Bool) (p : FPath) : w2.resolve follow p = w.resolve follow p := by
  unfold World.resolve
  rw [resolveLink_shape hs linkDepth]
  exact (walkPath_shape hs _ follow rootDir p.comps).symm

theorem dirOf_shape {w w2 : World} (hs : ∀ q, shape (w.fs q) = shape (w2.fs q))
    (p : FPath) : w2.dirOf p = w.dirOf p := by
  unfold World.dirOf
  rw [resolveLink_shape hs linkDepth]
  exact (walkDirs_shape hs _ p.comps rootDir).symm

/-! Walking a path component by component. -/

theorem walkDirs_cons (w : World) (R : FPath → List String → Option FPath) (cur : FPath)
    (c : String) (rest : List String) :
    walkDirs w R cur (c :: rest)
      = if c = ".." then
          if w.nodeAt cur.parent = some Node.dir then walkDirs w R cur.parent rest else none
        else
          match w.fs (cur.join c) with
          | some Node.dir => walkDirs w R (cur.join c) rest
          | some (Node.symlink t) =>
            match R (linkBase t cur) t.comps with
            | some l => if w.nodeAt l = some Node.dir then walkDirs w R l rest else none
            | none => none
          | _ => none := by
  rw [walkDirs]

theorem walkDirs_append (w : World) (R : FPath → List String → Option FPath) :
    ∀ (xs ys : List String) (cur : FPath),
      walkDirs w R cur (xs ++ ys) = (walkDirs w R cur xs).bind (fun g => walkDirs w R g ys)
  | [], _, _ => rfl
  | c :: rest, ys, cur => by
    have ih := walkDirs_append w R rest ys
    simp only [List.cons_append]
    rw [walkDirs_cons, walkDirs_cons]
    by_cases hc : c = ".."
    · by_cases hp : w.nodeAt cur.parent = some Node.dir
      · simp only [hc, hp, if_true]; exact ih _
      · simp [hc, hp]
    · cases hn : w.fs (cur.join c) with
      | none => simp [hc]
      | some n =>
        cases n with
        | dir => simp only [hc, if_false]; exact ih _
        | file x => simp [hc]
        | symlink t =>
          cases hr : R (linkBase t cur) t.comps with
          | none => simp [hc, hr]
          | some l =>
            by_cases hd : w.nodeAt l = some Node.dir
            · simp only [hc, hr, hd, if_true, if_false]; exact ih _
            · simp [hc, hr, hd]

theorem walkDirs_isDir (w : World) (R : FPath → List String → Option FPath) :
    ∀ (xs : List String) (cur g : FPath), w.nodeAt cur = some Node.dir →
      walkDirs w R cur xs = some g → w.nodeAt g = some Node.dir
  | [], _, _ => by
    intro h0 h
    simp only [walkDirs, Option.some.injEq] at h
    rw [← h]; exact h0
  | c :: rest, cur, g => by
    intro h0 h
    unfold walkDirs at h
    by_cases hc : c = ".."
    · simp only [hc, if_true] at h
      by_cases hp : w.nodeAt cur.parent = some Node.dir
      · rw [if_pos hp] at h
        exact walkDirs_isDir w R rest _ g hp h
      · rw [if_neg hp] at h; cases h
    · simp only [hc, if_false] at h
      cases hn : w.fs (cur.join c) with
      | none => rw [hn] at h; cases h
      | some n =>
        cases n with
        | dir =>
          rw [hn] at h
          exact walkDirs_isDir w R rest _ g (by rw [nodeAt_join]; exact hn) h
        | file x => rw [hn] at h; cases h
        | symlink t =>
          rw [hn] at h
          simp only at h
          cases hr : R (linkBase t cur) t.comps with
          | none => rw [hr] at h; cases h
          | some l =>
            rw [hr] at h
            simp only at h
            by_cases hd : w.nodeAt l = some Node.dir
            · rw [if_pos hd] at h
              exact walkDirs_isDir w R rest _ g hd h
            · rw [if_neg hd] at h; cases h

theorem nodeAt_root (w : World) : w.nodeAt rootDir = some Node.dir := rfl

theorem dirOf_isDir {w : World} {p g : FPath} (h : w.dirOf p = some g) :
    w.nodeAt g = some Node.dir :=
  walkDirs_isDir w _ _ _ g (nodeAt_root w) h

theorem walkPath_concat (w : World) (R : FPath → List String → Option FPath) (follow : Bool)
    (cur : FPath) (xs : List String) (c : String) :
    walkPath w R follow cur (xs ++ [c])
      = (walkDirs w R cur xs).bind (fun g => lastStep w R follow g c) := by
  unfold walkPath
  simp

/-- The place of an entry named through its directory: the directory is
resolved, then the last step is taken in it. -/
theorem resolve_join (w : World) (follow : Bool) (g : FPath) (c : String) :
    w.resolve follow (g.join c)
      = (w.dirOf g).bind (fun d => lastStep w (resolveLink w linkDepth) follow d c) := by
  unfold World.resolve World.dirOf FPath.join
  exact walkPath_concat w _ follow rootDir g.comps c

/-- A step into a directory, or through a link to one, is also the last step
of the path that ends there. -/
theorem lastStep_of_walkDirs {w : World} {R : FPath → List String → Option FPath}
    {g l : FPath} {c : String} (h : walkDirs w R g [c] = some l) :
    lastStep w R true g c = some l := by
  unfold walkDirs at h
  unfold lastStep
  by_cases hc : c = ".."
  · simp only [hc, if_true] at h ⊢
    by_cases hp : w.nodeAt g.parent = some Node.dir
    · rw [if_pos hp] at h ⊢; simpa [walkDirs] using h
    · rw [if_neg hp] at h; cases h
  · simp only [hc, if_false] at h ⊢
    cases hn : w.fs (g.join c) with
    | none => rw [hn] at h; cases h
    | some n =>
      cases n with
      | dir => rw [hn] at h; simpa [walkDirs] using h
      | file x => rw [hn] at h; cases h
      | symlink t =>
        rw [hn] at h
        simp only at h ⊢
        cases hr : R (linkBase t g) t.comps with
        | none => rw [hr] at h; cases h
        | some l2 =>
          rw [hr] at h
          simp only at h
          by_cases hd : w.nodeAt l2 = some Node.dir
          · rw [if_pos hd] at h
            simp only [walkDirs, Option.some.injEq] at h
            simp [h]
          · rw [if_neg hd] at h; cases h

theorem walkPath_of_walkDirs {w : World} {R : FPath → List String → Option FPath}
    {cur l : FPath} (xs : List String) (h : walkDirs w R cur xs = some l) :
    walkPath w R true cur xs = some l := by
  rcases List.eq_nil_or_concat xs with rfl | ⟨ys, c, rfl⟩
  · simpa [walkPath, walkDirs] using h
  · rw [List.concat_eq_append] at h ⊢
    rw [walkPath_concat]
    rw [walkDirs_append] at h
    cases hg : walkDirs w R cur ys with
    | none => rw [hg] at h; cases h
    | some g =>
      rw [hg] at h
      simp only [Option.some_bind] at h ⊢
      exact lastStep_of_walkDirs h

/-- A path that names a directory resolves to that directory. -/
theorem lookup_of_dirOf {w : World} {p g : FPath} (h : w.dirOf p = some g) :
    w.resolve true p = some g ∧ w.lookup p = some Node.dir := by
  have hr : w.resolve true p = some g := walkPath_of_walkDirs p.comps h
  refine ⟨hr, ?_⟩
  unfold World.lookup
  rw [hr]
  exact dirOf_isDir h

theorem stat_of_dirOf {w : World} {p g : FPath} (h : w.dirOf p = some g) : w.stat p = true := by
  unfold World.stat
  rw [(lookup_of_dirOf h).2]; rfl

theorem isDir_of_dirOf {w : World} {p g : FPath} (h : w.dirOf p = some g) :
    w.isDir p = true := by
  unfold World.isDir
  rw [(lookup_of_dirOf h).2]; simp

/-! ## Basic facts about the system calls -/

theorem put_fs_self (w : World) (p : FPath) (n : Node) : (w.put p n).fs p = some n := by
  simp [World.put]

theorem put_fs_other (w : World) {p q : FPath} (n : Node) (h : q ≠ p) :
    (w.put p n).fs q = w.fs q := by
  simp [World.put, h]

theorem put_grows {w : World} {p : FPath} (n : Node) (h : w.fs p = none) :
    Grows w (w.put p n) := by
  intro q m hq
  by_cases hqp : q = p
  · subst hqp; rw [h] at hq; cases hq
  · rw [put_fs_other _ _ hqp]; exact hq

theorem fs_of_nodeAt_none {w : World} {l : FPath} (h : w.nodeAt l = none) :
    l.comps ≠ [] ∧ w.fs l = none := by
  unfold World.nodeAt at h
  by_cases hc : l.comps = []
  · simp [hc] at h
  · simp only [hc, if_false] at h; exact ⟨hc, h⟩

theorem fs_of_nodeAt_file {w : World} {l : FPath} {c : Content}
    (h : w.nodeAt l = some (Node.file c)) : l.comps ≠ [] ∧ w.fs l = some (Node.file c) := by
  unfold World.nodeAt at h
  by_cases hc : l.comps = []
  · simp [hc] at h
  · simp only [hc, if_false] at h; exact ⟨hc, h⟩

theorem nodeAt_of_ne_nil (w : World) {l : FPath} (h : l.comps ≠ []) : w.nodeAt l = w.fs l := by
  simp [World.nodeAt, h]

/-- What a successful write did: the place was empty or held a regular file,
and now holds the file written. -/
theorem writeAt_ok {w w2 : World} {l : FPath} {c : Content} (h : writeAt w l c = some w2) :
    w2 = w.put l (Node.file c) ∧ l.comps ≠ []
      ∧ (w.fs l = none ∨ ∃ c0, w.fs l = some (Node.file c0)) := by
  unfold writeAt at h
  cases hn : w.nodeAt l with
  | none =>
    rw [hn] at h
    simp only [Option.some.injEq] at h
    exact ⟨h.symm, (fs_of_nodeAt_none hn).1, Or.inl (fs_of_nodeAt_none hn).2⟩
  | some n =>
    cases n with
    | dir => rw [hn] at h; cases h
    | file c0 =>
      rw [hn] at h
      simp only [Option.some.injEq] at h
      exact ⟨h.symm, (fs_of_nodeAt_file hn).1, Or.inr ⟨c0, (fs_of_nodeAt_file hn).2⟩⟩
    | symlink t => rw [hn] at h; cases h

theorem writeAt_of_free {w : World} {l : FPath} (c : Content) (h : w.nodeAt l = none) :
    writeAt w l c = some (w.put l (Node.file c)) := by
  simp [writeAt, h]

theorem writeAt_of_file {w : World} {l : FPath} (c : Content) {o : Content}
    (h : w.nodeAt l = some (Node.file o)) : writeAt w l c = some (w.put l (Node.file c)) := by
  simp [writeAt, h]

theorem put_file_shape {w : World} {l : FPath} (c : Content)
    (h : w.fs l = none ∨ ∃ c0, w.fs l = some (Node.file c0)) :
    ∀ q, shape (w.fs q) = shape ((w.put l (Node.file c)).fs q) := by
  intro q
  by_cases hq : q = l
  · subst hq
    rw [put_fs_self]
    rcases h with h | ⟨c0, h⟩ <;> rw [h] <;> rfl
  · rw [put_fs_other _ _ hq]

theorem put_file_le {w : World} {l : FPath} (c : Content)
    (h : w.fs l = none ∨ ∃ c0, w.fs l = some (Node.file c0)) :
    Le w (w.put l (Node.file c)) := by
  intro q n hq
  by_cases hql : q = l
  · subst hql
    rw [put_fs_self]
    rcases h with h | ⟨c0, h⟩
    · rw [h] at hq; cases hq
    · rw [h] at hq
      simp only [Option.some.injEq] at hq
      exact Or.inr ⟨c0, c, hq.symm, rfl⟩
  · rw [put_fs_other _ _ hql]; exact Or.inl hq

/-- After a write the paths resolve as before. -/
theorem writeAt_resolve {w w2 : World} {l : FPath} {c : Content} (h : writeAt w l c = some w2)
    (follow : Bool) (p : FPath) : w2.resolve follow p = w.resolve follow p := by
  obtain ⟨rfl, _, hl⟩ := writeAt_ok h
  exact resolve_shape (put_file_shape c hl) follow p

theorem writeAt_dirOf {w w2 : World} {l : FPath} {c : Content} (h : writeAt w l c = some w2)
    (p : FPath) : w2.dirOf p = w.dirOf p := by
  obtain ⟨rfl, _, hl⟩ := writeAt_ok h
  exact dirOf_shape (put_file_shape c hl) p

theorem writeAt_le {w w2 : World} {l : FPath} {c : Content} (h : writeAt w l c = some w2) :
    Le w w2 := by
  obtain ⟨rfl, _, hl⟩ := writeAt_ok h
  exact put_file_le c hl

theorem createFile_ops (w : World) (p : FPath) (c : Content) :
    (createFile w p c).ops = [Op.create p c] := by
  unfold createFile
  split <;> rfl

theorem createFile_fail {w : World} {p : FPath} {c : Content} {e : String}
    (h : (createFile w p c).err = some e) : (createFile w p c).world = w := by
  unfold createFile at h ⊢
  split
  · rename_i w2 hw; rw [hw] at h; cases h
  · rfl

theorem createFile_ok {w : World} {p : FPath} {c : Content}
    (h : (createFile w p c).err = none) :
    ∃ l, w.resolve true p = some l ∧ writeAt w l c = some (createFile w p c).world := by
  unfold createFile at h ⊢
  cases hr : w.resolve true p with
  | none => simp [hr] at h
  | some l =>
    simp only [hr, Option.some_bind] at h ⊢
    cases hw : writeAt w l c with
    | none => simp [hw] at h
    | some w2 => exact ⟨l, rfl, by simp [hw]⟩

theorem stat_false_iff {w : World} {p : FPath} : w.stat p = false ↔ w.lookup p = none := by
  unfold World.stat
  cases w.lookup p <;> simp

/-- A file made where `os.Stat` failed: the place was empty, every entry is
kept, and the path names the new file. -/
theorem createFile_new {w : World} {p : FPath} {c : Content} (hs : w.stat p = false)
    (h : (createFile w p c).err = none) :
    Grows w (createFile w p c).world
      ∧ (createFile w p c).world.lookup p = some (Node.file c)
      ∧ ∃ l, w.resolve true p = some l ∧ w.fs l = none
          ∧ (createFile w p c).world = w.put l (Node.file c) := by
  obtain ⟨l, hr, hw⟩ := createFile_ok h
  have hnone : w.nodeAt l = none := by
    have := stat_false_iff.1 hs
    unfold World.lookup at this
    rw [hr] at this
    exact this
  obtain ⟨hw2, hne, _⟩ := writeAt_ok hw
  refine ⟨?_, ?_, l, hr, (fs_of_nodeAt_none hnone).2, hw2⟩
  · rw [hw2]; exact put_grows _ (fs_of_nodeAt_none hnone).2
  · unfold World.lookup
    rw [writeAt_resolve hw, hr]
    simp only [Option.some_bind]
    rw [hw2, nodeAt_of_ne_nil _ hne, put_fs_self]

theorem createFile_stat {w : World} {p : FPath} {c : Content} (hs : w.stat p = false)
    (h : (createFile w p c).err = none) : (createFile w p c).world.stat p = true := by
  unfold World.stat
  rw [(createFile_new hs h).2.1]; rfl

theorem freshDirs_cons (w : World) (cur : FPath) (c : String) (rest : List String) :
    freshDirs w cur (c :: rest)
      = if c = ".." ∨ w.fs (cur.join c) ≠ none then none
        else (freshDirs w (cur.join c) rest).map (fun ds => cur.join c :: ds) := by
  rw [freshDirs]

theorem mkdirPlan_cons (w : World) (R : FPath → List String → Option FPath) (cur : FPath)
    (c : String) (rest : List String) :
    mkdirPlan w R cur (c :: rest)
      = if c = ".." then
          if w.nodeAt cur.parent = some Node.dir then mkdirPlan w R cur.parent rest else none
        else
          match w.fs (cur.join c) with
          | some Node.dir => mkdirPlan w R (cur.join c) rest
          | some (Node.symlink t) =>
            match R (linkBase t cur) t.comps with
            | some l => if w.nodeAt l = some Node.dir then mkdirPlan w R l rest else none
            | none => none
          | some (Node.file _) => none
          | none => freshDirs w cur (c :: rest) := by
  rw [mkdirPlan]

theorem freshDirs_none (w : World) : ∀ (xs : List String) (cur : FPath) (ds : List FPath),
    freshDirs w cur xs = some ds → ∀ q ∈ ds, w.fs q = none
  | [], _, ds => by
    intro h q hq
    simp only [freshDirs, Option.some.injEq] at h
    rw [← h] at hq; cases hq
  | c :: rest, cur, ds => by
    intro h q hq
    rw [freshDirs_cons] at h
    by_cases hc : c = ".." ∨ w.fs (cur.join c) ≠ none
    · rw [if_pos hc] at h; cases h
    · rw [if_neg hc] at h
      cases hf : freshDirs w (cur.join c) rest with
      | none => rw [hf] at h; cases h
      | some ds2 =>
        rw [hf] at h
        simp only [Option.map_some', Option.some.injEq] at h
        rw [← h] at hq
        rcases List.mem_cons.1 hq with rfl | hq
        · by_contra hx; exact hc (Or.inr hx)
        · exact freshDirs_none w rest _ ds2 hf q hq

theorem mkdirPlan_none (w : World) (R : FPath → List String → Option FPath) :
    ∀ (xs : List String) (cur : FPath) (ds : List FPath),
      mkdirPlan w R cur xs = some ds → ∀ q ∈ ds, w.fs q = none
  | [], _, ds => by
    intro h q hq
    simp only [mkdirPlan, Option.some.injEq] at h
    rw [← h] at hq; cases hq
  | c :: rest, cur, ds => by
    intro h
    rw [mkdirPlan_cons] at h
    by_cases hc : c = ".."
    · rw [if_pos hc] at h
      by_cases hp : w.nodeAt cur.parent = some Node.dir
      · rw [if_pos hp] at h; exact mkdirPlan_none w R rest _ ds h
      · rw [if_neg hp] at h; cases h
    · rw [if_neg hc] at h
      cases hn : w.fs (cur.join c) with
      | none => rw [hn] at h; exact freshDirs_none w _ _ ds h
      | some n =>
        cases n with
        | dir => rw [hn] at h; exact mkdirPlan_none w R rest _ ds h
        | file x => rw [hn] at h; cases h
        | symlink t =>
          rw [hn] at h
          simp only at h
          cases hr : R (linkBase t cur) t.comps with
          | none => rw [hr] at h; cases h
          | some l =>
            rw [hr] at h
            simp only at h
            by_cases hd : w.nodeAt l = some Node.dir
            · rw [if_pos hd] at h; exact mkdirPlan_none w R rest _ ds h
            · rw [if_neg hd] at h; cases h

theorem freshDirs_walk (w w2 : World) (R2 : FPath → List String → Option FPath) :
    ∀ (xs : List String) (cur : FPath) (ds : List FPath), freshDirs w cur xs = some ds →
      (∀ q ∈ ds, w2.fs q = some Node.dir) → ∃ g, walkDirs w2 R2 cur xs = some g
  | [], cur, _ => fun _ _ => ⟨cur, rfl⟩
  | c :: rest, cur, ds => by
    intro h hall
    rw [freshDirs_cons] at h
    by_cases hc : c = ".." ∨ w.fs (cur.join c) ≠ none
    · rw [if_pos hc] at h; cases h
    · rw [if_neg hc] at h
      cases hf : freshDirs w (cur.join c) rest with
      | none => rw [hf] at h; cases h
      | some ds2 =>
        rw [hf] at h
        simp only [Option.map_some', Option.some.injEq] at h
        have hcc : c ≠ ".." := fun hx => hc (Or.inl hx)
        rw [walkDirs_cons, if_neg hcc, hall _ (by rw [← h]; exact List.mem_cons_self _ _)]
        exact freshDirs_walk w w2 R2 rest _ ds2 hf
          (fun q hq => hall q (by rw [← h]; exact List.mem_cons_of_mem _ hq))

theorem mkdirPlan_walk {w w2 : World} {R R2 : FPath → List String → Option FPath}
    (hle : Le w w2) (hR : Carries w w2 R R2) :
    ∀ (xs : List String) (cur : FPath) (ds : List FPath), mkdirPlan w R cur xs = some ds →
      (∀ q ∈ ds, w2.fs q = some Node.dir) → ∃ g, walkDirs w2 R2 cur xs = some g
  | [], cur, _ => fun _ _ => ⟨cur, rfl⟩
  | c :: rest, cur, ds => by
    intro h hall
    rw [mkdirPlan_cons] at h
    rw [walkDirs_cons]
    by_cases hc : c = ".."
    · rw [if_pos hc] at h ⊢
      by_cases hp : w.nodeAt cur.parent = some Node.dir
      · rw [if_pos hp] at h
        rw [if_pos (hle.nodeAt_dir hp)]
        exact mkdirPlan_walk hle hR rest _ ds h hall
      · rw [if_neg hp] at h; cases h
    · rw [if_neg hc] at h ⊢
      cases hn : w.fs (cur.join c) with
      | none =>
        rw [hn] at h
        have := freshDirs_walk w w2 R2 (c :: rest) cur ds h hall
        rw [walkDirs_cons, if_neg hc] at this
        exact this
      | some n =>
        cases n with
        | dir =>
          rw [hn] at h
          rw [hle.dir hn]
          exact mkdirPlan_walk hle hR rest _ ds h hall
        | file x => rw [hn] at h; cases h
        | symlink t =>
          rw [hn] at h
          rw [hle.symlink hn]
          simp only at h ⊢
          cases hr : R (linkBase t cur) t.comps with
          | none => rw [hr] at h; cases h
          | some l =>
            rw [hr] at h
            simp only at h
            by_cases hd : w.nodeAt l = some Node.dir
            · rw [if_pos hd] at h
              rw [hR _ _ l hr (fun h0 => by rw [hd] at h0; cases h0)]
              simp only
              rw [if_pos (hle.nodeAt_dir hd)]
              exact mkdirPlan_walk hle hR rest _ ds h hall
            · rw [if_neg hd] at h; cases h

theorem mkdirAll_ops (w : World) (p : FPath) : (mkdirAll w p).ops = [Op.mkdirAll p] := by
  unfold mkdirAll
  split <;> rfl

theorem mkdirAll_fail {w : World} {p : FPath} {e : String} (h : (mkdirAll w p).err = some e) :
    (mkdirAll w p).world = w := by
  unfold mkdirAll at h ⊢
  split
  · rename_i ds hd; rw [hd] at h; cases h
  · rfl

theorem mkdirAll_grows (w : World) (p : FPath) : Grows w (mkdirAll w p).world := by
  unfold mkdirAll
  split
  · rename_i ds hd
    intro q n hq
    have hnot : q ∉ ds := fun hm => by
      rw [mkdirPlan_none w _ _ _ ds hd q hm] at hq; cases hq
    simp only [hnot, if_false]
    exact hq
  · exact Grows.refl w

/-- Every entry after `os.MkdirAll` is an entry from before or a new
directory. -/
theorem mkdirAll_fs (w : World) (p q : FPath) :
    (mkdirAll w p).world.fs q = w.fs q
      ∨ (w.fs q = none ∧ (mkdirAll w p).world.fs q = some Node.dir) := by
  unfold mkdirAll
  split
  · rename_i ds hd
    by_cases hm : q ∈ ds
    · exact Or.inr ⟨mkdirPlan_none w _ _ _ ds hd q hm, by simp [hm]⟩
    · exact Or.inl (by simp [hm])
  · exact Or.inl rfl

/-- After a successful `os.MkdirAll` the path names a directory. -/
theorem mkdirAll_dirOf {w : World} {p : FPath} (h : (mkdirAll w p).err = none) :
    ∃ g, (mkdirAll w p).world.dirOf p = some g := by
  have hg := mkdirAll_grows w p
  unfold mkdirAll at h hg ⊢
  cases hd : mkdirPlan w (resolveLink w linkDepth) rootDir p.comps with
  | none => rw [hd] at h; cases h
  | some ds =>
    simp only [hd] at hg ⊢
    exact mkdirPlan_walk hg.le (resolveLink_le hg.le linkDepth) p.comps rootDir ds hd
      (fun q hq => by simp [hq])

theorem mkdirAll_stat {w : World} {p : FPath} (h : (mkdirAll w p).err = none) :
    (mkdirAll w p).world.stat p = true := by
  obtain ⟨g, hg⟩ := mkdirAll_dirOf h
  exact stat_of_dirOf hg

theorem mkdirAll_lookup {w : World} {p : FPath} (h : (mkdirAll w p).err = none) :
    (mkdirAll w p).world.lookup p = some Node.dir := by
  obtain ⟨g, hg⟩ := mkdirAll_dirOf h
  exact (lookup_of_dirOf hg).2

/-! ## The two loops of `initMissing` -/

theorem stat_grows {w w2 : World} (hg : Grows w w2) {p : FPath} (h : w.stat p = true) :
    w2.stat p = true :=
  stat_le hg.le h

theorem mkdirLoop_skip {g : FPath} {d : String} {ds : List String} {w : World}
    (h : w.stat (g.join d) = true) : mkdirLoop g (d :: ds) w = mkdirLoop g ds w := by
  simp [mkdirLoop, h]

theorem mkdirLoop_fail {g : FPath} {d : String} {ds : List String} {w : World} {e : String}
    (h : w.stat (g.join d) = false) (he : (mkdirAll w (g.join d)).err = some e) :
    mkdirLoop g (d :: ds) w
      = ⟨(mkdirAll w (g.join d)).world, (mkdirAll w (g.join d)).ops, some e⟩ := by
  simp [mkdirLoop, h, he]

theorem mkdirLoop_step {g : FPath} {d : String} {ds : List String} {w : World}
    (h : w.stat (g.join d) = false) (he : (mkdirAll w (g.join d)).err = none) :
    mkdirLoop g (d :: ds) w
      = ⟨(mkdirLoop g ds (mkdirAll w (g.join d)).world).world,
          (mkdirAll w (g.join d)).ops ++ (mkdirLoop g ds (mkdirAll w (g.join d)).world).ops,
          (mkdirLoop g ds (mkdirAll w (g.join d)).world).err⟩ := by
  simp [mkdirLoop, h, he]

theorem mkdirLoop_grows (g : FPath) : ∀ (ds : List String) (w : World),
    Grows w (mkdirLoop g ds w).world
  | [], w => Grows.refl w
  | d :: ds, w => by
    cases h : w.stat (g.join d)
    · cases he : (mkdirAll w (g.join d)).err
      · rw [mkdirLoop_step h he]
        exact (mkdirAll_grows w _).trans (mkdirLoop_grows g ds _)
      · rw [mkdirLoop_fail h he]
        exact mkdirAll_grows w _
    · rw [mkdirLoop_skip h]; exact mkdirLoop_grows g ds w

theorem mkdirLoop_present (g : FPath) : ∀ (ds : List String) (w : World),
    (mkdirLoop g ds w).err = none → ∀ d ∈ ds, (mkdirLoop g ds w).world.stat (g.join d) = true
  | [], _ => by intro _ d hd; cases hd
  | d :: ds, w => by
    cases h : w.stat (g.join d)
    · cases he : (mkdirAll w (g.join d)).err
      · rw [mkdirLoop_step h he]
        intro hok x hx
        rcases List.mem_cons.1 hx with rfl | hx
        · exact stat_grows (mkdirLoop_grows g ds _) (mkdirAll_stat he)
        · exact mkdirLoop_present g ds _ hok x hx
      · rw [mkdirLoop_fail h he]; intro hok; cases hok
    · rw [mkdirLoop_skip h]
      intro hok x hx
      rcases List.mem_cons.1 hx with rfl | hx
      · exact stat_grows (mkdirLoop_grows g ds w) h
      · exact mkdirLoop_present g ds w hok x hx

theorem mkdirLoop_noop (g : FPath) : ∀ (ds : List String) (w : World),
    (∀ d ∈ ds, w.stat (g.join d) = true) → mkdirLoop g ds w = ⟨w, [], none⟩
  | [], _ => fun _ => rfl
  | d :: ds, w => by
    intro h
    rw [mkdirLoop_skip (h d (List.mem_cons_self _ _))]
    exact mkdirLoop_noop g ds w (fun x hx => h x (List.mem_cons_of_mem _ hx))

/-- Every entry after the loop over `dirs` is an entry from before or a new
directory. -/
theorem mkdirLoop_fs (g : FPath) : ∀ (ds : List String) (w : World) (q : FPath),
    (mkdirLoop g ds w).world.fs q = w.fs q
      ∨ (w.fs q = none ∧ (mkdirLoop g ds w).world.fs q = some Node.dir)
  | [], _, _ => Or.inl rfl
  | d :: ds, w, q => by
    cases h : w.stat (g.join d)
    · cases he : (mkdirAll w (g.join d)).err
      · rw [mkdirLoop_step h he]
        rcases mkdirLoop_fs g ds (mkdirAll w (g.join d)).world q with h1 | ⟨h0, h1⟩
        · rcases mkdirAll_fs w (g.join d) q with h2 | ⟨h3, h2⟩
          · exact Or.inl (h1.trans h2)
          · exact Or.inr ⟨h3, h1.trans h2⟩
        · rcases mkdirAll_fs w (g.join d) q with h2 | ⟨_, h2⟩
          · exact Or.inr ⟨h2 ▸ h0, h1⟩
          · rw [h2] at h0; cases h0
      · rw [mkdirLoop_fail h he]; exact mkdirAll_fs w _ q
    · rw [mkdirLoop_skip h]; exact mkdirLoop_fs g ds w q

/-- Running the loop over `dirs` again changes nothing and ends the same way. -/
theorem mkdirLoop_again (g : FPath) : ∀ (ds : List String) (w : World),
    (mkdirLoop g ds (mkdirLoop g ds w).world).world = (mkdirLoop g ds w).world
      ∧ (mkdirLoop g ds (mkdirLoop g ds w).world).err = (mkdirLoop g ds w).err
  | [], _ => ⟨rfl, rfl⟩
  | d :: ds, w => by
    cases h : w.stat (g.join d)
    · cases he : (mkdirAll w (g.join d)).err
      · rw [mkdirLoop_step h he]
        have hs : (mkdirLoop g ds (mkdirAll w (g.join d)).world).world.stat (g.join d) = true :=
          stat_grows (mkdirLoop_grows g ds _) (mkdirAll_stat he)
        simp only
        rw [mkdirLoop_skip hs]
        exact mkdirLoop_again g ds _
      · rw [mkdirLoop_fail h he]
        simp only
        rw [mkdirAll_fail he, mkdirLoop_fail h he]
        simp [mkdirAll_fail he]
    · rw [mkdirLoop_skip h]
      have hs : (mkdirLoop g ds w).world.stat (g.join d) = true :=
        stat_grows (mkdirLoop_grows g ds w) h
      rw [mkdirLoop_skip hs]
      exact mkdirLoop_again g ds w

/-- The loop over `dirs` attempts nothing but `os.MkdirAll`. -/
theorem mkdirLoop_ops (g : FPath) : ∀ (ds : List String) (w : World),
    ∀ o ∈ (mkdirLoop g ds w).ops, ∃ p, o = Op.mkdirAll p
  | [], _ => by simp [mkdirLoop]
  | d :: ds, w => by
    cases h : w.stat (g.join d)
    · cases he : (mkdirAll w (g.join d)).err
      · rw [mkdirLoop_step h he]
        intro o ho
        rcases List.mem_append.1 ho with ho | ho
        · rw [mkdirAll_ops] at ho; exact ⟨_, List.mem_singleton.1 ho⟩
        · exact mkdirLoop_ops g ds _ o ho
      · rw [mkdirLoop_fail h he]
        intro o ho
        rw [mkdirAll_ops] at ho; exact ⟨_, List.mem_singleton.1 ho⟩
    · rw [mkdirLoop_skip h]; exact mkdirLoop_ops g ds w

theorem fileLoop_skip {g : FPath} {n : String} {c : Content} {fs : List (String × Content)}
    {w : World} (h : w.stat (g.join n) = true) :
    fileLoop g ((n, c) :: fs) w = fileLoop g fs w := by
  simp [fileLoop, h]

theorem fileLoop_fail {g : FPath} {n : String} {c : Content} {fs : List (String × Content)}
    {w : World} {e : String} (h : w.stat (g.join n) = false)
    (he : (createFile w (g.join n) c).err = some e) :
    fileLoop g ((n, c) :: fs) w
      = ⟨(createFile w (g.join n) c).world, (createFile w (g.join n) c).ops, some e⟩ := by
  simp [fileLoop, h, he]

theorem fileLoop_step {g : FPath} {n : String} {c : Content} {fs : List (String × Content)}
    {w : World} (h : w.stat (g.join n) = false) (he : (createFile w (g.join n) c).err = none) :
    fileLoop g ((n, c) :: fs) w
      = ⟨(fileLoop g fs (createFile w (g.join n) c).world).world,
          (createFile w (g.join n) c).ops ++ (fileLoop g fs (createFile w (g.join n) c).world).ops,
          (fileLoop g fs (createFile w (g.join n) c).world).err⟩ := by
  simp [fileLoop, h, he]

theorem fileLoop_grows (g : FPath) : ∀ (fs : List (String × Content)) (w : World),
    Grows w (fileLoop g fs w).world
  | [], w => Grows.refl w
  | (n, c) :: fs, w => by
    cases h : w.stat (g.join n)
    · cases he : (createFile w (g.join n) c).err
      · rw [fileLoop_step h he]
        exact (createFile_new h he).1.trans (fileLoop_grows g fs _)
      · rw [fileLoop_fail h he, createFile_fail he]
        exact Grows.refl w
    · rw [fileLoop_skip h]; exact fileLoop_grows g fs w

theorem fileLoop_present (g : FPath) : ∀ (fs : List (String × Content)) (w : World),
    (fileLoop g fs w).err = none → ∀ x ∈ fs, (fileLoop g fs w).world.stat (g.join x.1) = true
  | [], _ => by intro _ d hd; cases hd
  | (n, c) :: fs, w => by
    cases h : w.stat (g.join n)
    · cases he : (createFile w (g.join n) c).err
      · rw [fileLoop_step h he]
        intro hok x hx
        rcases List.mem_cons.1 hx with rfl | hx
        · exact stat_grows (fileLoop_grows g fs _) (createFile_stat h he)
        · exact fileLoop_present g fs _ hok x hx
      · rw [fileLoop_fail h he]; intro hok; cases hok
    · rw [fileLoop_skip h]
      intro hok x hx
      rcases List.mem_cons.1 hx with rfl | hx
      · exact stat_grows (fileLoop_grows g fs w) h
      · exact fileLoop_present g fs w hok x hx

theorem fileLoop_noop (g : FPath) : ∀ (fs : List (String × Content)) (w : World),
    (∀ x ∈ fs, w.stat (g.join x.1) = true) → fileLoop g fs w = ⟨w, [], none⟩
  | [], _ => fun _ => rfl
  | (n, c) :: fs, w => by
    intro h
    rw [fileLoop_skip (h (n, c) (List.mem_cons_self _ _))]
    exact fileLoop_noop g fs w (fun x hx => h x (List.mem_cons_of_mem _ hx))

/-- Running the loop over `files` again changes nothing and ends the same way. -/
theorem fileLoop_again (g : FPath) : ∀ (fs : List (String × Content)) (w : World),
    (fileLoop g fs (fileLoop g fs w).world).world = (fileLoop g fs w).world
      ∧ (fileLoop g fs (fileLoop g fs w).world).err = (fileLoop g fs w).err
  | [], _ => ⟨rfl, rfl⟩
  | (n, c) :: fs, w => by
    cases h : w.stat (g.join n)
    · cases he : (createFile w (g.join n) c).err
      · rw [fileLoop_step h he]
        have hs : (fileLoop g fs (createFile w (g.join n) c).world).world.stat (g.join n) = true :=
          stat_grows (fileLoop_grows g fs _) (createFile_stat h he)
        simp only
        rw [fileLoop_skip hs]
        exact fileLoop_again g fs _
      · rw [fileLoop_fail h he]
        simp only
        rw [createFile_fail he, fileLoop_fail h he]
        simp [createFile_fail he]
    · rw [fileLoop_skip h]
      have hs : (fileLoop g fs w).world.stat (g.join n) = true :=
        stat_grows (fileLoop_grows g fs w) h
      rw [fileLoop_skip hs]
      exact fileLoop_again g fs w

/-- The loop over `files` attempts nothing but file creation. -/
theorem fileLoop_ops (g : FPath) : ∀ (fs : List (String × Content)) (w : World),
    ∀ o ∈ (fileLoop g fs w).ops, ∃ p c, o = Op.create p c
  | [], _ => by simp [fileLoop]
  | (n, c) :: fs, w => by
    cases h : w.stat (g.join n)
    · cases he : (createFile w (g.join n) c).err
      · rw [fileLoop_step h he]
        intro o ho
        rcases List.mem_append.1 ho with ho | ho
        · rw [createFile_ops] at ho; exact ⟨_, _, List.mem_singleton.1 ho⟩
        · exact fileLoop_ops g fs _ o ho
      · rw [fileLoop_fail h he]
        intro o ho
        rw [createFile_ops] at ho; exact ⟨_, _, List.mem_singleton.1 ho⟩
    · rw [fileLoop_skip h]; exact fileLoop_ops g fs w

/-! ## The configuration store -/

theorem kvGet_cfgUnset_self (kv : List (String × String)) (k : String) :
    kvGet (cfgUnset kv k) k = none := by
  unfold kvGet cfgUnset
  induction kv with
  | nil => rfl
  | cons e rest ih =>
    by_cases he : e.1 = k
    · simp only [ne_eq, he, not_true_eq_false, decide_False, Bool.false_eq_true,
        not_false_eq_true, List.filter_cons_of_neg]
      exact ih
    · simp only [ne_eq, he, not_false_eq_true, decide_True, List.filter_cons_of_pos,
        List.find?_cons, decide_False]
      exact ih

theorem kvGet_cfgUnset_other (kv : List (String × String)) {k k2 : String} (h : k2 ≠ k) :
    kvGet (cfgUnset kv k) k2 = kvGet kv k2 := by
  unfold kvGet cfgUnset
  induction kv with
  | nil => rfl
  | cons e rest ih =>
    by_cases he : e.1 = k
    · have he2 : decide (e.1 = k2) = false := by
        simp only [decide_eq_false_iff_not]
        exact fun hx => h (hx.symm.trans he)
      have hf : decide (e.1 ≠ k) = false := by simp [he]
      rw [List.filter_cons, hf, if_neg Bool.false_ne_true, List.find?_cons, he2]
      exact ih
    · have hf : decide (e.1 ≠ k) = true := by simp [he]
      rw [List.filter_cons, hf, if_pos rfl, List.find?_cons, List.find?_cons]
      cases hd : decide (e.1 = k2) with
      | true => rfl
      | false => exact ih

theorem kvGet_append_of_none {kv : List (String × String)} {k : String} (h : kvGet kv k = none)
    (rest : List (String × String)) : kvGet (kv ++ rest) k = kvGet rest k := by
  unfold kvGet at h ⊢
  rw [List.find?_append]
  cases hf : List.find? (fun e => decide (e.1 = k)) kv with
  | none => simp
  | some x => rw [hf] at h; cases h

theorem kvGet_append_of_some {kv : List (String × String)} {k v : String}
    (h : kvGet kv k = some v) (rest : List (String × String)) :
    kvGet (kv ++ rest) k = some v := by
  unfold kvGet at h ⊢
  rw [List.find?_append]
  cases hf : List.find? (fun e => decide (e.1 = k)) kv with
  | none => rw [hf] at h; cases h
  | some x => rw [hf] at h; simpa using h

theorem kvGet_cfgSet_self (kv : List (String × String)) (k v : String) :
    kvGet (cfgSet kv k v) k = some v := by
  unfold cfgSet
  rw [kvGet_append_of_none (kvGet_cfgUnset_self kv k)]
  simp [kvGet]

theorem kvGet_cfgSet_other (kv : List (String × String)) {k k2 : String} (v : String)
    (h : k2 ≠ k) : kvGet (cfgSet kv k v) k2 = kvGet kv k2 := by
  unfold cfgSet
  cases hg : kvGet (cfgUnset kv k) k2 with
  | none =>
    rw [kvGet_append_of_none hg, ← kvGet_cfgUnset_other kv h, hg]
    simp [kvGet, h.symm]
  | some x =>
    rw [kvGet_append_of_some hg, ← kvGet_cfgUnset_other kv h, hg]

theorem normalizeKV_bare (kv : List (String × String)) :
    kvGet (normalizeKV kv) "core.bare" = none := by
  unfold normalizeKV
  rw [kvGet_cfgSet_other _ _ (by decide), kvGet_cfgUnset_self]

theorem normalizeKV_log (kv : List (String × String)) :
    kvGet (normalizeKV kv) "core.logAllRefUpdates" = some "true" := by
  unfold normalizeKV
  exact kvGet_cfgSet_self _ _ _

theorem normalizeKV_other (kv : List (String × String)) {k : String} (h1 : k ≠ "core.bare")
    (h2 : k ≠ "core.logAllRefUpdates") : kvGet (normalizeKV kv) k = kvGet kv k := by
  unfold normalizeKV
  rw [kvGet_cfgSet_other _ _ h2, kvGet_cfgUnset_other _ h1]

theorem cfgUnset_idem (kv : List (String × String)) (k : String) :
    cfgUnset (cfgUnset kv k) k = cfgUnset kv k := by
  unfold cfgUnset
  simp [List.filter_filter]

theorem cfgUnset_comm (kv : List (String × String)) (k k2 : String) :
    cfgUnset (cfgUnset kv k) k2 = cfgUnset (cfgUnset kv k2) k := by
  unfold cfgUnset
  simp only [List.filter_filter]
  congr 1
  funext e
  exact Bool.and_comm _ _

theorem normalizeKV_idem (kv : List (String × String)) :
    normalizeKV (normalizeKV kv) = normalizeKV kv := by
  unfold normalizeKV cfgSet
  have h1 : cfgUnset (cfgUnset (cfgUnset kv "core.bare") "core.logAllRefUpdates"
        ++ [("core.logAllRefUpdates", "true")]) "core.bare"
      = cfgUnset (cfgUnset kv "core.bare") "core.logAllRefUpdates"
        ++ [("core.logAllRefUpdates", "true")] := by
    have := cfgUnset_idem kv "core.bare"
    have hc := cfgUnset_comm (cfgUnset kv "core.bare") "core.logAllRefUpdates" "core.bare"
    rw [this] at hc
    unfold cfgUnset at hc ⊢
    rw [List.filter_append, hc]
    simp
  rw [h1]
  have h2 : cfgUnset (cfgUnset (cfgUnset kv "core.bare") "core.logAllRefUpdates"
        ++ [("core.logAllRefUpdates", "true")]) "core.logAllRefUpdates"
      = cfgUnset (cfgUnset kv "core.bare") "core.logAllRefUpdates" := by
    have := cfgUnset_idem (cfgUnset kv "core.bare") "core.logAllRefUpdates"
    unfold cfgUnset at this ⊢
    rw [List.filter_append, this]
    simp
  rw [h2]

/-! ## Entries of a directory that is known -/

theorem mkdirPlan_append (w : World) (R : FPath → List String → Option FPath) :
    ∀ (xs ys : List String) (cur G : FPath), walkDirs w R cur xs = some G →
      mkdirPlan w R cur (xs ++ ys) = mkdirPlan w R G ys
  | [], _, cur, G => by
    intro h
    simp only [walkDirs, Option.some.injEq] at h
    rw [← h]; rfl
  | c :: rest, ys, cur, G => by
    intro h
    have ih := mkdirPlan_append w R rest ys
    rw [walkDirs_cons] at h
    simp only [List.cons_append]
    rw [mkdirPlan_cons]
    by_cases hc : c = ".."
    · rw [if_pos hc] at h ⊢
      by_cases hp : w.nodeAt cur.parent = some Node.dir
      · rw [if_pos hp] at h ⊢; exact ih _ G h
      · rw [if_neg hp] at h; cases h
    · rw [if_neg hc] at h ⊢
      cases hn : w.fs (cur.join c) with
      | none => rw [hn] at h; cases h
      | some n =>
        cases n with
        | dir => rw [hn] at h; exact ih _ G h
        | file x => rw [hn] at h; cases h
        | symlink t =>
          rw [hn] at h
          simp only at h ⊢
          cases hr : R (linkBase t cur) t.comps with
          | none => rw [hr] at h; cases h
          | some l =>
            rw [hr] at h
            simp only at h ⊢
            by_cases hd : w.nodeAt l = some Node.dir
            · rw [if_pos hd] at h ⊢; exact ih _ G h
            · rw [if_neg hd] at h; cases h

theorem mkdirPlan_single {w : World} {R : FPath → List String → Option FPath} {G : FPath}
    {d : String} {ds : List FPath} (h : mkdirPlan w R G [d] = some ds) :
    ∀ q ∈ ds, q = G.join d := by
  rw [mkdirPlan_cons] at h
  by_cases hc : d = ".."
  · rw [if_pos hc] at h
    by_cases hp : w.nodeAt G.parent = some Node.dir
    · rw [if_pos hp] at h
      simp only [mkdirPlan, Option.some.injEq] at h
      intro q hq; rw [← h] at hq; cases hq
    · rw [if_neg hp] at h; cases h
  · rw [if_neg hc] at h
    cases hn : w.fs (G.join d) with
    | none =>
      rw [hn] at h
      simp only at h
      rw [freshDirs_cons] at h
      by_cases hx : d = ".." ∨ w.fs (G.join d) ≠ none
      · rw [if_pos hx] at h; cases h
      · rw [if_neg hx] at h
        simp only [freshDirs, Option.map_some', Option.some.injEq] at h
        intro q hq
        rw [← h] at hq
        exact List.mem_singleton.1 hq
    | some n =>
      cases n with
      | dir =>
        rw [hn] at h
        simp only [mkdirPlan, Option.some.injEq] at h
        intro q hq; rw [← h] at hq; cases hq
      | file x => rw [hn] at h; cases h
      | symlink t =>
        rw [hn] at h
        simp only at h
        cases hr : R (linkBase t G) t.comps with
        | none => rw [hr] at h; cases h
        | some l =>
          rw [hr] at h
          simp only at h
          by_cases hd : w.nodeAt l = some Node.dir
          · rw [if_pos hd] at h
            simp only [mkdirPlan, Option.some.injEq] at h
            intro q hq; rw [← h] at hq; cases hq
          · rw [if_neg hd] at h; cases h

theorem join_comps (g : FPath) (d : String) : (g.join d).comps = g.comps ++ [d] := rfl

theorem mkdirAll_join_fs {w : World} {g G : FPath} (hG : w.dirOf g = some G) (d : String)
    {q : FPath} (hq : q ≠ G.join d) : (mkdirAll w (g.join d)).world.fs q = w.fs q := by
  unfold mkdirAll
  rw [join_comps, mkdirPlan_append w _ g.comps [d] rootDir G hG]
  cases hp : mkdirPlan w (resolveLink w linkDepth) G [d] with
  | none => rfl
  | some ds =>
    simp only
    have : q ∉ ds := fun hm => hq (mkdirPlan_single hp q hm)
    rw [if_neg this]

theorem mkdirAll_join_new {w : World} {g G : FPath} (hG : w.dirOf g = some G) {d : String}
    (hc : d ≠ "..") (hd : w.fs (G.join d) = none) (he : (mkdirAll w (g.join d)).err = none) :
    (mkdirAll w (g.join d)).world.fs (G.join d) = some Node.dir := by
  have hl := mkdirAll_lookup he
  have hG2 : (mkdirAll w (g.join d)).world.dirOf g = some G :=
    dirOf_le (mkdirAll_grows w _).le hG
  rcases mkdirAll_fs w (g.join d) (G.join d) with h | h
  · exfalso
    rw [hd] at h
    unfold World.lookup at hl
    rw [resolve_join, hG2] at hl
    simp only [Option.some_bind] at hl
    unfold lastStep at hl
    rw [if_neg hc, h] at hl
    simp only [Option.some_bind] at hl
    rw [nodeAt_join, h] at hl
    cases hl
  · exact h.2

theorem resolve_false_join {w : World} {g G : FPath} (hG : w.dirOf g = some G) {c : String}
    (hc : c ≠ "..") : w.resolve false (g.join c) = some (G.join c) := by
  rw [resolve_join, hG]
  simp only [Option.some_bind]
  unfold lastStep
  rw [if_neg hc]
  cases hn : w.fs (G.join c) with
  | none => rfl
  | some n => cases n <;> rfl

theorem entry_join {w : World} {g G : FPath} (hG : w.dirOf g = some G) {c : String}
    (hc : c ≠ "..") : w.entry (g.join c) = w.fs (G.join c) := by
  unfold World.entry
  rw [resolve_false_join hG hc]
  simp only [Option.some_bind]
  exact nodeAt_join w G c

theorem resolve_true_join {w : World} {g G : FPath} (hG : w.dirOf g = some G) {c : String}
    (hc : c ≠ "..") (hl : ∀ t, w.fs (G.join c) ≠ some (Node.symlink t)) :
    w.resolve true (g.join c) = some (G.join c) := by
  rw [resolve_join, hG]
  simp only [Option.some_bind]
  unfold lastStep
  rw [if_neg hc]
  cases hn : w.fs (G.join c) with
  | none => rfl
  | some n =>
    cases n with
    | dir => rfl
    | file x => rfl
    | symlink t => exact absurd hn (hl t)

theorem lookup_join {w : World} {g G : FPath} (hG : w.dirOf g = some G) {c : String}
    (hc : c ≠ "..") (hl : ∀ t, w.fs (G.join c) ≠ some (Node.symlink t)) :
    w.lookup (g.join c) = w.fs (G.join c) := by
  unfold World.lookup
  rw [resolve_true_join hG hc hl]
  simp only [Option.some_bind]
  exact nodeAt_join w G c

theorem dirOf_of_isDir {w : World} {p : FPath} (h : w.isDir p = true) :
    ∃ G, w.dirOf p = some G := by
  unfold World.isDir at h
  simp only [decide_eq_true_eq] at h
  unfold World.lookup World.resolve at h
  unfold World.dirOf
  rcases List.eq_nil_or_concat p.comps with hp | ⟨xs, c, hp⟩
  · rw [hp]; exact ⟨rootDir, rfl⟩
  · rw [hp] at h ⊢
    rw [List.concat_eq_append] at h ⊢
    rw [walkPath_concat] at h
    rw [walkDirs_append]
    cases hw : walkDirs w (resolveLink w linkDepth) rootDir xs with
    | none => rw [hw] at h; cases h
    | some g =>
      rw [hw] at h
      simp only [Option.some_bind] at h ⊢
      rw [walkDirs_cons]
      unfold lastStep at h
      by_cases hc : c = ".."
      · rw [if_pos hc] at h ⊢
        by_cases hq : w.nodeAt g.parent = some Node.dir
        · rw [if_pos hq]; exact ⟨_, rfl⟩
        · rw [if_neg hq] at h; cases h
      · rw [if_neg hc] at h ⊢
        cases hn : w.fs (g.join c) with
        | none =>
          rw [hn] at h
          simp only [Option.some_bind] at h
          rw [nodeAt_join, hn] at h; cases h
        | some n =>
          cases n with
          | dir => exact ⟨_, rfl⟩
          | file x =>
            rw [hn] at h
            simp only [Option.some_bind] at h
            rw [nodeAt_join, hn] at h; cases h
          | symlink t =>
            rw [hn] at h
            simp only [if_true] at h ⊢
            cases hr : resolveLink w linkDepth (linkBase t g) t.comps with
            | none => rw [hr] at h; cases h
            | some l =>
              rw [hr] at h
              simp only [Option.some_bind] at h ⊢
              rw [if_pos h]; exact ⟨_, rfl⟩

/-! ## `os.Symlink` -/

theorem Symlink_ops (w : World) (a b : FPath) : (Symlink w a b).ops = [Op.symlink a b] := by
  unfold Symlink
  cases w.resolve false b with
  | none => rfl
  | some l => by_cases h : w.nodeAt l = none <;> simp [h]

theorem Symlink_fail {w : World} {a b : FPath} {e : String} (h : (Symlink w a b).err = some e) :
    (Symlink w a b).world = w := by
  unfold Symlink at h ⊢
  cases hr : w.resolve false b with
  | none => rfl
  | some l =>
    rw [hr] at h
    by_cases hn : w.nodeAt l = none
    · simp [hn] at h
    · simp [hn]

theorem Symlink_ok {w : World} {a b : FPath} (h : (Symlink w a b).err = none) :
    ∃ l, w.resolve false b = some l ∧ w.fs l = none ∧ l.comps ≠ []
      ∧ (Symlink w a b).world = w.put l (Node.symlink a) := by
  unfold Symlink at h ⊢
  cases hr : w.resolve false b with
  | none => rw [hr] at h; cases h
  | some l =>
    rw [hr] at h
    by_cases hn : w.nodeAt l = none
    · refine ⟨l, rfl, (fs_of_nodeAt_none hn).2, (fs_of_nodeAt_none hn).1, ?_⟩
      simp [hn]
    · simp [hn] at h

theorem Symlink_grows (w : World) (a b : FPath) : Grows w (Symlink w a b).world := by
  cases he : (Symlink w a b).err with
  | none =>
    obtain ⟨l, _, hl, _, hw⟩ := Symlink_ok he
    rw [hw]; exact put_grows _ hl
  | some e => rw [Symlink_fail he]; exact Grows.refl w

theorem Symlink_join {w : World} {g G : FPath} (hG : w.dirOf g = some G) {c : String}
    (hc : c ≠ "..") (a : FPath) (hf : w.fs (G.join c) = none) :
    Symlink w a (g.join c)
      = ⟨w.put (G.join c) (Node.symlink a), [Op.symlink a (g.join c)], none⟩ := by
  unfold Symlink
  rw [resolve_false_join hG hc]
  simp only
  rw [nodeAt_join, if_pos hf]

theorem Symlink_join_taken {w : World} {g G : FPath} (hG : w.dirOf g = some G) {c : String}
    (hc : c ≠ "..") (a : FPath) (hf : w.fs (G.join c) ≠ none) :
    Symlink w a (g.join c) = ⟨w, [Op.symlink a (g.join c)], some "symlink: file exists"⟩ := by
  unfold Symlink
  rw [resolve_false_join hG hc]
  simp only
  rw [nodeAt_join, if_neg hf]

/-! ## Saving the configuration -/

/-- The two ways a save ends: the configuration file is written at its place,
which was empty or held a regular file; or nothing is written and the save
fails.  Which one it is does not depend on what is saved. -/
theorem SaveConfig_cases (v : Repository) (w : World) :
    (∃ l, w.resolve false v.configFile = some l ∧ l.comps ≠ []
        ∧ (w.fs l = none ∨ ∃ c0, w.fs l = some (Node.file c0))
        ∧ ∀ kv, v.SaveConfig kv w
            = ⟨w.put l (Node.file (Content.config kv)), [Op.saveConfig v.GitDir], none⟩)
      ∨ (∀ kv, v.SaveConfig kv w
            = ⟨w, [Op.saveConfig v.GitDir], some "config: cannot write"⟩) := by
  unfold Repository.SaveConfig
  cases hr : w.resolve false v.configFile with
  | none => right; intro kv; rfl
  | some l =>
    simp only [Option.some_bind]
    cases hn : w.nodeAt l with
    | none =>
      left
      refine ⟨l, rfl, (fs_of_nodeAt_none hn).1, Or.inl (fs_of_nodeAt_none hn).2, fun kv => ?_⟩
      rw [writeAt_of_free _ hn]
    | some n =>
      cases n with
      | dir => right; intro kv; simp [writeAt, hn]
      | file c0 =>
        left
        refine ⟨l, rfl, (fs_of_nodeAt_file hn).1, Or.inr ⟨c0, (fs_of_nodeAt_file hn).2⟩,
          fun kv => ?_⟩
        rw [writeAt_of_file _ hn]
      | symlink t => right; intro kv; simp [writeAt, hn]

theorem SaveConfig_ops (v : Repository) (kv : List (String × String)) (w : World) :
    (v.SaveConfig kv w).ops = [Op.saveConfig v.GitDir] := by
  rcases SaveConfig_cases v w with ⟨l, _, _, _, h⟩ | h <;> rw [h]

theorem SaveConfig_err (v : Repository) (kv kv2 : List (String × String)) (w : World) :
    (v.SaveConfig kv w).err = (v.SaveConfig kv2 w).err := by
  rcases SaveConfig_cases v w with ⟨l, _, _, _, h⟩ | h <;> rw [h, h]

theorem SaveConfig_fail {v : Repository} {kv : List (String × String)} {w : World}
    (h : (v.SaveConfig kv w).err ≠ none) : (v.SaveConfig kv w).world = w := by
  rcases SaveConfig_cases v w with ⟨l, _, _, _, hs⟩ | hs
  · rw [hs] at h; exact absurd rfl h
  · rw [hs]

theorem SaveConfig_le (v : Repository) (kv : List (String × String)) (w : World) :
    Le w (v.SaveConfig kv w).world := by
  rcases SaveConfig_cases v w with ⟨l, _, _, hf, h⟩ | h
  · rw [h]; exact put_file_le _ hf
  · rw [h]; exact Le.same w

theorem SaveConfig_resolve (v : Repository) (kv : List (String × String)) (w : World)
    (follow : Bool) (p : FPath) :
    (v.SaveConfig kv w).world.resolve follow p = w.resolve follow p := by
  rcases SaveConfig_cases v w with ⟨l, _, _, hf, h⟩ | h
  · rw [h]; exact (resolve_shape (put_file_shape _ hf) follow p)
  · rw [h]

theorem SaveConfig_dirOf (v : Repository) (kv : List (String × String)) (w : World)
    (p : FPath) : (v.SaveConfig kv w).world.dirOf p = w.dirOf p := by
  rcases SaveConfig_cases v w with ⟨l, _, _, hf, h⟩ | h
  · rw [h]; exact (dirOf_shape (put_file_shape _ hf) p)
  · rw [h]

theorem SaveConfig_fs {v : Repository} {kv : List (String × String)} {w : World} {q : FPath}
    (hq : w.resolve false v.configFile ≠ some q) : (v.SaveConfig kv w).world.fs q = w.fs q := by
  rcases SaveConfig_cases v w with ⟨l, hl, _, _, h⟩ | h
  · rw [h]
    exact put_fs_other w _ (fun hx => hq (by rw [hl, hx]))
  · rw [h]

theorem SaveConfig_configAt {v : Repository} {kv : List (String × String)} {w : World}
    (h : (v.SaveConfig kv w).err = none) : (v.SaveConfig kv w).world.configAt v.GitDir = kv := by
  have hres := SaveConfig_resolve v kv w false v.configFile
  rcases SaveConfig_cases v w with ⟨l, hl, hne, _, hs⟩ | hs
  · unfold World.configAt World.entry
    have : (v.SaveConfig kv w).world.resolve false (v.GitDir.join "config") = some l := by
      rw [← hl]; exact hres
    rw [this, hs]
    simp only [Option.some_bind]
    rw [nodeAt_of_ne_nil _ hne, put_fs_self]
  · rw [hs] at h; cases h

theorem put_put (w : World) (l : FPath) (a b : Node) : (w.put l a).put l b = w.put l b := by
  unfold World.put
  congr 1
  funext q
  by_cases h : q = l <;> simp [h]

theorem SaveConfig_twice (v : Repository) (kv kv2 : List (String × String)) (w : World) :
    v.SaveConfig kv2 (v.SaveConfig kv w).world
      = ⟨(v.SaveConfig kv2 w).world, [Op.saveConfig v.GitDir], (v.SaveConfig kv w).err⟩ := by
  rcases SaveConfig_cases v w with ⟨l, hl, hne, hf, hs⟩ | hs
  · rw [hs kv, hs kv2]
    simp only
    rcases SaveConfig_cases v (w.put l (Node.file (Content.config kv))) with ⟨l2, hl2, _, _, h2⟩ | h2
    · rw [h2]
      have : l2 = l := by
        have := resolve_shape (put_file_shape (Content.config kv) hf) false v.configFile
        rw [hl2, hl] at this
        exact Option.some.inj this
      rw [this, put_put]
    · exfalso
      have h3 := h2 kv
      unfold Repository.SaveConfig at h3
      rw [resolve_shape (put_file_shape (Content.config kv) hf) false v.configFile, hl] at h3
      simp only [Option.some_bind] at h3
      rw [writeAt_of_file (o := Content.config kv) _
        (by rw [nodeAt_of_ne_nil _ hne, put_fs_self])] at h3
      exact absurd (congrArg Outcome.err h3) (by simp)
  · rw [hs kv, hs kv2]

/-! ## The configuration of a repository that is not bare -/

theorem normalizeBare_ops (v : Repository) (w : World) :
    (v.normalizeBare w).ops = [Op.saveConfig v.GitDir] :=
  SaveConfig_ops v _ w

theorem normalizeBare_le (v : Repository) (w : World) : Le w (v.normalizeBare w).world :=
  SaveConfig_le v _ w

theorem normalizeBare_fail {v : Repository} {w : World} (h : (v.normalizeBare w).err ≠ none) :
    (v.normalizeBare w).world = w :=
  SaveConfig_fail h

theorem normalizeBare_configAt {v : Repository} {w : World} (h : (v.normalizeBare w).err = none) :
    (v.normalizeBare w).world.configAt v.GitDir = normalizeKV (w.configAt v.GitDir) :=
  SaveConfig_configAt h

theorem normalizeBare_again (v : Repository) (w : World) :
    (v.normalizeBare (v.normalizeBare w).world).world = (v.normalizeBare w).world := by
  cases he : (v.normalizeBare w).err with
  | some e =>
    have hf := normalizeBare_fail (v := v) (w := w) (by rw [he]; exact Option.some_ne_none e)
    rw [hf]; exact hf
  | none =>
    have hc := normalizeBare_configAt he
    unfold Repository.normalizeBare Repository.Config at hc ⊢
    rw [SaveConfig_twice, hc, normalizeKV_idem]

theorem normalizeBare_other (v : Repository) (w : World) {k : String} (h1 : k ≠ "core.bare")
    (h2 : k ≠ "core.logAllRefUpdates") :
    (v.normalizeBare w).world.cfg v.GitDir k = w.cfg v.GitDir k := by
  cases he : (v.normalizeBare w).err with
  | some e =>
    rw [normalizeBare_fail (v := v) (w := w) (by rw [he]; exact Option.some_ne_none e)]
  | none =>
    unfold World.cfg
    rw [normalizeBare_configAt he, normalizeKV_other _ h1 h2]

theorem normalizeBare_keys {v : Repository} {w : World} (h : (v.normalizeBare w).err = none) :
    (v.normalizeBare w).world.cfg v.GitDir "core.bare" = none
      ∧ (v.normalizeBare w).world.cfg v.GitDir "core.logAllRefUpdates" = some "true" := by
  unfold World.cfg
  rw [normalizeBare_configAt h]
  exact ⟨normalizeKV_bare _, normalizeKV_log _⟩

/-! ## `initMissing` -/

theorem initMissing_absent {v : Repository} {w : World} (h : w.stat v.GitDir = false) :
    v.initMissing w = ⟨w, [], some "stat: no such file or directory"⟩ := by
  simp [Repository.initMissing, h]

theorem initMissing_dirs_fail {v : Repository} {w : World} {e : String}
    (h : w.stat v.GitDir = true) (h1 : (mkdirLoop v.GitDir initMissingDirs w).err = some e) :
    v.initMissing w = ⟨(mkdirLoop v.GitDir initMissingDirs w).world,
      (mkdirLoop v.GitDir initMissingDirs w).ops, some e⟩ := by
  simp [Repository.initMissing, h, h1]

theorem initMissing_files_fail {v : Repository} {w : World} {e : String}
    (h : w.stat v.GitDir = true) (h1 : (mkdirLoop v.GitDir initMissingDirs w).err = none)
    (h2 : (fileLoop v.GitDir (initMissingFiles v) (mkdirLoop v.GitDir initMissingDirs w).world).err
      = some e) :
    v.initMissing w
      = ⟨(fileLoop v.GitDir (initMissingFiles v) (mkdirLoop v.GitDir initMissingDirs w).world).world,
          (mkdirLoop v.GitDir initMissingDirs w).ops
            ++ (fileLoop v.GitDir (initMissingFiles v)
                (mkdirLoop v.GitDir initMissingDirs w).world).ops, some e⟩ := by
  simp [Repository.initMissing, h, h1, h2]

theorem initMissing_bare {v : Repository} {w : World}
    (h : w.stat v.GitDir = true) (h1 : (mkdirLoop v.GitDir initMissingDirs w).err = none)
    (h2 : (fileLoop v.GitDir (initMissingFiles v) (mkdirLoop v.GitDir initMissingDirs w).world).err
      = none) (hb : v.IsBare = true) :
    v.initMissing w
      = ⟨(fileLoop v.GitDir (initMissingFiles v) (mkdirLoop v.GitDir initMissingDirs w).world).world,
          (mkdirLoop v.GitDir initMissingDirs w).ops
            ++ (fileLoop v.GitDir (initMissingFiles v)
                (mkdirLoop v.GitDir initMissingDirs w).world).ops, none⟩ := by
  simp [Repository.initMissing, h, h1, h2, hb]

theorem initMissing_nonbare {v : Repository} {w : World}
    (h : w.stat v.GitDir = true) (h1 : (mkdirLoop v.GitDir initMissingDirs w).err = none)
    (h2 : (fileLoop v.GitDir (initMissingFiles v) (mkdirLoop v.GitDir initMissingDirs w).world).err
      = none) (hb : v.IsBare = false) :
    v.initMissing w
      = ⟨(v.normalizeBare (fileLoop v.GitDir (initMissingFiles v)
            (mkdirLoop v.GitDir initMissingDirs w).world).world).world,
          (mkdirLoop v.GitDir initMissingDirs w).ops
            ++ (fileLoop v.GitDir (initMissingFiles v)
                (mkdirLoop v.GitDir initMissingDirs w).world).ops
            ++ (v.normalizeBare (fileLoop v.GitDir (initMissingFiles v)
                (mkdirLoop v.GitDir initMissingDirs w).world).world).ops, none⟩ := by
  simp [Repository.initMissing, h, h1, h2, hb]

theorem initMissing_of_complete_bare {v : Repository} {w : World} (h : Complete v w)
    (hb : v.IsBare = true) : v.initMissing w = ⟨w, [], none⟩ := by
  have h1 := mkdirLoop_noop v.GitDir initMissingDirs w h.2.1
  have h2 := fileLoop_noop v.GitDir (initMissingFiles v) w h.2.2
  rw [initMissing_bare h.1 (by rw [h1]) (by rw [h1, h2]) hb, h1, h2]
  rfl

theorem initMissing_of_complete_nonbare {v : Repository} {w : World} (h : Complete v w)
    (hb : v.IsBare = false) :
    v.initMissing w = ⟨(v.normalizeBare w).world, [Op.saveConfig v.GitDir], none⟩ := by
  have h1 := mkdirLoop_noop v.GitDir initMissingDirs w h.2.1
  have h2 := fileLoop_noop v.GitDir (initMissingFiles v) w h.2.2
  rw [initMissing_nonbare h.1 (by rw [h1]) (by rw [h1, h2]) hb, h1, h2]
  simp only [List.append_nil, List.nil_append, normalizeBare_ops]

theorem complete_of_grows {v : Repository} {w w2 : World} (hg : Grows w w2)
    (h0 : w.stat v.GitDir = true)
    (h1 : ∀ d ∈ initMissingDirs, w.stat (v.GitDir.join d) = true)
    (h2 : ∀ x ∈ initMissingFiles v, w2.stat (v.GitDir.join x.1) = true) : Complete v w2 :=
  ⟨stat_grows hg h0, fun d hd => stat_grows hg (h1 d hd), h2⟩

theorem complete_normalizeBare {v : Repository} {w : World} (h : Complete v w) :
    Complete v (v.normalizeBare w).world :=
  ⟨stat_le (normalizeBare_le v w) h.1, fun d hd => stat_le (normalizeBare_le v w) (h.2.1 d hd),
    fun x hx => stat_le (normalizeBare_le v w) (h.2.2 x hx)⟩

/-- After a successful `initMissing` the layout is complete. -/
theorem initMissing_complete {v : Repository} {w : World} (h : (v.initMissing w).err = none) :
    Complete v (v.initMissing w).world := by
  cases hs : w.stat v.GitDir
  · rw [initMissing_absent hs] at h; cases h
  · cases h1 : (mkdirLoop v.GitDir initMissingDirs w).err
    · cases h2 : (fileLoop v.GitDir (initMissingFiles v)
          (mkdirLoop v.GitDir initMissingDirs w).world).err
      · have hc : Complete v (fileLoop v.GitDir (initMissingFiles v)
            (mkdirLoop v.GitDir initMissingDirs w).world).world :=
          complete_of_grows (fileLoop_grows _ _ _)
            (stat_grows (mkdirLoop_grows _ _ _) hs)
            (mkdirLoop_present _ _ _ h1) (fileLoop_present _ _ _ h2)
        cases hb : v.IsBare
        · rw [initMissing_nonbare hs h1 h2 hb]; exact complete_normalizeBare hc
        · rw [initMissing_bare hs h1 h2 hb]; exact hc
      · rw [initMissing_files_fail hs h1 h2] at h; cases h
    · rw [initMissing_dirs_fail hs h1] at h; cases h

/-- Running `initMissing` a second time leaves the world of the first run. -/
theorem initMissing_again (v : Repository) (w : World) :
    (v.initMissing (v.initMissing w).world).world = (v.initMissing w).world := by
  cases hs : w.stat v.GitDir
  · rw [initMissing_absent hs]; simp only; rw [initMissing_absent hs]
  · cases h1 : (mkdirLoop v.GitDir initMissingDirs w).err
    · cases h2 : (fileLoop v.GitDir (initMissingFiles v)
          (mkdirLoop v.GitDir initMissingDirs w).world).err
      · have hok : (v.initMissing w).err = none := by
          cases hb : v.IsBare
          · rw [initMissing_nonbare hs h1 h2 hb]
          · rw [initMissing_bare hs h1 h2 hb]
        have hc := initMissing_complete hok
        cases hb : v.IsBare
        · rw [initMissing_of_complete_nonbare hc hb]
          simp only
          rw [initMissing_nonbare hs h1 h2 hb]
          simp only
          exact normalizeBare_again v _
        · rw [initMissing_of_complete_bare hc hb]
      · rw [initMissing_files_fail hs h1 h2]
        simp only
        have hg1 := mkdirLoop_grows v.GitDir initMissingDirs w
        have hg2 := fileLoop_grows v.GitDir (initMissingFiles v)
          (mkdirLoop v.GitDir initMissingDirs w).world
        have hd := mkdirLoop_noop v.GitDir initMissingDirs _
          (fun d hd => stat_grows hg2 (mkdirLoop_present _ _ _ h1 d hd))
        have ha := fileLoop_again v.GitDir (initMissingFiles v)
          (mkdirLoop v.GitDir initMissingDirs w).world
        rw [initMissing_files_fail (stat_grows hg2 (stat_grows hg1 hs))
          (by rw [hd]) (by rw [hd]; exact ha.2.trans h2), hd]
        exact ha.1
    · rw [initMissing_dirs_fail hs h1]
      simp only
      have hg1 := mkdirLoop_grows v.GitDir initMissingDirs w
      have ha := mkdirLoop_again v.GitDir initMissingDirs w
      rw [initMissing_dirs_fail (stat_grows hg1 hs) (ha.2.trans h1)]
      exact ha.1

/-- What a successful `initMissing` went through: the directory was there,
both loops ran to the end, and the world is the one the loop over `files`
left, with the configuration normalised when the repository is not bare. -/
theorem initMissing_ok {v : Repository} {w : World} (h : (v.initMissing w).err = none) :
    w.stat v.GitDir = true
      ∧ (mkdirLoop v.GitDir initMissingDirs w).err = none
      ∧ (fileLoop v.GitDir (initMissingFiles v) (mkdirLoop v.GitDir initMissingDirs w).world).err
          = none
      ∧ (v.initMissing w).world
          = if v.IsBare then
              (fileLoop v.GitDir (initMissingFiles v)
                (mkdirLoop v.GitDir initMissingDirs w).world).world
            else (v.normalizeBare (fileLoop v.GitDir (initMissingFiles v)
                (mkdirLoop v.GitDir initMissingDirs w).world).world).world := by
  cases hs : w.stat v.GitDir
  · rw [initMissing_absent hs] at h; cases h
  · cases h1 : (mkdirLoop v.GitDir initMissingDirs w).err
    · cases h2 : (fileLoop v.GitDir (initMissingFiles v)
          (mkdirLoop v.GitDir initMissingDirs w).world).err
      · refine ⟨rfl, rfl, rfl, ?_⟩
        cases hb : v.IsBare
        · rw [initMissing_nonbare hs h1 h2 hb]; simp
        · rw [initMissing_bare hs h1 h2 hb]; simp
      · rw [initMissing_files_fail hs h1 h2] at h; cases h
    · rw [initMissing_dirs_fail hs h1] at h; cases h

/-- The operations `initMissing` attempts: directory creation, file creation
and the save of the configuration; never a symbolic link. -/
theorem initMissing_ops (v : Repository) (w : World) :
    ∀ o ∈ (v.initMissing w).ops, ∀ a b, o ≠ Op.symlink a b := by
  have hD := mkdirLoop_ops v.GitDir initMissingDirs w
  have hF := fileLoop_ops v.GitDir (initMissingFiles v) (mkdirLoop v.GitDir initMissingDirs w).world
  have key : ∀ o, o ∈ (mkdirLoop v.GitDir initMissingDirs w).ops
      ++ (fileLoop v.GitDir (initMissingFiles v)
          (mkdirLoop v.GitDir initMissingDirs w).world).ops → ∀ a b, o ≠ Op.symlink a b := by
    intro o ho a b
    rcases List.mem_append.1 ho with ho | ho
    · obtain ⟨p, hp⟩ := hD o ho; rw [hp]; simp
    · obtain ⟨p, c, hp⟩ := hF o ho; rw [hp]; simp
  cases hs : w.stat v.GitDir
  · rw [initMissing_absent hs]; intro o ho; cases ho
  · cases h1 : (mkdirLoop v.GitDir initMissingDirs w).err
    · cases h2 : (fileLoop v.GitDir (initMissingFiles v)
          (mkdirLoop v.GitDir initMissingDirs w).world).err
      · cases hb : v.IsBare
        · rw [initMissing_nonbare hs h1 h2 hb]
          intro o ho a b
          rcases List.mem_append.1 ho with ho | ho
          · exact key o ho a b
          · rw [normalizeBare_ops] at ho
            rw [List.mem_singleton.1 ho]; simp
        · rw [initMissing_bare hs h1 h2 hb]; exact key
      · rw [initMissing_files_fail hs h1 h2]; exact key
    · rw [initMissing_dirs_fail hs h1]
      intro o ho a b
      exact key o (List.mem_append_left _ ho) a b

/-! ## The loops of `initMissing`, seen from the directory of the repository -/

theorem stat_join_none {w : World} {g G : FPath} (hG : w.dirOf g = some G) {c : String}
    (hc : c ≠ "..") (hf : w.fs (G.join c) = none) : w.stat (g.join c) = false := by
  rw [stat_false_iff, lookup_join hG hc (fun t => by rw [hf]; exact Option.noConfusion), hf]

theorem stat_join_some {w : World} {g G : FPath} (hG : w.dirOf g = some G) {c : String}
    (hc : c ≠ "..") {n : Node} (hf : w.fs (G.join c) = some n)
    (hl : ∀ t, n ≠ Node.symlink t) : w.stat (g.join c) = true := by
  unfold World.stat
  rw [lookup_join hG hc (fun t => by rw [hf]; exact fun hx => hl t (Option.some.inj hx)), hf]
  rfl

theorem SaveConfig_of_file {v : Repository} {w : World} {l : FPath} {o : Content}
    (hl : w.resolve false v.configFile = some l) (hne : l.comps ≠ [])
    (hf : w.fs l = some (Node.file o)) (kv : List (String × String)) :
    v.SaveConfig kv w
      = ⟨w.put l (Node.file (Content.config kv)), [Op.saveConfig v.GitDir], none⟩ := by
  unfold Repository.SaveConfig
  rw [hl]
  simp only [Option.some_bind]
  rw [writeAt_of_file (o := o) _ (by rw [nodeAt_of_ne_nil _ hne]; exact hf)]

theorem SaveConfig_of_dir {v : Repository} {w : World} {l : FPath}
    (hl : w.resolve false v.configFile = some l) (hne : l.comps ≠ [])
    (hf : w.fs l = some Node.dir) (kv : List (String × String)) :
    v.SaveConfig kv w = ⟨w, [Op.saveConfig v.GitDir], some "config: cannot write"⟩ := by
  unfold Repository.SaveConfig
  rw [hl]
  simp only [Option.some_bind]
  have : writeAt w l (Content.config kv) = none := by
    unfold writeAt
    rw [nodeAt_of_ne_nil _ hne, hf]
  rw [this]

theorem mkdirLoop_fs_other {g G : FPath} : ∀ (ds : List String) (w : World),
    w.dirOf g = some G → ∀ q, (∀ d ∈ ds, q ≠ G.join d) → (mkdirLoop g ds w).world.fs q = w.fs q
  | [], _ => fun _ _ _ => rfl
  | d :: ds, w => by
    intro hG q hq
    have hq2 : ∀ x ∈ ds, q ≠ G.join x := fun x hx => hq x (List.mem_cons_of_mem _ hx)
    cases h : w.stat (g.join d)
    · cases he : (mkdirAll w (g.join d)).err
      · rw [mkdirLoop_step h he]
        simp only
        rw [mkdirLoop_fs_other ds _ (dirOf_le (mkdirAll_grows w _).le hG) q hq2]
        exact mkdirAll_join_fs hG d (hq d (List.mem_cons_self _ _))
      · rw [mkdirLoop_fail h he]
        exact mkdirAll_join_fs hG d (hq d (List.mem_cons_self _ _))
    · rw [mkdirLoop_skip h]
      exact mkdirLoop_fs_other ds w hG q hq2

/-- Under a directory that is known, a directory of the list that was missing
is a directory after a loop that ran to the end. -/
theorem mkdirLoop_new {g G : FPath} {ds : List String} {w : World} (hG : w.dirOf g = some G)
    (he : (mkdirLoop g ds w).err = none) {d : String} (hd : d ∈ ds) (hc : d ≠ "..")
    (hf : w.fs (G.join d) = none) : (mkdirLoop g ds w).world.fs (G.join d) = some Node.dir := by
  have hp := mkdirLoop_present g ds w he d hd
  have hG2 := dirOf_le (mkdirLoop_grows g ds w).le hG
  rcases mkdirLoop_fs g ds w (G.join d) with h | h
  · rw [hf] at h
    rw [stat_join_none hG2 hc h] at hp
    cases hp
  · exact h.2

/-- Under a directory that is known and with no link among the entries of
the list, the loop over `files` writes each missing file at its own place and
nothing else. -/
theorem fileLoop_local {g G : FPath} : ∀ (fs : List (String × Content)) (w : World),
    w.dirOf g = some G →
    (∀ x ∈ fs, x.1 ≠ ".." ∧ ∀ t, w.fs (G.join x.1) ≠ some (Node.symlink t)) →
    ∀ q, (fileLoop g fs w).world.fs q = w.fs q
      ∨ ∃ x ∈ fs, q = G.join x.1 ∧ w.fs q = none
          ∧ (fileLoop g fs w).world.fs q = some (Node.file x.2)
  | [], _ => fun _ _ _ => Or.inl rfl
  | (n, c) :: fs, w => by
    intro hG hx q
    have hn := hx (n, c) (List.mem_cons_self _ _)
    have hx2 : ∀ x ∈ fs, x.1 ≠ ".." ∧ ∀ t, w.fs (G.join x.1) ≠ some (Node.symlink t) :=
      fun x hm => hx x (List.mem_cons_of_mem _ hm)
    cases h : w.stat (g.join n)
    · cases he : (createFile w (g.join n) c).err
      · rw [fileLoop_step h he]
        simp only
        obtain ⟨hg, _, l, hl, hfl, hw⟩ := createFile_new h he
        rw [resolve_true_join hG hn.1 hn.2] at hl
        have hl2 : l = G.join n := (Option.some.inj hl).symm
        subst hl2
        have hx3 : ∀ x ∈ fs, x.1 ≠ ".."
            ∧ ∀ t, (createFile w (g.join n) c).world.fs (G.join x.1) ≠ some (Node.symlink t) := by
          intro x hm
          refine ⟨(hx2 x hm).1, fun t ht => ?_⟩
          rw [hw] at ht
          by_cases hq : G.join x.1 = G.join n
          · rw [hq, put_fs_self] at ht; cases ht
          · rw [put_fs_other _ _ hq] at ht; exact (hx2 x hm).2 t ht
        rcases fileLoop_local fs _ (dirOf_le hg.le hG) hx3 q with h2 | ⟨x, hm, hq, hnone, hfile⟩
        · rw [h2, hw]
          by_cases hq : q = G.join n
          · right
            exact ⟨(n, c), List.mem_cons_self _ _, hq, by rw [hq]; exact hfl, by
              rw [hq, put_fs_self]⟩
          · left; exact put_fs_other _ _ hq
        · right
          refine ⟨x, List.mem_cons_of_mem _ hm, hq, ?_, hfile⟩
          rw [hw] at hnone
          by_cases hq2 : q = G.join n
          · rw [hq2, put_fs_self] at hnone; cases hnone
          · rw [put_fs_other _ _ hq2] at hnone; exact hnone
      · rw [fileLoop_fail h he]
        simp only
        rw [createFile_fail he]
        exact Or.inl rfl
    · rw [fileLoop_skip h]
      rcases fileLoop_local fs w hG hx2 q with h2 | ⟨x, hm, hq, hnone, hfile⟩
      · exact Or.inl h2
      · exact Or.inr ⟨x, List.mem_cons_of_mem _ hm, hq, hnone, hfile⟩

/-- What the loop over `files` can do to a place, whatever the links: leave
it, or fill an empty place with a file of the list. -/
theorem fileLoop_fs (g : FPath) : ∀ (fs : List (String × Content)) (w : World) (q : FPath),
    (fileLoop g fs w).world.fs q = w.fs q
      ∨ (w.fs q = none ∧ ∃ x ∈ fs, (fileLoop g fs w).world.fs q = some (Node.file x.2))
  | [], _, _ => Or.inl rfl
  | (n, c) :: fs, w, q => by
    cases h : w.stat (g.join n)
    · cases he : (createFile w (g.join n) c).err
      · rw [fileLoop_step h he]
        simp only
        obtain ⟨hg, _, l, hl, hfl, hw⟩ := createFile_new h he
        rcases fileLoop_fs g fs (createFile w (g.join n) c).world q with h2 | ⟨hnone, x, hm, hfile⟩
        · rw [h2, hw]
          by_cases hq : q = l
          · right
            exact ⟨by rw [hq]; exact hfl, (n, c), List.mem_cons_self _ _, by
              rw [hq, put_fs_self]⟩
          · left; exact put_fs_other _ _ hq
        · right
          refine ⟨?_, x, List.mem_cons_of_mem _ hm, hfile⟩
          rw [hw] at hnone
          by_cases hq2 : q = l
          · rw [hq2, put_fs_self] at hnone; cases hnone
          · rw [put_fs_other _ _ hq2] at hnone; exact hnone
      · rw [fileLoop_fail h he]
        simp only
        rw [createFile_fail he]
        exact Or.inl rfl
    · rw [fileLoop_skip h]
      rcases fileLoop_fs g fs w q with h2 | ⟨hnone, x, hm, hfile⟩
      · exact Or.inl h2
      · exact Or.inr ⟨hnone, x, List.mem_cons_of_mem _ hm, hfile⟩

/-! ## `Init` -/

theorem remoteURLKey_ne_bare (n : String) : remoteURLKey n ≠ "core.bare" := by
  intro h
  have h2 := congrArg (fun s : String => s.data.head?) h
  simp [remoteURLKey, String.data_append] at h2

theorem remoteURLKey_ne_log (n : String) : remoteURLKey n ≠ "core.logAllRefUpdates" := by
  intro h
  have h2 := congrArg (fun s : String => s.data.head?) h
  simp [remoteURLKey, String.data_append] at h2

theorem hasSuffix_append (u s : String) : hasSuffix (u ++ s) s = true := by
  unfold hasSuffix
  simp [String.data_append]

theorem normalizeURL_suffix (u : String) : hasSuffix (normalizeURL u) ".git" = true := by
  unfold normalizeURL
  cases h : hasSuffix u ".git"
  · simp [hasSuffix_append]
  · simp [h]

theorem normalizeURL_ne_empty {u : String} (hu : u ≠ "") : normalizeURL u ≠ "" := by
  unfold normalizeURL
  cases h : hasSuffix u ".git"
  · intro he
    have h2 := congrArg String.length he
    simp at h2
    exact absurd h2.2 (by decide)
  · simpa using hu

theorem resolve_false_last {w : World} {g l : FPath} {c : String}
    (h : w.resolve false (g.join c) = some l) (hc : c ≠ "..") : ∃ d : FPath, l = d.join c := by
  cases hd : w.dirOf g with
  | none =>
    rw [resolve_join, hd] at h; cases h
  | some G =>
    rw [resolve_false_join hd hc] at h
    exact ⟨G, (Option.some.inj h).symm⟩

theorem join_ne_join (d d2 : FPath) {a b : String} (h : a ≠ b) : d.join a ≠ d2.join b := by
  intro he
  have h2 := congrArg (fun p : FPath => p.comps.getLast?) he
  simp only [join_comps, List.getLast?_append, List.getLast?_singleton] at h2
  simp at h2
  exact h h2

/-- A write at a place that is not the entry `config` of a directory leaves
every configuration as it is. -/
theorem configAt_writeAt {w w2 : World} {l : FPath} {c : Content}
    (h : writeAt w l c = some w2) (hl : ∀ d : FPath, l ≠ d.join "config") (g : FPath) :
    w2.configAt g = w.configAt g := by
  unfold World.configAt World.entry
  rw [writeAt_resolve h]
  cases hr : w.resolve false (g.join "config") with
  | none => rfl
  | some lc =>
    obtain ⟨d, hd⟩ := resolve_false_last hr (by decide)
    simp only [Option.some_bind]
    rw [(writeAt_ok h).1, hd, nodeAt_join, nodeAt_join,
      put_fs_other _ _ (fun hx => hl d hx.symm)]

theorem setRemote_ops (v : Repository) (n u : String) (w : World) :
    (v.setRemote n u w).ops = [Op.setRemote v.GitDir n u] := rfl

theorem setRemote_key {v : Repository} {n u : String} {w : World}
    (h : (v.setRemote n u w).err = none) :
    (v.setRemote n u w).world.cfg v.GitDir (remoteURLKey n) = some u := by
  unfold Repository.setRemote at h ⊢
  simp only at h ⊢
  unfold World.cfg
  rw [SaveConfig_configAt h]
  exact kvGet_cfgSet_self _ _ _

theorem setRemote_other (v : Repository) (n u : String) (w : World) {k : String}
    (hk : k ≠ remoteURLKey n) : (v.setRemote n u w).world.cfg v.GitDir k = w.cfg v.GitDir k := by
  unfold Repository.setRemote
  simp only
  cases he : (v.SaveConfig (cfgSet (v.Config w) (remoteURLKey n) u) w).err with
  | some e =>
    rw [SaveConfig_fail (by rw [he]; exact Option.some_ne_none e)]
  | none =>
    unfold World.cfg
    rw [SaveConfig_configAt he]
    exact kvGet_cfgSet_other _ _ hk

theorem afterBare_bare {v : Repository} (hb : v.IsBare = true) (w0 : World) :
    v.afterBare w0 = ⟨w0, [], none⟩ := by
  simp [Repository.afterBare, hb]

theorem afterBare_nonbare {v : Repository} (hb : v.IsBare = false) (w0 : World) :
    v.afterBare w0 = ⟨(v.normalizeBare w0).world, [Op.saveConfig v.GitDir], none⟩ := by
  simp [Repository.afterBare, hb, normalizeBare_ops]

theorem afterBare_other (v : Repository) (w0 : World) {k : String}
    (h1 : k ≠ "core.bare") (h2 : k ≠ "core.logAllRefUpdates") :
    (v.afterBare w0).world.cfg v.GitDir k = w0.cfg v.GitDir k := by
  cases hb : v.IsBare
  · rw [afterBare_nonbare hb]; exact normalizeBare_other v w0 h1 h2
  · rw [afterBare_bare hb]

theorem afterBare_ops (v : Repository) (w0 : World) :
    (v.afterBare w0).ops = if v.IsBare then [] else [Op.saveConfig v.GitDir] := by
  cases hb : v.IsBare
  · rw [afterBare_nonbare hb]; rfl
  · rw [afterBare_bare hb]; rfl

theorem afterRemote_key (v : Repository) {n u : String} (hn : n ≠ "") (hu : u ≠ "")
    {w1 : World} (he : (v.afterRemote n u w1).err = none) :
    (v.afterRemote n u w1).world.cfg v.GitDir (remoteURLKey n) = some (normalizeURL u) := by
  unfold Repository.afterRemote at he ⊢
  rw [if_pos ⟨hn, hu⟩] at he ⊢
  by_cases hd : v.GitConfigRemoteURL n w1 ≠ normalizeURL u
  · rw [if_pos hd] at he ⊢
    exact setRemote_key he
  · rw [if_neg hd]
    have hq : v.GitConfigRemoteURL n w1 = normalizeURL u := not_not.1 hd
    unfold Repository.GitConfigRemoteURL at hq
    simp only
    cases hk : w1.cfg v.GitDir (remoteURLKey n) with
    | none =>
      rw [hk] at hq
      exact absurd hq.symm (normalizeURL_ne_empty hu)
    | some x =>
      rw [hk] at hq
      simp only [Option.getD_some] at hq
      rw [hq]

theorem afterRemote_other (v : Repository) (n u : String) (w1 : World) {k : String}
    (hk : k ≠ remoteURLKey n) :
    (v.afterRemote n u w1).world.cfg v.GitDir k = w1.cfg v.GitDir k := by
  unfold Repository.afterRemote
  split_ifs
  · exact setRemote_other v n _ w1 hk
  · rfl
  · rfl

theorem afterRemote_ops (v : Repository) {n u : String} (hn : n ≠ "") (hu : u ≠ "")
    (w1 : World) :
    (v.afterRemote n u w1).ops
      = if v.GitConfigRemoteURL n w1 = normalizeURL u then []
        else [Op.setRemote v.GitDir n (normalizeURL u)] := by
  unfold Repository.afterRemote
  rw [if_pos ⟨hn, hu⟩]
  by_cases hd : v.GitConfigRemoteURL n w1 = normalizeURL u
  · simp [hd]
  · simp [hd, setRemote_ops]

theorem afterReference_configAt (v : Repository) (ref : String) (w2 : World) (g : FPath) :
    (v.afterReference ref w2).world.configAt g = w2.configAt g := by
  unfold Repository.afterReference
  by_cases hr : ref ≠ ""
  · rw [if_pos hr]
    simp only
    unfold Repository.setAlternates
    cases hl : w2.resolve false (((v.GitDir.join "objects").join "info").join "alternates") with
    | none => rfl
    | some l =>
      simp only [Option.some_bind]
      cases hw : writeAt w2 l (Content.text (ref ++ "/objects\n")) with
      | none => rfl
      | some w3 =>
        simp only
        obtain ⟨d, hd⟩ := resolve_false_last hl (by decide)
        exact configAt_writeAt hw (fun d2 => by rw [hd]; exact join_ne_join d d2 (by decide)) g
  · rw [if_neg hr]

theorem afterReference_cfg (v : Repository) (ref : String) (w2 : World) (g : FPath)
    (k : String) : (v.afterReference ref w2).world.cfg g k = w2.cfg g k := by
  unfold World.cfg
  rw [afterReference_configAt]

theorem afterReference_ops (v : Repository) (ref : String) (w2 : World) :
    (v.afterReference ref w2).ops = if ref = "" then [] else [Op.setAlternates v.GitDir ref] := by
  unfold Repository.afterReference
  by_cases hr : ref = ""
  · simp [hr]
  · simp only [hr, ne_eq, not_false_eq_true, if_true, if_false]
    unfold Repository.setAlternates
    cases (w2.resolve false (((v.GitDir.join "objects").join "info").join "alternates")).bind
      (fun l => writeAt w2 l (Content.text (ref ++ "/objects\n"))) <;> rfl

theorem Init_fail {env : Env} {v : Repository} {n u ref : String} {w : World} {e : String}
    (h : (env.gitInitBare v.GitDir w).err = some e) :
    v.Init env n u ref w
      = ⟨(env.gitInitBare v.GitDir w).world, (env.gitInitBare v.GitDir w).ops, some e⟩ := by
  simp [Repository.Init, h]

theorem Init_remote_fail {env : Env} {v : Repository} {n u ref : String} {w : World}
    {e : String} (h : (env.gitInitBare v.GitDir w).err = none)
    (h2 : (v.afterRemote n u (v.afterBare (env.gitInitBare v.GitDir w).world).world).err
      = some e) :
    (v.Init env n u ref w).err = some e := by
  unfold Repository.Init
  simp only [h, h2]

/-- The method `Init` once the engine and the write of the remote URL have
succeeded: the three steps one after the other. -/
theorem Init_steps {env : Env} {v : Repository} {n u ref : String} {w : World}
    (h : (env.gitInitBare v.GitDir w).err = none)
    (hr : (v.afterRemote n u (v.afterBare (env.gitInitBare v.GitDir w).world).world).err
      = none) :
    v.Init env n u ref w
      = ⟨(v.afterReference ref (v.afterRemote n u
            (v.afterBare (env.gitInitBare v.GitDir w).world).world).world).world,
          (env.gitInitBare v.GitDir w).ops
            ++ (v.afterBare (env.gitInitBare v.GitDir w).world).ops
            ++ (v.afterRemote n u (v.afterBare (env.gitInitBare v.GitDir w).world).world).ops
            ++ (v.afterReference ref (v.afterRemote n u
                (v.afterBare (env.gitInitBare v.GitDir w).world).world).world).ops,
          none⟩ := by
  unfold Repository.Init
  simp only [h, hr]

theorem Init_ok {env : Env} {v : Repository} {n u ref : String} {w : World}
    (h : (v.Init env n u ref w).err = none) :
    (env.gitInitBare v.GitDir w).err = none
      ∧ (v.afterRemote n u (v.afterBare (env.gitInitBare v.GitDir w).world).world).err
          = none := by
  cases h0 : (env.gitInitBare v.GitDir w).err with
  | some e => rw [Init_fail h0] at h; cases h
  | none =>
    refine ⟨rfl, ?_⟩
    cases h2 : (v.afterRemote n u (v.afterBare (env.gitInitBare v.GitDir w).world).world).err with
    | some e => rw [Init_remote_fail h0 h2] at h; cases h
    | none => rfl

/-! ## The loop of `InitHooks` -/

theorem Symlink_ok_join {w : World} {g G : FPath} (hG : w.dirOf g = some G) {c : String}
    {a : FPath} (h : (Symlink w a (g.join c)).err = none) :
    c ≠ ".." ∧ w.fs (G.join c) = none
      ∧ (Symlink w a (g.join c)).world = w.put (G.join c) (Node.symlink a) := by
  by_cases hc : c = ".."
  · exfalso
    obtain ⟨l, hl, hfl, hne, _⟩ := Symlink_ok h
    rw [resolve_join, hG] at hl
    simp only [Option.some_bind] at hl
    unfold lastStep at hl
    rw [if_pos hc] at hl
    by_cases hp : w.nodeAt G.parent = some Node.dir
    · rw [if_pos hp] at hl
      have hl2 : G.parent = l := Option.some.inj hl
      rw [hl2, nodeAt_of_ne_nil _ hne, hfl] at hp
      cases hp
    · rw [if_neg hp] at hl; cases hl
  · by_cases hf : w.fs (G.join c) = none
    · rw [Symlink_join hG hc a hf]
      exact ⟨hc, hf, rfl⟩
    · rw [Symlink_join_taken hG hc a hf] at h; cases h

theorem entry_dotdot {w : World} {g : FPath} (t : FPath) :
    w.entry (g.join "..") ≠ some (Node.symlink t) := by
  unfold World.entry
  rw [resolve_join]
  cases hG : w.dirOf g with
  | none => simp
  | some G =>
    simp only [Option.some_bind]
    unfold lastStep
    rw [if_pos rfl]
    by_cases hp : w.nodeAt G.parent = some Node.dir
    · rw [if_pos hp]
      simp only [Option.some_bind]
      rw [hp]; simp
    · rw [if_neg hp]; simp

theorem hookLoop_fail {g d : FPath} {n : String} {rest : List String} {w : World} {e : String}
    (he : (Symlink w (d.join n) ((g.join "hooks").join n)).err = some e) :
    hookLoop g d (n :: rest) w
      = ⟨w, [Op.symlink (d.join n) ((g.join "hooks").join n)],
          some ("fail to set link for hook " ++ n ++ ": " ++ e)⟩ := by
  simp [hookLoop, he, Symlink_fail he, Symlink_ops]

theorem hookLoop_step {g d : FPath} {n : String} {rest : List String} {w : World}
    (he : (Symlink w (d.join n) ((g.join "hooks").join n)).err = none) :
    hookLoop g d (n :: rest) w
      = ⟨(hookLoop g d rest (Symlink w (d.join n) ((g.join "hooks").join n)).world).world,
          Op.symlink (d.join n) ((g.join "hooks").join n)
            :: (hookLoop g d rest (Symlink w (d.join n) ((g.join "hooks").join n)).world).ops,
          (hookLoop g d rest (Symlink w (d.join n) ((g.join "hooks").join n)).world).err⟩ := by
  simp [hookLoop, he, Symlink_ops]

theorem hookLoop_grows (g d : FPath) : ∀ (names : List String) (w : World),
    Grows w (hookLoop g d names w).world
  | [], w => Grows.refl w
  | n :: rest, w => by
    cases he : (Symlink w (d.join n) ((g.join "hooks").join n)).err
    · rw [hookLoop_step he]
      exact (Symlink_grows w _ _).trans (hookLoop_grows g d rest _)
    · rw [hookLoop_fail he]; exact Grows.refl w

/-- Without a directory `hooks` the loop changes nothing. -/
theorem hookLoop_no_dir {g d : FPath} {w : World} (h : w.dirOf (g.join "hooks") = none) :
    ∀ names : List String, (hookLoop g d names w).world = w
  | [] => rfl
  | n :: rest => by
    cases he : (Symlink w (d.join n) ((g.join "hooks").join n)).err
    · obtain ⟨l, hl, _⟩ := Symlink_ok he
      rw [resolve_join, h] at hl
      cases hl
    · rw [hookLoop_fail he]

theorem hookLoop_fs_other {g d H : FPath} : ∀ (names : List String) (w : World),
    w.dirOf (g.join "hooks") = some H → ∀ q, (∀ n ∈ names, q ≠ H.join n) →
      (hookLoop g d names w).world.fs q = w.fs q
  | [], _ => fun _ _ _ => rfl
  | n :: rest, w => by
    intro hH q hq
    cases he : (Symlink w (d.join n) ((g.join "hooks").join n)).err
    · rw [hookLoop_step he]
      simp only
      rw [hookLoop_fs_other rest _ (dirOf_le (Symlink_grows w _ _).le hH) q
        (fun m hm => hq m (List.mem_cons_of_mem _ hm)), (Symlink_ok_join hH he).2.2]
      exact put_fs_other _ _ (hq n (List.mem_cons_self _ _))
    · rw [hookLoop_fail he]

/-- A run of the loop of `InitHooks` that ends without error made a link for
every name, at a place that was empty, and attempted exactly these. -/
theorem hookLoop_local {g d H : FPath} : ∀ (names : List String) (w : World),
    w.dirOf (g.join "hooks") = some H → (hookLoop g d names w).err = none →
      (∀ n ∈ names, n ≠ ".." ∧ w.fs (H.join n) = none
          ∧ (hookLoop g d names w).world.fs (H.join n) = some (Node.symlink (d.join n)))
        ∧ (hookLoop g d names w).ops
          = names.map (fun n => Op.symlink (d.join n) ((g.join "hooks").join n))
  | [], _ => by intro _ _; exact ⟨fun n hn => absurd hn (List.not_mem_nil n), rfl⟩
  | n :: rest, w => by
    intro hH
    cases he : (Symlink w (d.join n) ((g.join "hooks").join n)).err
    · rw [hookLoop_step he]
      intro hok
      obtain ⟨hc, hfree, hw⟩ := Symlink_ok_join hH he
      have hH2 := dirOf_le (Symlink_grows w (d.join n) ((g.join "hooks").join n)).le hH
      have ih := hookLoop_local rest _ hH2 hok
      refine ⟨fun m hm => ?_, by simp only [List.map_cons]; rw [ih.2]⟩
      rcases List.mem_cons.1 hm with rfl | hm
      · refine ⟨hc, hfree, hookLoop_grows g d rest _ _ _ ?_⟩
        rw [hw, put_fs_self]
      · refine ⟨(ih.1 m hm).1, ?_, (ih.1 m hm).2.2⟩
        have h1 := (ih.1 m hm).2.1
        rw [hw] at h1
        by_cases hmn : H.join m = H.join n
        · rw [hmn, put_fs_self] at h1; cases h1
        · rwa [put_fs_other _ _ hmn] at h1
    · rw [hookLoop_fail he]; intro hok; cases hok

/-- A run of the loop of `InitHooks` that ends with an error stopped at one
name: the names before it were linked without error, the link of that name
failed, and the outcome is the world the names before it left, their calls
followed by the failing one, and a message that carries the name. -/
theorem hookLoop_stop (g d : FPath) : ∀ (names : List String) (w : World),
    (hookLoop g d names w).err ≠ none →
      ∃ pre name post e, names = pre ++ name :: post
        ∧ (hookLoop g d pre w).err = none
        ∧ (Symlink (hookLoop g d pre w).world (d.join name) ((g.join "hooks").join name)).err
            = some e
        ∧ hookLoop g d names w
          = ⟨(hookLoop g d pre w).world,
              (hookLoop g d pre w).ops ++ [Op.symlink (d.join name) ((g.join "hooks").join name)],
              some ("fail to set link for hook " ++ name ++ ": " ++ e)⟩
  | [], _ => by intro h; exact absurd rfl h
  | n :: rest, w => by
    cases he : (Symlink w (d.join n) ((g.join "hooks").join n)).err
    · rw [hookLoop_step he]
      intro hbad
      obtain ⟨pre, name, post, e, hsplit, hpre, hfail, hout⟩ := hookLoop_stop g d rest _ hbad
      refine ⟨n :: pre, name, post, e, by rw [hsplit]; rfl, ?_, ?_, ?_⟩
      · rw [hookLoop_step he]; exact hpre
      · rw [hookLoop_step he]; exact hfail
      · rw [hout, hookLoop_step he]; rfl
    · rw [hookLoop_fail he]
      intro _
      exact ⟨[], n, rest, _, rfl, rfl, he, rfl⟩

/-! ## The loop of `InitByLink` -/

/-- Whether or not it succeeds, `initMissing` keeps every entry; the
configuration file alone may get another content. -/
theorem initMissing_le (v : Repository) (w : World) : Le w (v.initMissing w).world := by
  have hD := (mkdirLoop_grows v.GitDir initMissingDirs w).le
  have hF := (fileLoop_grows v.GitDir (initMissingFiles v)
    (mkdirLoop v.GitDir initMissingDirs w).world).le
  cases hs : w.stat v.GitDir
  · rw [initMissing_absent hs]; exact Le.same w
  · cases h1 : (mkdirLoop v.GitDir initMissingDirs w).err
    · cases h2 : (fileLoop v.GitDir (initMissingFiles v)
          (mkdirLoop v.GitDir initMissingDirs w).world).err
      · cases hb : v.IsBare
        · rw [initMissing_nonbare hs h1 h2 hb]
          exact (hD.chain hF).chain (normalizeBare_le v _)
        · rw [initMissing_bare hs h1 h2 hb]; exact hD.chain hF
      · rw [initMissing_files_fail hs h1 h2]; exact hD.chain hF
    · rw [initMissing_dirs_fail hs h1]; exact hD

theorem linkLoop_skip {vg rg : FPath} {item : String} {rest : List String} {w : World}
    (h : w.stat (rg.join item) = false) :
    linkLoop vg rg (item :: rest) w = linkLoop vg rg rest w := by
  simp [linkLoop, h]

theorem linkLoop_fail {vg rg : FPath} {item : String} {rest : List String} {w : World}
    {e : String} (h : w.stat (rg.join item) = true)
    (he : (Symlink w (linkTarget vg (rg.join item)) (vg.join item)).err = some e) :
    linkLoop vg rg (item :: rest) w
      = ⟨w, [Op.symlink (linkTarget vg (rg.join item)) (vg.join item)], some e⟩ := by
  simp [linkLoop, h, he, Symlink_fail he, Symlink_ops]

theorem linkLoop_step {vg rg : FPath} {item : String} {rest : List String} {w : World}
    (h : w.stat (rg.join item) = true)
    (he : (Symlink w (linkTarget vg (rg.join item)) (vg.join item)).err = none) :
    linkLoop vg rg (item :: rest) w
      = ⟨(linkLoop vg rg rest
            (Symlink w (linkTarget vg (rg.join item)) (vg.join item)).world).world,
          Op.symlink (linkTarget vg (rg.join item)) (vg.join item)
            :: (linkLoop vg rg rest
                (Symlink w (linkTarget vg (rg.join item)) (vg.join item)).world).ops,
          (linkLoop vg rg rest
            (Symlink w (linkTarget vg (rg.join item)) (vg.join item)).world).err⟩ := by
  simp [linkLoop, h, he, Symlink_ops]

theorem linkLoop_grows (vg rg : FPath) : ∀ (items : List String) (w : World),
    Grows w (linkLoop vg rg items w).world
  | [], w => Grows.refl w
  | item :: rest, w => by
    cases h : w.stat (rg.join item)
    · rw [linkLoop_skip h]; exact linkLoop_grows vg rg rest w
    · cases he : (Symlink w (linkTarget vg (rg.join item)) (vg.join item)).err
      · rw [linkLoop_step h he]
        exact (Symlink_grows w _ _).trans (linkLoop_grows vg rg rest _)
      · rw [linkLoop_fail h he]; exact Grows.refl w

theorem linkLoop_ops (vg rg : FPath) : ∀ (items : List String) (w : World),
    ∀ o ∈ (linkLoop vg rg items w).ops,
      ∃ x ∈ items, o = Op.symlink (linkTarget vg (rg.join x)) (vg.join x)
  | [], _ => by simp [linkLoop]
  | item :: rest, w => by
    cases h : w.stat (rg.join item)
    · rw [linkLoop_skip h]
      intro o ho
      obtain ⟨x, hx, hox⟩ := linkLoop_ops vg rg rest w o ho
      exact ⟨x, List.mem_cons_of_mem _ hx, hox⟩
    · cases he : (Symlink w (linkTarget vg (rg.join item)) (vg.join item)).err
      · rw [linkLoop_step h he]
        intro o ho
        rcases List.mem_cons.1 ho with rfl | ho
        · exact ⟨item, List.mem_cons_self _ _, rfl⟩
        · obtain ⟨x, hx, hox⟩ := linkLoop_ops vg rg rest _ o ho
          exact ⟨x, List.mem_cons_of_mem _ hx, hox⟩
      · rw [linkLoop_fail h he]
        intro o ho
        exact ⟨item, List.mem_cons_self _ _, List.mem_singleton.1 ho⟩

/-- The loop over a list made of two parts, when the first part runs to its
end: the second part goes on from the world the first one left. -/
theorem linkLoop_append_ok (vg rg : FPath) : ∀ (xs ys : List String) (w : World),
    (linkLoop vg rg xs w).err = none →
      linkLoop vg rg (xs ++ ys) w
        = ⟨(linkLoop vg rg ys (linkLoop vg rg xs w).world).world,
            (linkLoop vg rg xs w).ops ++ (linkLoop vg rg ys (linkLoop vg rg xs w).world).ops,
            (linkLoop vg rg ys (linkLoop vg rg xs w).world).err⟩
  | [], _, _ => fun _ => rfl
  | item :: rest, ys, w => by
    cases h : w.stat (rg.join item)
    · simp only [List.cons_append]
      rw [linkLoop_skip h, linkLoop_skip h]
      exact linkLoop_append_ok vg rg rest ys w
    · cases he : (Symlink w (linkTarget vg (rg.join item)) (vg.join item)).err
      · simp only [List.cons_append]
        rw [linkLoop_step h he, linkLoop_step h he]
        intro hok
        rw [linkLoop_append_ok vg rg rest ys _ hok]
        rfl
      · rw [linkLoop_fail h he]; intro hx; cases hx

/-- The loop over a list made of two parts, when the first part stops on an
error: the second part is never reached. -/
theorem linkLoop_append_fail (vg rg : FPath) : ∀ (xs ys : List String) (w : World) (e : String),
    (linkLoop vg rg xs w).err = some e → linkLoop vg rg (xs ++ ys) w = linkLoop vg rg xs w
  | [], _, _, _ => fun h => by cases h
  | item :: rest, ys, w, e => by
    cases h : w.stat (rg.join item)
    · simp only [List.cons_append]
      rw [linkLoop_skip h, linkLoop_skip h]
      exact linkLoop_append_fail vg rg rest ys w e
    · cases he : (Symlink w (linkTarget vg (rg.join item)) (vg.join item)).err
      · simp only [List.cons_append]
        rw [linkLoop_step h he, linkLoop_step h he]
        intro hbad
        rw [linkLoop_append_fail vg rg rest ys _ e hbad]
      · simp only [List.cons_append]
        rw [linkLoop_fail h he, linkLoop_fail h he]
        intro _; rfl

/-- An item that is absent at the source when the loop reaches it takes no
part in the loop. -/
theorem linkLoop_absent (vg rg : FPath) (pre post : List String) (item : String) (w : World)
    (h : (linkLoop vg rg pre w).err = none →
      (linkLoop vg rg pre w).world.stat (rg.join item) = false) :
    linkLoop vg rg (pre ++ item :: post) w = linkLoop vg rg (pre ++ post) w := by
  cases he : (linkLoop vg rg pre w).err with
  | none =>
    rw [linkLoop_append_ok vg rg pre _ w he, linkLoop_append_ok vg rg pre _ w he,
      linkLoop_skip (h he)]
  | some e =>
    rw [linkLoop_append_fail vg rg pre _ w e he, linkLoop_append_fail vg rg pre _ w e he]

/-- A link that cannot be made stops the loop: the outcome is the world the
items before it left, their calls followed by the failing one, and the
error. -/
theorem linkLoop_break (vg rg : FPath) (pre post : List String) (item : String) (w : World)
    (e : String) (hpre : (linkLoop vg rg pre w).err = none)
    (hs : (linkLoop vg rg pre w).world.stat (rg.join item) = true)
    (he : (Symlink (linkLoop vg rg pre w).world (linkTarget vg (rg.join item))
      (vg.join item)).err = some e) :
    linkLoop vg rg (pre ++ item :: post) w
      = ⟨(linkLoop vg rg pre w).world,
          (linkLoop vg rg pre w).ops ++ [Op.symlink (linkTarget vg (rg.join item)) (vg.join item)],
          some e⟩ := by
  rw [linkLoop_append_ok vg rg pre _ w hpre, linkLoop_fail hs he]

theorem linkLoop_fs_other {vg rg G : FPath} : ∀ (items : List String) (w : World),
    w.dirOf vg = some G → ∀ q, (∀ x ∈ items, q ≠ G.join x) →
      (linkLoop vg rg items w).world.fs q = w.fs q
  | [], _ => fun _ _ _ => rfl
  | item :: rest, w => by
    intro hG q hq
    have hq2 : ∀ x ∈ rest, q ≠ G.join x := fun x hx => hq x (List.mem_cons_of_mem _ hx)
    cases h : w.stat (rg.join item)
    · rw [linkLoop_skip h]; exact linkLoop_fs_other rest w hG q hq2
    · cases he : (Symlink w (linkTarget vg (rg.join item)) (vg.join item)).err
      · rw [linkLoop_step h he]
        simp only
        rw [linkLoop_fs_other rest _ (dirOf_le (Symlink_grows w _ _).le hG) q hq2,
          (Symlink_ok_join hG he).2.2]
        exact put_fs_other _ _ (hq item (List.mem_cons_self _ _))
      · rw [linkLoop_fail h he]

/-- With the project directory known and the places of the items empty, the
loop runs to its end and links every item present at the source. -/
theorem linkLoop_links {vg G : FPath} (rg : FPath) : ∀ (items : List String) (w : World),
    items.Nodup → w.dirOf vg = some G →
    (∀ x ∈ items, x ≠ ".." ∧ w.fs (G.join x) = none) →
      (linkLoop vg rg items w).err = none
        ∧ ∀ x ∈ items, w.stat (rg.join x) = true →
            (linkLoop vg rg items w).world.fs (G.join x)
              = some (Node.symlink (linkTarget vg (rg.join x)))
  | [], _ => fun _ _ _ => ⟨rfl, fun x hx => absurd hx (List.not_mem_nil x)⟩
  | item :: rest, w => by
    intro hnd hG hfree
    have hnd2 := (List.nodup_cons.1 hnd).2
    have hni := (List.nodup_cons.1 hnd).1
    have hi := hfree item (List.mem_cons_self _ _)
    cases h : w.stat (rg.join item)
    · rw [linkLoop_skip h]
      have ih := linkLoop_links rg rest w hnd2 hG (fun x hx => hfree x (List.mem_cons_of_mem _ hx))
      refine ⟨ih.1, fun x hx hs => ?_⟩
      rcases List.mem_cons.1 hx with rfl | hx
      · rw [h] at hs; cases hs
      · exact ih.2 x hx hs
    · have hsym := Symlink_join hG hi.1 (linkTarget vg (rg.join item)) hi.2
      have he : (Symlink w (linkTarget vg (rg.join item)) (vg.join item)).err = none := by
        rw [hsym]
      rw [linkLoop_step h he]
      have hgr := Symlink_grows w (linkTarget vg (rg.join item)) (vg.join item)
      have hw : (Symlink w (linkTarget vg (rg.join item)) (vg.join item)).world
          = w.put (G.join item) (Node.symlink (linkTarget vg (rg.join item))) := by rw [hsym]
      have ih := linkLoop_links rg rest
        (Symlink w (linkTarget vg (rg.join item)) (vg.join item)).world hnd2
        (dirOf_le hgr.le hG)
        (fun x hx => ⟨(hfree x (List.mem_cons_of_mem _ hx)).1, by
          rw [hw, put_fs_other _ _ (fun hq => hni (by rw [← join_injective G hq]; exact hx))]
          exact (hfree x (List.mem_cons_of_mem _ hx)).2⟩)
      refine ⟨ih.1, fun x hx hs => ?_⟩
      simp only
      rcases List.mem_cons.1 hx with rfl | hx
      · exact linkLoop_grows vg rg rest _ _ _ (by rw [hw, put_fs_self])
      · exact ih.2 x hx (stat_grows hgr hs)

/-! ## `filepath.Rel` -/

theorem stripCommon_suffix : ∀ (b t : List String), (stripCommon b t).1 <:+ b
  | [], _ => by simp [stripCommon]
  | _ :: _, [] => by simp [stripCommon]
  | x :: bs, y :: ts => by
    unfold stripCommon
    split_ifs
    · exact (stripCommon_suffix bs ts).trans (List.suffix_cons x bs)
    · exact List.suffix_refl _

theorem Rel_abs {b t r : FPath} (h : Rel b t = some r) : r.abs = false := by
  unfold Rel at h
  simp only at h
  split_ifs at h
  simp only [Option.some.injEq] at h
  rw [← h]

theorem Rel_isSome {b t : FPath} (ha : b.abs = t.abs) (hd : ".." ∉ b.comps) :
    ∃ r, Rel b t = some r := by
  unfold Rel
  have hh : (stripCommon b.comps t.comps).1.head? ≠ some ".." := by
    intro hx
    exact hd ((stripCommon_suffix b.comps t.comps).subset (List.mem_of_mem_head? hx))
  simp [ha, hh]

/-! ## `InitByLink` as a whole -/

theorem InitByLink_missing {env : Env} {v repo : Repository} {n u : String} {w : World}
    (h : repo.Exists w = false) :
    v.InitByLink env n u repo w
      = ⟨w, [], some ("attach a non-exist repo: " ++ repo.GitDir.render)⟩ := by
  simp [Repository.InitByLink, h]

theorem InitByLink_self {env : Env} {v repo : Repository} {n u : String} {w : World}
    (h : repo.Exists w = true) (heq : repo.GitDir = v.GitDir) :
    v.InitByLink env n u repo w = ⟨(repo.initMissing w).world, (repo.initMissing w).ops, none⟩ := by
  simp [Repository.InitByLink, h, heq]

theorem InitByLink_blocked {env : Env} {v repo : Repository} {n u : String} {w : World}
    {e : String} (h : repo.Exists w = true) (hne : repo.GitDir ≠ v.GitDir)
    (hm : (mkdirAll (repo.initMissing w).world v.GitDir).err = some e) :
    v.InitByLink env n u repo w
      = ⟨(mkdirAll (repo.initMissing w).world v.GitDir).world,
          (repo.initMissing w).ops ++ (mkdirAll (repo.initMissing w).world v.GitDir).ops,
          some e⟩ := by
  simp [Repository.InitByLink, h, hne, hm]

theorem InitByLink_run {env : Env} {v repo : Repository} {n u : String} {w : World}
    (h : repo.Exists w = true) (hne : repo.GitDir ≠ v.GitDir)
    (hm : (mkdirAll (repo.initMissing w).world v.GitDir).err = none) :
    v.InitByLink env n u repo w
      = ⟨(v.Init env n u "" (linkLoop v.GitDir repo.GitDir attachItems
            (mkdirAll (repo.initMissing w).world v.GitDir).world).world).world,
          (repo.initMissing w).ops ++ (mkdirAll (repo.initMissing w).world v.GitDir).ops
            ++ (linkLoop v.GitDir repo.GitDir attachItems
                (mkdirAll (repo.initMissing w).world v.GitDir).world).ops
            ++ (v.Init env n u "" (linkLoop v.GitDir repo.GitDir attachItems
                (mkdirAll (repo.initMissing w).world v.GitDir).world).world).ops,
          none⟩ := by
  simp [Repository.InitByLink, h, hne, hm]

/-- A save of the configuration leaves the other entries of the repository
as they are. -/
theorem SaveConfig_entry (v : Repository) (kv : List (String × String)) (w : World)
    {c : String} (hc : c ≠ "config") (hd : c ≠ "..") :
    (v.SaveConfig kv w).world.entry (v.GitDir.join c) = w.entry (v.GitDir.join c) := by
  unfold World.entry
  rw [SaveConfig_resolve]
  cases hr : w.resolve false (v.GitDir.join c) with
  | none => rfl
  | some l =>
    obtain ⟨d, hl⟩ := resolve_false_last hr hd
    simp only [Option.some_bind]
    rw [hl, nodeAt_join, nodeAt_join]
    refine SaveConfig_fs (fun hx => ?_)
    obtain ⟨d2, hl2⟩ := resolve_false_last hx (by decide)
    exact join_ne_join d d2 hc hl2

/-- The steps `Init` runs after the engine leave the entries of the
repository other than `config` as the engine left them. -/
theorem Init_entry (env : Env) (v : Repository) (n u : String) (w : World) {c : String}
    (hc : c ≠ "config") (hd : c ≠ "..") :
    (v.Init env n u "" w).world.entry (v.GitDir.join c)
      = (env.gitInitBare v.GitDir w).world.entry (v.GitDir.join c) := by
  have hB : ∀ w0 : World, (v.afterBare w0).world.entry (v.GitDir.join c)
      = w0.entry (v.GitDir.join c) := by
    intro w0
    cases hb : v.IsBare
    · rw [afterBare_nonbare hb]; exact SaveConfig_entry v _ w0 hc hd
    · rw [afterBare_bare hb]
  have hR : ∀ w1 : World, (v.afterRemote n u w1).world.entry (v.GitDir.join c)
      = w1.entry (v.GitDir.join c) := by
    intro w1
    unfold Repository.afterRemote
    split_ifs
    · exact SaveConfig_entry v _ w1 hc hd
    · rfl
    · rfl
  cases h0 : (env.gitInitBare v.GitDir w).err with
  | some e => rw [Init_fail h0]
  | none =>
    cases h2 : (v.afterRemote n u (v.afterBare (env.gitInitBare v.GitDir w).world).world).err with
    | some e =>
      have : (v.Init env n u "" w).world
          = (v.afterRemote n u (v.afterBare (env.gitInitBare v.GitDir w).world).world).world := by
        unfold Repository.Init
        simp only [h0, h2]
      rw [this, hR, hB]
    | none =>
      rw [Init_steps h0 h2]
      simp only
      have : ∀ w2 : World, (v.afterReference "" w2).world = w2 := by
        intro w2; simp [Repository.afterReference]
      rw [this, hR, hB]

theorem hookLoop_no_dir_err {g d : FPath} {w : World} (h : w.dirOf (g.join "hooks") = none)
    (n : String) (rest : List String) : (hookLoop g d (n :: rest) w).err ≠ none := by
  cases he : (Symlink w (d.join n) ((g.join "hooks").join n)).err
  · obtain ⟨l, hl, _⟩ := Symlink_ok he
    rw [resolve_join, h] at hl
    cases hl
  · rw [hookLoop_fail he]; simp

theorem hookLoop_ops_ok (g d : FPath) : ∀ (names : List String) (w : World),
    (hookLoop g d names w).err = none →
      (hookLoop g d names w).ops
        = names.map (fun n => Op.symlink (d.join n) ((g.join "hooks").join n))
  | [], _ => fun _ => rfl
  | n :: rest, w => by
    cases he : (Symlink w (d.join n) ((g.join "hooks").join n)).err
    · rw [hookLoop_step he]
      intro hok
      simp only [List.map_cons]
      rw [hookLoop_ops_ok g d rest _ hok]
    · rw [hookLoop_fail he]; intro hok; cases hok

/-- A run of the loop of `InitHooks` that ends without error found no entry
at the place of any name and left there the link to the script of that name. -/
theorem hookLoop_entries (g d : FPath) (names : List String) (w : World)
    (hok : (hookLoop g d names w).err = none) :
    ∀ n ∈ names, w.entry ((g.join "hooks").join n) = none
      ∧ (hookLoop g d names w).world.entry ((g.join "hooks").join n)
          = some (Node.symlink (d.join n)) := by
  cases hH : w.dirOf (g.join "hooks") with
  | none =>
    cases names with
    | nil => intro n hn; cases hn
    | cons n0 rest => exact absurd hok (hookLoop_no_dir_err hH n0 rest)
  | some H =>
    intro n hn
    obtain ⟨hc, h1, h2⟩ := (hookLoop_local names w hH hok).1 n hn
    rw [entry_join hH hc, entry_join (dirOf_le (hookLoop_grows g d names w).le hH) hc]
    exact ⟨h1, h2⟩

/-- An instance through a link: after `InitByLink` has linked the project
`/proj/.git` to `/shared/objs`, the entry `hooks` of the project is a link to
the `hooks` directory of the source; `InitHooks` on the project follows it,
returns `nil`, and the links of the hooks lie in that directory. -/
theorem InitHooks_through_link :
    (projRepo.InitByLink sampleEnv "origin" "https://example.com/repo" sharedRepo
        sharedWorld).world.entry (projRepo.GitDir.join "hooks")
      = some (Node.symlink ⟨false, ["..", "..", "shared", "objs", "hooks"]⟩)
      ∧ (projRepo.InitHooks sampleEnv
          (projRepo.InitByLink sampleEnv "origin" "https://example.com/repo" sharedRepo
            sharedWorld).world).err = none
      ∧ (projRepo.InitHooks sampleEnv
          (projRepo.InitByLink sampleEnv "origin" "https://example.com/repo" sharedRepo
            sharedWorld).world).world.fs (absPath ["shared", "objs", "hooks", "pre-commit"])
        = some (Node.symlink (absPath ["central", "hooks", "pre-commit"])) := by
  decide

/-! ## The two keys of a repository that is not bare -/

theorem configAt_of_fs {w : World} {g G : FPath} (hG : w.dirOf g = some G) :
    w.configAt g
      = match w.fs (G.join "config") with
        | some (Node.file (Content.config kv)) => kv
        | _ => [] := by
  unfold World.configAt
  rw [entry_join hG (by decide)]

/-- The world `Init` ends in is the one the engine left, with the writes the
steps after it made. -/
theorem Init_world (env : Env) (v : Repository) (n u ref : String) (w : World) :
    (v.Init env n u ref w).world = (env.gitInitBare v.GitDir w).world
      ∨ (v.Init env n u ref w).world
          = (v.afterRemote n u (v.afterBare (env.gitInitBare v.GitDir w).world).world).world
      ∨ (v.Init env n u ref w).world
          = (v.afterReference ref (v.afterRemote n u
              (v.afterBare (env.gitInitBare v.GitDir w).world).world).world).world := by
  cases h0 : (env.gitInitBare v.GitDir w).err with
  | some e => left; rw [Init_fail h0]
  | none =>
    cases h2 : (v.afterRemote n u (v.afterBare (env.gitInitBare v.GitDir w).world).world).err with
    | some e =>
      right; left
      unfold Repository.Init
      simp only [h0, h2]
    | none => right; right; rw [Init_steps h0 h2]

/-- For a bare repository the steps of `Init` after the engine write neither
`core.bare` nor `core.logAllRefUpdates`. -/
theorem Init_bare_key (env : Env) (v : Repository) (n u ref : String) (w : World)
    (hb : v.IsBare = true) {k : String} (hk : k ≠ remoteURLKey n) :
    (v.Init env n u ref w).world.cfg v.GitDir k
      = (env.gitInitBare v.GitDir w).world.cfg v.GitDir k := by
  have hB := afterBare_bare hb (env.gitInitBare v.GitDir w).world
  rcases Init_world env v n u ref w with h | h | h <;> rw [h]
  · rw [afterRemote_other v n u _ hk, hB]
  · rw [afterReference_cfg, afterRemote_other v n u _ hk, hB]

/-- For a repository that is not bare, after a successful `Init` whose save
of the configuration succeeded the two keys are normalised. -/
theorem Init_nonbare_keys (env : Env) (v : Repository) (n u ref : String) (w : World)
    (hb : v.IsBare = false) (hok : (v.Init env n u ref w).err = none)
    (hsave : (v.normalizeBare (env.gitInitBare v.GitDir w).world).err = none) :
    (v.Init env n u ref w).world.cfg v.GitDir "core.bare" = none
      ∧ (v.Init env n u ref w).world.cfg v.GitDir "core.logAllRefUpdates" = some "true" := by
  obtain ⟨h0, h2⟩ := Init_ok hok
  rw [Init_steps h0 h2]
  simp only
  rw [afterReference_cfg, afterReference_cfg,
    afterRemote_other v n u _ (remoteURLKey_ne_bare n).symm,
    afterRemote_other v n u _ (remoteURLKey_ne_log n).symm, afterBare_nonbare hb]
  exact normalizeBare_keys hsave

theorem initMissing_nonbare_keys (v : Repository) (w : World) (hb : v.IsBare = false)
    (hok : (v.initMissing w).err = none)
    (hsave : (v.normalizeBare (fileLoop v.GitDir (initMissingFiles v)
      (mkdirLoop v.GitDir initMissingDirs w).world).world).err = none) :
    (v.initMissing w).world.cfg v.GitDir "core.bare" = none
      ∧ (v.initMissing w).world.cfg v.GitDir "core.logAllRefUpdates" = some "true" := by
  rw [(initMissing_ok hok).2.2.2, hb]
  exact normalizeBare_keys hsave

/-- For a bare repository whose directory exists, a successful `initMissing`
leaves the two keys as they were. -/
theorem initMissing_bare_key (v : Repository) (w : World) (hb : v.IsBare = true)
    (hdir : w.isDir v.GitDir = true) (hok : (v.initMissing w).err = none) {k : String}
    (hk : k = "core.bare" ∨ k = "core.logAllRefUpdates") :
    (v.initMissing w).world.cfg v.GitDir k = w.cfg v.GitDir k := by
  obtain ⟨G, hG⟩ := dirOf_of_isDir hdir
  have hg1 := mkdirLoop_grows v.GitDir initMissingDirs w
  have hg2 := fileLoop_grows v.GitDir (initMissingFiles v)
    (mkdirLoop v.GitDir initMissingDirs w).world
  have hG2 := dirOf_le (hg1.trans hg2).le hG
  rw [(initMissing_ok hok).2.2.2, hb]
  simp only [if_true]
  unfold World.cfg
  rw [configAt_of_fs hG, configAt_of_fs hG2]
  cases hf : w.fs (G.join "config") with
  | some x => rw [(hg1.trans hg2) _ _ hf]
  | none =>
    have h1 : (mkdirLoop v.GitDir initMissingDirs w).world.fs (G.join "config") = none := by
      rw [mkdirLoop_fs_other initMissingDirs w hG _
        (fun d hd hq => by
          rw [← join_injective G hq] at hd
          exact absurd hd (by decide))]
      exact hf
    rcases fileLoop_fs v.GitDir (initMissingFiles v)
      (mkdirLoop v.GitDir initMissingDirs w).world (G.join "config") with h2 | ⟨_, x, hx, h2⟩
    · rw [h2, h1]
    · rw [h2]
      simp only [initMissingFiles, List.mem_cons, List.mem_singleton, List.not_mem_nil,
        or_false] at hx
      rcases hx with rfl | rfl | rfl
      · rfl
      · rcases hk with rfl | rfl <;> rfl
      · rfl

/-! ## The layout `initMissing` leaves -/

theorem initMissingFiles_names (v : Repository) :
    ∀ x ∈ initMissingFiles v, x.1 = "description" ∨ x.1 = "config" ∨ x.1 = "HEAD" := by
  intro x hx
  simp only [initMissingFiles, List.mem_cons, List.mem_singleton, List.not_mem_nil,
    or_false] at hx
  rcases hx with rfl | rfl | rfl <;> simp

theorem initMissingFiles_inj (v : Repository) :
    ∀ x ∈ initMissingFiles v, ∀ y ∈ initMissingFiles v, x.1 = y.1 → x = y := by
  intro x hx y hy hxy
  simp only [initMissingFiles, List.mem_cons, List.mem_singleton, List.not_mem_nil,
    or_false] at hx hy
  rcases hx with rfl | rfl | rfl <;> rcases hy with rfl | rfl | rfl <;>
    first | rfl | (simp only at hxy; exact absurd hxy (by decide))

theorem initMissingFiles_plain (v : Repository) :
    ∀ x ∈ initMissingFiles v, x.1 ≠ ".." ∧ x.1 ∉ initMissingDirs := by
  intro x hx
  rcases initMissingFiles_names v x hx with h | h | h <;> rw [h] <;> decide

theorem initMissingDirs_plain : ∀ d ∈ initMissingDirs, d ≠ ".." ∧ d ≠ "config" := by decide

/-- With the directory of the repository known and no link among the seven
entries, two loops that ran to the end leave at the place of each entry what
was there before, and what the loop makes where nothing was. -/
theorem initMissing_slots {v : Repository} {w : World} {G : FPath}
    (hG : w.dirOf v.GitDir = some G)
    (hsym : ∀ x ∈ initMissingFiles v, ∀ t, w.fs (G.join x.1) ≠ some (Node.symlink t))
    (h1 : (mkdirLoop v.GitDir initMissingDirs w).err = none)
    (h2 : (fileLoop v.GitDir (initMissingFiles v) (mkdirLoop v.GitDir initMissingDirs w).world).err
      = none) :
    (∀ d ∈ initMissingDirs,
        (fileLoop v.GitDir (initMissingFiles v)
          (mkdirLoop v.GitDir initMissingDirs w).world).world.fs (G.join d)
          = some ((w.fs (G.join d)).getD Node.dir))
      ∧ (∀ x ∈ initMissingFiles v,
          (fileLoop v.GitDir (initMissingFiles v)
            (mkdirLoop v.GitDir initMissingDirs w).world).world.fs (G.join x.1)
            = some ((w.fs (G.join x.1)).getD (Node.file x.2))) := by
  have hg1 := mkdirLoop_grows v.GitDir initMissingDirs w
  have hg2 := fileLoop_grows v.GitDir (initMissingFiles v)
    (mkdirLoop v.GitDir initMissingDirs w).world
  have hG1 := dirOf_le hg1.le hG
  have hG2 := dirOf_le hg2.le hG1
  constructor
  · intro d hd
    cases hf : w.fs (G.join d) with
    | some n => exact (hg1.trans hg2) _ _ hf
    | none =>
      exact hg2 _ _ (mkdirLoop_new hG h1 hd (initMissingDirs_plain d hd).1 hf)
  · intro x hx
    cases hf : w.fs (G.join x.1) with
    | some n => exact (hg1.trans hg2) _ _ hf
    | none =>
      have hother : ∀ y ∈ initMissingFiles v,
          (mkdirLoop v.GitDir initMissingDirs w).world.fs (G.join y.1) = w.fs (G.join y.1) :=
        fun y hy => mkdirLoop_fs_other initMissingDirs w hG _
          (fun d hd hq => (initMissingFiles_plain v y hy).2 (by
            rw [join_injective G hq]; exact hd))
      have hloc := fileLoop_local (initMissingFiles v) (mkdirLoop v.GitDir initMissingDirs w).world
        hG1 (fun y hy => ⟨(initMissingFiles_plain v y hy).1, fun t => by
          rw [hother y hy]; exact hsym y hy t⟩) (G.join x.1)
      rcases hloc with h | ⟨y, hy, hq, _, hfile⟩
      · exfalso
        rw [hother x hx, hf] at h
        have hp := fileLoop_present v.GitDir (initMissingFiles v) _ h2 x hx
        rw [stat_join_none hG2 (initMissingFiles_plain v x hx).1 h] at hp
        cases hp
      · rw [hfile, initMissingFiles_inj v x hx y hy (join_injective G hq)]
        rfl

theorem initMissing_fs_other {v : Repository} {w : World} {G : FPath}
    (hG : w.dirOf v.GitDir = some G) (hok : (v.initMissing w).err = none) {c : String}
    (hc : c ≠ "config") :
    (v.initMissing w).world.fs (G.join c)
      = (fileLoop v.GitDir (initMissingFiles v)
          (mkdirLoop v.GitDir initMissingDirs w).world).world.fs (G.join c) := by
  have hG2 := dirOf_le ((mkdirLoop_grows v.GitDir initMissingDirs w).trans
    (fileLoop_grows v.GitDir (initMissingFiles v)
      (mkdirLoop v.GitDir initMissingDirs w).world)).le hG
  rw [(initMissing_ok hok).2.2.2]
  cases hb : v.IsBare
  · simp only [Bool.false_eq_true, if_false]
    refine SaveConfig_fs (fun hx => ?_)
    unfold Repository.configFile at hx
    rw [resolve_false_join hG2 (by decide)] at hx
    exact hc (join_injective G (Option.some.inj hx)).symm
  · simp only [if_true]

theorem initMissing_config_file {v : Repository} {w : World} {G : FPath}
    (hG : w.dirOf v.GitDir = some G) (hok : (v.initMissing w).err = none)
    (hb : v.IsBare = false) {c0 : Content}
    (hf : (fileLoop v.GitDir (initMissingFiles v)
      (mkdirLoop v.GitDir initMissingDirs w).world).world.fs (G.join "config")
        = some (Node.file c0)) :
    (v.initMissing w).world.fs (G.join "config")
      = some (Node.file (Content.config (normalizeKV
          ((fileLoop v.GitDir (initMissingFiles v)
            (mkdirLoop v.GitDir initMissingDirs w).world).world.configAt v.GitDir)))) := by
  have hG2 := dirOf_le ((mkdirLoop_grows v.GitDir initMissingDirs w).trans
    (fileLoop_grows v.GitDir (initMissingFiles v)
      (mkdirLoop v.GitDir initMissingDirs w).world)).le hG
  rw [(initMissing_ok hok).2.2.2, hb]
  simp only [Bool.false_eq_true, if_false]
  unfold Repository.normalizeBare Repository.Config
  rw [SaveConfig_of_file (o := c0) (l := G.join "config")
    (by unfold Repository.configFile; exact resolve_false_join hG2 (by decide))
    (join_comps_ne_nil _ _) hf]
  simp only
  rw [put_fs_self]

theorem initMissing_config_dir {v : Repository} {w : World} {G : FPath}
    (hG : w.dirOf v.GitDir = some G) (hok : (v.initMissing w).err = none)
    (hb : v.IsBare = false)
    (hf : (fileLoop v.GitDir (initMissingFiles v)
      (mkdirLoop v.GitDir initMissingDirs w).world).world.fs (G.join "config")
        = some Node.dir) :
    (v.initMissing w).world.fs (G.join "config") = some Node.dir := by
  have hG2 := dirOf_le ((mkdirLoop_grows v.GitDir initMissingDirs w).trans
    (fileLoop_grows v.GitDir (initMissingFiles v)
      (mkdirLoop v.GitDir initMissingDirs w).world)).le hG
  rw [(initMissing_ok hok).2.2.2, hb]
  simp only [Bool.false_eq_true, if_false]
  unfold Repository.normalizeBare
  rw [SaveConfig_of_dir (l := G.join "config")
    (by unfold Repository.configFile; exact resolve_false_join hG2 (by decide))
    (join_comps_ne_nil _ _) hf]
  exact hf

/-! ## `InitByLink` -/

/-- C1 (as stated, refuted): the source `/shared/objs` exists, the project
directory `/proj/.git` is another path and holds an `objects` entry already;
the link for `objects` cannot be made, the loop stops on that error, and
`InitByLink` returns `nil`. -/
theorem InitByLink_swallows_symlink_error :
    sharedRepo.Exists occupiedWorld = true
      ∧ sharedRepo.GitDir ≠ projRepo.GitDir
      ∧ (linkLoop projRepo.GitDir sharedRepo.GitDir attachItems
          (mkdirAll (sharedRepo.initMissing occupiedWorld).world projRepo.GitDir).world).err
        = some "symlink: file exists"
      ∧ (projRepo.InitByLink sampleEnv "origin" "https://example.com/repo" sharedRepo
          occupiedWorld).err = none := by
  decide

/-- C1 (amended): for an existing source whose path differs from the one of
the project, the error `InitByLink` returns is the one of `os.MkdirAll` on the
project directory and no other.  When the directory can be made the call
returns `nil` and its final state is the one `Init` leaves after the loop over
the items, also when a link failed.  A failed link is not returned, but it does
stop the loop: when the items before some item were handled without error,
that item is present at the source and its link cannot be made, the loop ends
there with that error, in the world the items before it left, having attempted
their links and the failing one, and no link for any item after it. -/
theorem InitByLink_error (env : Env) (v : Repository) (n u : String) (repo : Repository)
    (w : World) (hex : repo.Exists w = true) (hne : repo.GitDir ≠ v.GitDir) :
    (v.InitByLink env n u repo w).err = (mkdirAll (repo.initMissing w).world v.GitDir).err
      ∧ ((mkdirAll (repo.initMissing w).world v.GitDir).err = none →
          (v.InitByLink env n u repo w).err = none
            ∧ (v.InitByLink env n u repo w).world
              = (v.Init env n u "" (linkLoop v.GitDir repo.GitDir attachItems
                  (mkdirAll (repo.initMissing w).world v.GitDir).world).world).world)
      ∧ (∀ (pre post : List String) (item e : String), attachItems = pre ++ item :: post →
          (linkLoop v.GitDir repo.GitDir pre
            (mkdirAll (repo.initMissing w).world v.GitDir).world).err = none →
          (linkLoop v.GitDir repo.GitDir pre
            (mkdirAll (repo.initMissing w).world v.GitDir).world).world.stat
              (repo.GitDir.join item) = true →
          (Symlink (linkLoop v.GitDir repo.GitDir pre
              (mkdirAll (repo.initMissing w).world v.GitDir).world).world
            (linkTarget v.GitDir (repo.GitDir.join item)) (v.GitDir.join item)).err = some e →
          linkLoop v.GitDir repo.GitDir attachItems
              (mkdirAll (repo.initMissing w).world v.GitDir).world
            = ⟨(linkLoop v.GitDir repo.GitDir pre
                  (mkdirAll (repo.initMissing w).world v.GitDir).world).world,
                (linkLoop v.GitDir repo.GitDir pre
                  (mkdirAll (repo.initMissing w).world v.GitDir).world).ops
                  ++ [Op.symlink (linkTarget v.GitDir (repo.GitDir.join item))
                        (v.GitDir.join item)],
                some e⟩
            ∧ ∀ x ∈ post, ∀ a, Op.symlink a (v.GitDir.join x)
                ∉ (linkLoop v.GitDir repo.GitDir attachItems
                    (mkdirAll (repo.initMissing w).world v.GitDir).world).ops) := by
  refine ⟨?_, fun hm => ?_, ?_⟩
  · cases hm : (mkdirAll (repo.initMissing w).world v.GitDir).err
    · rw [InitByLink_run hex hne hm]
    · rw [InitByLink_blocked hex hne hm]
  · rw [InitByLink_run hex hne hm]
    exact ⟨rfl, rfl⟩
  · intro pre post item e hsplit hpre hs he
    have hnd : (pre ++ item :: post).Nodup := by rw [← hsplit]; decide
    have hbreak := linkLoop_break v.GitDir repo.GitDir pre post item _ e hpre hs he
    rw [hsplit]
    refine ⟨hbreak, fun x hx a ho => ?_⟩
    rw [hbreak] at ho
    simp only at ho
    have hdis := (List.nodup_append.1 hnd).2.2
    rcases List.mem_append.1 ho with ho | ho
    · obtain ⟨y, hy, hoy⟩ := linkLoop_ops v.GitDir repo.GitDir pre _ _ ho
      have hxy : v.GitDir.join x = v.GitDir.join y := by
        injection hoy
      rw [join_injective _ hxy] at hx
      exact hdis hy (List.mem_cons_of_mem _ hx)
    · have hoy := List.mem_singleton.1 ho
      have hxy : v.GitDir.join x = v.GitDir.join item := by
        injection hoy
      rw [join_injective _ hxy] at hx
      exact (List.nodup_cons.1 (List.nodup_append.1 hnd).2.1).1 hx

/-- C1, an instance: source `/shared/objs`, project `/proj/.git` where `info`
is taken already.  The links for `objects` and `description` are made, the one
for `info` fails; the loop ends there with that error, nothing is attempted
for `hooks`, and `InitByLink` returns what `os.MkdirAll` returned, which is
`nil`. -/
theorem InitByLink_error_witness :
    sharedRepo.Exists takenInfoWorld = true
      ∧ sharedRepo.GitDir ≠ projRepo.GitDir
      ∧ (mkdirAll (sharedRepo.initMissing takenInfoWorld).world projRepo.GitDir).err = none
      ∧ (projRepo.InitByLink sampleEnv "origin" "https://example.com/repo" sharedRepo
          takenInfoWorld).err
        = (mkdirAll (sharedRepo.initMissing takenInfoWorld).world projRepo.GitDir).err
      ∧ (linkLoop projRepo.GitDir sharedRepo.GitDir attachItems
            (mkdirAll (sharedRepo.initMissing takenInfoWorld).world projRepo.GitDir).world).err
          = some "symlink: file exists"
      ∧ ∀ x ∈ ["hooks", "svn", "rr-cache"], ∀ a, Op.symlink a (projRepo.GitDir.join x)
          ∉ (linkLoop projRepo.GitDir sharedRepo.GitDir attachItems
              (mkdirAll (sharedRepo.initMissing takenInfoWorld).world projRepo.GitDir).world).ops :=
  ⟨by decide, by decide, by decide,
    (InitByLink_error sampleEnv projRepo "origin" "https://example.com/repo" sharedRepo
      takenInfoWorld (by decide) (by decide)).1,
    by decide,
    ((InitByLink_error sampleEnv projRepo "origin" "https://example.com/repo" sharedRepo
      takenInfoWorld (by decide) (by decide)).2.2 ["objects", "description"]
        ["hooks", "svn", "rr-cache"] "info" "symlink: file exists" rfl (by decide) (by decide)
        (by decide)).2⟩

/-- C3 (as stated, refuted): linking `/shared/objs` to itself returns `nil`
and yet creates `HEAD`, which was not there; and linking the complete
repository `/work/.git`, which is not bare, to itself unsets `core.bare`. -/
theorem InitByLink_self_mutates :
    sharedRepo.Exists sharedWorld = true
      ∧ (sharedRepo.InitByLink sampleEnv "" "" sharedRepo sharedWorld).err = none
      ∧ sharedWorld.fs (sharedRepo.GitDir.join "HEAD") = none
      ∧ (sharedRepo.InitByLink sampleEnv "" "" sharedRepo sharedWorld).world.fs
          (sharedRepo.GitDir.join "HEAD")
        = some (Node.file (Content.text "ref: refs/heads/master\n"))
      ∧ workRepo.Exists workWorld = true
      ∧ (workRepo.InitByLink sampleEnv "" "" workRepo workWorld).err = none
      ∧ workWorld.cfg workRepo.GitDir "core.bare" = some "true"
      ∧ (workRepo.InitByLink sampleEnv "" "" workRepo workWorld).world.cfg workRepo.GitDir
          "core.bare" = none := by
  decide

/-- C3 (amended): when the source exists and its path is the one of the
project, `InitByLink` returns `nil`, attempts no symbolic link, and does
exactly what `initMissing` does on the source: same final state, same calls.
When the source is bare and its layout complete, nothing is attempted and the
state is exactly the one from before. -/
theorem InitByLink_self_link (env : Env) (v : Repository) (n u : String) (repo : Repository)
    (w : World) (hex : repo.Exists w = true) (heq : repo.GitDir = v.GitDir) :
    (v.InitByLink env n u repo w).err = none
      ∧ (v.InitByLink env n u repo w).world = (repo.initMissing w).world
      ∧ (v.InitByLink env n u repo w).ops = (repo.initMissing w).ops
      ∧ (∀ o ∈ (v.InitByLink env n u repo w).ops, ∀ a b, o ≠ Op.symlink a b)
      ∧ (Complete repo w → repo.IsBare = true →
          (v.InitByLink env n u repo w).world = w ∧ (v.InitByLink env n u repo w).ops = []) := by
  rw [InitByLink_self hex heq]
  refine ⟨rfl, rfl, rfl, initMissing_ops repo w, fun hc hb => ?_⟩
  simp only
  rw [initMissing_of_complete_bare hc hb]
  exact ⟨rfl, rfl⟩

/-- C3, an instance: linking `/shared/objs` to itself. -/
theorem InitByLink_self_link_witness :
    sharedRepo.Exists sharedWorld = true
      ∧ sharedRepo.GitDir = sharedRepo.GitDir
      ∧ (sharedRepo.InitByLink sampleEnv "" "" sharedRepo sharedWorld).world
          = (sharedRepo.initMissing sharedWorld).world :=
  ⟨by decide, rfl,
    (InitByLink_self_link sampleEnv sharedRepo "" "" sharedRepo sharedWorld (by decide) rfl).2.1⟩

theorem attachItems_plain : ∀ x ∈ attachItems, x ≠ ".." ∧ x ≠ "config" := by decide

/-- C7 (as stated, refuted): with the project named by the relative path
`proj/.git` and the source at `/shared/objs`, `filepath.Rel` fails and the
link for `objects` gets the absolute path `/shared/objs/objects` as its
target; and with a regular file `/proj` in the way, the project directory
`/proj/.git` cannot be made and no link for `objects` exists after the call.
In both calls the source exists with `objects` in it, and the project
directory does not exist and is another path. -/
theorem InitByLink_link_not_relative :
    sharedRepo.Exists sharedWorld = true
      ∧ sharedWorld.stat relProjRepo.GitDir = false
      ∧ sharedRepo.GitDir ≠ relProjRepo.GitDir
      ∧ sharedWorld.stat (sharedRepo.GitDir.join "objects") = true
      ∧ (relProjRepo.InitByLink sampleEnv "origin" "https://example.com/repo" sharedRepo
          sharedWorld).world.entry (relProjRepo.GitDir.join "objects")
        = some (Node.symlink ⟨true, ["shared", "objs", "objects"]⟩)
      ∧ sharedRepo.Exists blockedWorld = true
      ∧ blockedWorld.stat projRepo.GitDir = false
      ∧ blockedWorld.stat (sharedRepo.GitDir.join "objects") = true
      ∧ (projRepo.InitByLink sampleEnv "origin" "https://example.com/repo" sharedRepo
          blockedWorld).world.entry (projRepo.GitDir.join "objects") = none := by
  decide

/-- C7 (amended): take an existing source, a project path different from it,
a call of `InitByLink` that returns `nil` (the project directory could be
made), a project directory in which, once it is made, none of the places of
the six attachable items is taken (as in a directory that did not exist
before), and an engine run by `Init` that leaves the entries at these six
places as it finds them.  Then every attachable item present at the source
when the call is made (`os.Stat` succeeds on it) is afterwards a symbolic link
in the project directory whose target is the path `filepath.Rel` gives from
the project directory to the source item, and the path of the source item
itself where `filepath.Rel` fails.  The target is a relative path whenever
both paths are absolute or both relative and the project path has no `..`
component. -/
theorem InitByLink_links (env : Env) (v : Repository) (n u : String) (repo : Repository)
    (w : World) (hex : repo.Exists w = true) (hne : repo.GitDir ≠ v.GitDir)
    (hfree : ∀ item ∈ attachItems,
      (mkdirAll (repo.initMissing w).world v.GitDir).world.free (v.GitDir.join item) = true)
    (hkeep : ∀ item ∈ attachItems,
      (env.gitInitBare v.GitDir (linkLoop v.GitDir repo.GitDir attachItems
          (mkdirAll (repo.initMissing w).world v.GitDir).world).world).world.entry
            (v.GitDir.join item)
        = (linkLoop v.GitDir repo.GitDir attachItems
            (mkdirAll (repo.initMissing w).world v.GitDir).world).world.entry
              (v.GitDir.join item))
    (hok : (v.InitByLink env n u repo w).err = none) :
    ∀ item ∈ ["objects", "description", "info", "hooks", "svn", "rr-cache"],
      w.stat (repo.GitDir.join item) = true →
        (v.InitByLink env n u repo w).world.entry (v.GitDir.join item)
            = some (Node.symlink
                (match Rel v.GitDir (repo.GitDir.join item) with
                 | some r => r
                 | none => repo.GitDir.join item))
          ∧ (v.GitDir.abs = repo.GitDir.abs → ".." ∉ v.GitDir.comps →
              ∃ r, Rel v.GitDir (repo.GitDir.join item) = some r ∧ r.abs = false) := by
  intro item hitem hsrc
  have hm : (mkdirAll (repo.initMissing w).world v.GitDir).err = none := by
    cases hx : (mkdirAll (repo.initMissing w).world v.GitDir).err
    · rfl
    · rw [InitByLink_blocked hex hne hx] at hok; cases hok
  refine ⟨?_, fun ha hd => ?_⟩
  · obtain ⟨G, hG⟩ := mkdirAll_dirOf hm
    have hslots : ∀ x ∈ attachItems, x ≠ ".."
        ∧ (mkdirAll (repo.initMissing w).world v.GitDir).world.fs (G.join x) = none := by
      intro x hx
      refine ⟨(attachItems_plain x hx).1, ?_⟩
      have hf := hfree x hx
      unfold World.free at hf
      rw [resolve_false_join hG (attachItems_plain x hx).1] at hf
      simp only [decide_eq_true_eq] at hf
      rw [nodeAt_join] at hf
      exact hf
    have hlinks := linkLoop_links repo.GitDir attachItems _ (by decide) hG hslots
    have hsrc1 : (mkdirAll (repo.initMissing w).world v.GitDir).world.stat (repo.GitDir.join item)
        = true := stat_grows (mkdirAll_grows _ _) (stat_le (initMissing_le repo w) hsrc)
    have hG2 := dirOf_le (linkLoop_grows v.GitDir repo.GitDir attachItems
      (mkdirAll (repo.initMissing w).world v.GitDir).world).le hG
    rw [InitByLink_run hex hne hm]
    simp only
    rw [Init_entry env v n u _ (attachItems_plain item hitem).2 (attachItems_plain item hitem).1,
      hkeep item hitem, entry_join hG2 (attachItems_plain item hitem).1]
    exact hlinks.2 item hitem hsrc1
  · obtain ⟨r, hr⟩ := Rel_isSome (t := repo.GitDir.join item) ha hd
    exact ⟨r, hr, Rel_abs hr⟩

/-- C7, an instance: Scenario A, source `/shared/objs` with `objects` and
`hooks`, project `/proj/.git`; the link `objects` gets the target
`../../shared/objs/objects`. -/
theorem InitByLink_links_witness :
    sharedRepo.Exists sharedWorld = true
      ∧ sharedRepo.GitDir ≠ projRepo.GitDir
      ∧ (projRepo.InitByLink sampleEnv "origin" "https://example.com/repo" sharedRepo
          sharedWorld).err = none
      ∧ sharedWorld.stat (sharedRepo.GitDir.join "objects") = true
      ∧ (projRepo.InitByLink sampleEnv "origin" "https://example.com/repo" sharedRepo
          sharedWorld).world.entry (projRepo.GitDir.join "objects")
        = some (Node.symlink
            (match Rel projRepo.GitDir (sharedRepo.GitDir.join "objects") with
             | some r => r
             | none => sharedRepo.GitDir.join "objects"))
      ∧ (match Rel projRepo.GitDir (sharedRepo.GitDir.join "objects") with
         | some r => r
         | none => sharedRepo.GitDir.join "objects").render = "../../shared/objs/objects" :=
  ⟨by decide, by decide, by decide, by decide,
    ((InitByLink_links sampleEnv projRepo "origin" "https://example.com/repo" sharedRepo
      sharedWorld (by decide) (by decide) (by decide) (by decide) (by decide))
      "objects" (by decide) (by decide)).1,
    by decide⟩

/-- C8 (as stated, refuted): `info` is absent at the source `/shared/objs`
when `InitByLink` is called, and the call leaves a link `info` in the project
directory, because `initMissing` makes `info` at the source before the loop
looks for it. -/
theorem InitByLink_links_item_absent_at_call :
    sharedRepo.Exists sharedWorld = true
      ∧ sharedRepo.GitDir ≠ projRepo.GitDir
      ∧ sharedWorld.stat (sharedRepo.GitDir.join "info") = false
      ∧ (projRepo.InitByLink sampleEnv "origin" "https://example.com/repo" sharedRepo
          sharedWorld).world.entry (projRepo.GitDir.join "info")
        = some (Node.symlink ⟨false, ["..", "..", "shared", "objs", "info"]⟩) := by
  decide

/-- C8 (amended): for an existing source whose path differs from the one of
the project and a project directory that can be made, an attachable item on
which `os.Stat` fails at the source when the loop over the items reaches it
(it is not there, or it is a link that leads nowhere) takes no part in the
call: `InitByLink` returns `nil`; the loop has the same outcome, error
included, as the loop over the list without that item, and so has the call;
no link is attempted at the item's place, and the loop leaves the entry at
that place as it found it. -/
theorem InitByLink_absent_item (env : Env) (v : Repository) (n u : String) (repo : Repository)
    (w : World) (pre post : List String) (item : String)
    (hex : repo.Exists w = true) (hne : repo.GitDir ≠ v.GitDir)
    (hm : (mkdirAll (repo.initMissing w).world v.GitDir).err = none)
    (hsplit : attachItems = pre ++ item :: post)
    (habs : (linkLoop v.GitDir repo.GitDir pre
      (mkdirAll (repo.initMissing w).world v.GitDir).world).world.stat (repo.GitDir.join item)
        = false) :
    (v.InitByLink env n u repo w).err = none
      ∧ linkLoop v.GitDir repo.GitDir attachItems
            (mkdirAll (repo.initMissing w).world v.GitDir).world
          = linkLoop v.GitDir repo.GitDir (pre ++ post)
              (mkdirAll (repo.initMissing w).world v.GitDir).world
      ∧ (v.InitByLink env n u repo w).world
          = (v.Init env n u "" (linkLoop v.GitDir repo.GitDir (pre ++ post)
              (mkdirAll (repo.initMissing w).world v.GitDir).world).world).world
      ∧ (∀ a, Op.symlink a (v.GitDir.join item)
          ∉ (linkLoop v.GitDir repo.GitDir attachItems
              (mkdirAll (repo.initMissing w).world v.GitDir).world).ops)
      ∧ (linkLoop v.GitDir repo.GitDir attachItems
            (mkdirAll (repo.initMissing w).world v.GitDir).world).world.entry
              (v.GitDir.join item)
          = (mkdirAll (repo.initMissing w).world v.GitDir).world.entry (v.GitDir.join item) := by
  have hskip : linkLoop v.GitDir repo.GitDir attachItems
      (mkdirAll (repo.initMissing w).world v.GitDir).world
        = linkLoop v.GitDir repo.GitDir (pre ++ post)
            (mkdirAll (repo.initMissing w).world v.GitDir).world := by
    rw [hsplit]
    exact linkLoop_absent v.GitDir repo.GitDir pre post item _ (fun _ => habs)
  have hnd : (pre ++ item :: post).Nodup := by rw [← hsplit]; decide
  have hitem : item ∈ attachItems := by rw [hsplit]; simp
  have hnot : ∀ x ∈ pre ++ post, x ≠ item := by
    intro x hx hxi
    rw [hxi] at hx
    have h1 := (List.nodup_append.1 hnd)
    rcases List.mem_append.1 hx with hx | hx
    · exact h1.2.2 hx (List.mem_cons_self _ _)
    · exact (List.nodup_cons.1 h1.2.1).1 hx
  refine ⟨?_, hskip, ?_, ?_, ?_⟩
  · rw [InitByLink_run hex hne hm]
  · rw [InitByLink_run hex hne hm, hskip]
  · rw [hskip]
    intro a ho
    obtain ⟨x, hx, hox⟩ := linkLoop_ops v.GitDir repo.GitDir (pre ++ post) _ _ ho
    have hxy : v.GitDir.join item = v.GitDir.join x := by
      injection hox
    exact hnot x hx (join_injective _ hxy).symm
  · obtain ⟨G, hG⟩ := mkdirAll_dirOf hm
    have hG2 := dirOf_le (linkLoop_grows v.GitDir repo.GitDir (pre ++ post)
      (mkdirAll (repo.initMissing w).world v.GitDir).world).le hG
    rw [hskip, entry_join hG2 (attachItems_plain item hitem).1,
      entry_join hG (attachItems_plain item hitem).1]
    exact linkLoop_fs_other (pre ++ post) _ hG _
      (fun x hx hq => hnot x hx (join_injective G hq).symm)

/-- C8, an instance: the source `/shared/objs` where `svn` is a link that
leads nowhere; the loop over the six items is the loop over the other five. -/
theorem InitByLink_absent_item_witness :
    sharedRepo.Exists danglingWorld = true
      ∧ sharedRepo.GitDir ≠ projRepo.GitDir
      ∧ (mkdirAll (sharedRepo.initMissing danglingWorld).world projRepo.GitDir).err = none
      ∧ (linkLoop projRepo.GitDir sharedRepo.GitDir ["objects", "description", "info", "hooks"]
          (mkdirAll (sharedRepo.initMissing danglingWorld).world projRepo.GitDir).world).world.stat
            (sharedRepo.GitDir.join "svn") = false
      ∧ linkLoop projRepo.GitDir sharedRepo.GitDir attachItems
            (mkdirAll (sharedRepo.initMissing danglingWorld).world projRepo.GitDir).world
          = linkLoop projRepo.GitDir sharedRepo.GitDir
              (["objects", "description", "info", "hooks"] ++ ["rr-cache"])
              (mkdirAll (sharedRepo.initMissing danglingWorld).world projRepo.GitDir).world :=
  ⟨by decide, by decide, by decide, by decide,
    (InitByLink_absent_item sampleEnv projRepo "origin" "https://example.com/repo" sharedRepo
      danglingWorld ["objects", "description", "info", "hooks"] ["rr-cache"] "svn"
      (by decide) (by decide) (by decide) rfl (by decide)).2.1⟩

/-! ## `InitHooks` -/

/-- C10: with the hook directory resolved to `d` and the names of the
registry (the keys of a map, hence without repetition) in the order the loop
visits them, `InitHooks` returns `nil` exactly when it made the link
`hooks/<name> -> d/<name>` for every registered name, that is, when there was
no entry at that place before the call and the link is there after it.  When
it returns an error it stopped at one name: the message contains that name, no
call was attempted for the names after it, and the links made for the names
before it are still in place. -/
theorem InitHooks_links (env : Env) (v : Repository) (w : World) (d : FPath)
    (hd : env.hooksDir = Except.ok d) (hnd : env.gerritHooks.Nodup) :
    ((v.InitHooks env w).err = none ↔
        ∀ n ∈ env.gerritHooks, w.entry ((v.GitDir.join "hooks").join n) = none
          ∧ (v.InitHooks env w).world.entry ((v.GitDir.join "hooks").join n)
            = some (Node.symlink (d.join n)))
      ∧ ((v.InitHooks env w).err ≠ none →
        ∃ pre name post e, env.gerritHooks = pre ++ name :: post
          ∧ (v.InitHooks env w).err = some ("fail to set link for hook " ++ name ++ ": " ++ e)
          ∧ (v.InitHooks env w).ops
            = (pre ++ [name]).map
                (fun n => Op.symlink (d.join n) ((v.GitDir.join "hooks").join n))
          ∧ ∀ n ∈ pre, (v.InitHooks env w).world.entry ((v.GitDir.join "hooks").join n)
            = some (Node.symlink (d.join n))) := by
  have hrun : v.InitHooks env w = hookLoop v.GitDir d env.gerritHooks w := by
    simp [Repository.InitHooks, hd]
  rw [hrun]
  refine ⟨⟨fun hok => hookLoop_entries _ _ _ _ hok, fun hall => ?_⟩, fun hbad => ?_⟩
  · by_contra hbad
    obtain ⟨pre, name, post, e, hsplit, hpre, _, hout⟩ := hookLoop_stop _ _ _ _ hbad
    have hmem : name ∈ env.gerritHooks := by rw [hsplit]; simp
    have hn := hall name hmem
    rw [hout] at hn
    simp only at hn
    cases hH : w.dirOf (v.GitDir.join "hooks") with
    | none =>
      rw [hookLoop_no_dir hH pre, hn.1] at hn
      cases hn.2
    | some H =>
      by_cases hc : name = ".."
      · rw [hc] at hn
        exact entry_dotdot _ hn.2
      · rw [entry_join hH hc,
          entry_join (dirOf_le (hookLoop_grows v.GitDir d pre w).le hH) hc] at hn
        have hnp : name ∉ pre := by
          rw [hsplit] at hnd
          exact fun hx => (List.nodup_append.1 hnd).2.2 hx (List.mem_cons_self _ _)
        rw [hookLoop_fs_other pre w hH _
          (fun m hm hq => hnp (by rw [join_injective H hq]; exact hm)), hn.1] at hn
        cases hn.2
  · obtain ⟨pre, name, post, e, hsplit, hpre, _, hout⟩ := hookLoop_stop _ _ _ _ hbad
    refine ⟨pre, name, post, e, hsplit, by rw [hout], ?_, ?_⟩
    · rw [hout]
      simp only [List.map_append, List.map_cons, List.map_nil]
      rw [hookLoop_ops_ok _ _ pre w hpre]
    · rw [hout]
      exact fun n hn => (hookLoop_entries _ _ pre w hpre n hn).2

/-- C10, an instance: Scenario C, the registry `pre-commit`, `commit-msg` and
the hook directory `/central/hooks`.  On a repository with an empty `hooks`
directory both links are made; where a regular file `commit-msg` lies in
`hooks` already, the call stops with an error naming a hook. -/
theorem InitHooks_links_witness :
    sampleEnv.hooksDir = Except.ok (absPath ["central", "hooks"])
      ∧ sampleEnv.gerritHooks.Nodup
      ∧ (sharedRepo.InitHooks sampleEnv sharedWorld).err = none
      ∧ (∀ n ∈ sampleEnv.gerritHooks,
          sharedWorld.entry ((sharedRepo.GitDir.join "hooks").join n) = none
            ∧ (sharedRepo.InitHooks sampleEnv sharedWorld).world.entry
                ((sharedRepo.GitDir.join "hooks").join n)
              = some (Node.symlink ((absPath ["central", "hooks"]).join n)))
      ∧ (sharedRepo.InitHooks sampleEnv hookedWorld).err
          = some "fail to set link for hook commit-msg: symlink: file exists"
      ∧ ∃ pre name post e, sampleEnv.gerritHooks = pre ++ name :: post
          ∧ (sharedRepo.InitHooks sampleEnv hookedWorld).err
            = some ("fail to set link for hook " ++ name ++ ": " ++ e)
          ∧ (sharedRepo.InitHooks sampleEnv hookedWorld).ops
            = (pre ++ [name]).map (fun n =>
                Op.symlink ((absPath ["central", "hooks"]).join n)
                  ((sharedRepo.GitDir.join "hooks").join n))
          ∧ ∀ n ∈ pre, (sharedRepo.InitHooks sampleEnv hookedWorld).world.entry
              ((sharedRepo.GitDir.join "hooks").join n)
            = some (Node.symlink ((absPath ["central", "hooks"]).join n)) :=
  ⟨rfl, by decide, by decide,
    (InitHooks_links sampleEnv sharedRepo sharedWorld (absPath ["central", "hooks"]) rfl
      (by decide)).1.1 (by decide),
    by decide,
    (InitHooks_links sampleEnv sharedRepo hookedWorld (absPath ["central", "hooks"]) rfl
      (by decide)).2 (by decide)⟩

/-! ## `Init`: the remote URL and the keys of a repository that is not bare -/

/-- C4: for a remote name and a remote URL that are not empty, after a
successful `Init` the key `remote.<name>.url` holds the URL itself when it ends
with `.git` and the URL followed by `.git` otherwise, so the value always ends
with `.git`; and `setRemote` is attempted exactly when the value the key held
before (as the engine left it) differs from that normalised URL, the calls of
`Init` being, in order, those of the engine, the save of the configuration for
a repository that is not bare, that write, and the record of the reference
directory. -/
theorem Init_remote_url (env : Env) (v : Repository) (n u ref : String) (w : World)
    (hn : n ≠ "") (hu : u ≠ "") (hok : (v.Init env n u ref w).err = none) :
    (v.Init env n u ref w).world.cfg v.GitDir ("remote." ++ n ++ ".url")
        = some (if hasSuffix u ".git" then u else u ++ ".git")
      ∧ hasSuffix (if hasSuffix u ".git" then u else u ++ ".git") ".git" = true
      ∧ (v.Init env n u ref w).ops
          = (env.gitInitBare v.GitDir w).ops
            ++ (if v.IsBare then [] else [Op.saveConfig v.GitDir])
            ++ (if ((env.gitInitBare v.GitDir w).world.cfg v.GitDir
                    ("remote." ++ n ++ ".url")).getD ""
                  = (if hasSuffix u ".git" then u else u ++ ".git") then []
                else [Op.setRemote v.GitDir n (if hasSuffix u ".git" then u else u ++ ".git")])
            ++ (if ref = "" then [] else [Op.setAlternates v.GitDir ref]) := by
  have hnorm : (if hasSuffix u ".git" then u else u ++ ".git") = normalizeURL u := by
    unfold normalizeURL
    cases hasSuffix u ".git" <;> simp
  obtain ⟨he, hr⟩ := Init_ok hok
  rw [hnorm, Init_steps he hr]
  refine ⟨?_, normalizeURL_suffix u, ?_⟩
  · simp only
    rw [afterReference_cfg]
    exact afterRemote_key v hn hu hr
  · simp only
    rw [afterBare_ops, afterRemote_ops v hn hu, afterReference_ops]
    have hprev : v.GitConfigRemoteURL n (v.afterBare (env.gitInitBare v.GitDir w).world).world
        = ((env.gitInitBare v.GitDir w).world.cfg v.GitDir ("remote." ++ n ++ ".url")).getD "" := by
      unfold Repository.GitConfigRemoteURL
      rw [afterBare_other v _ (remoteURLKey_ne_bare n) (remoteURLKey_ne_log n)]
      rfl
    rw [hprev]

/-- C4, an instance: `Init` with remote `origin` and URL
`https://example.com/repo` persists `https://example.com/repo.git`. -/
theorem Init_remote_url_witness :
    (projRepo.Init sampleEnv "origin" "https://example.com/repo" "" sharedWorld).err = none
      ∧ (projRepo.Init sampleEnv "origin" "https://example.com/repo" "" sharedWorld).world.cfg
          projRepo.GitDir ("remote." ++ "origin" ++ ".url")
        = some (if hasSuffix "https://example.com/repo" ".git" then "https://example.com/repo"
            else "https://example.com/repo" ++ ".git") :=
  ⟨by decide,
    (Init_remote_url sampleEnv projRepo "origin" "https://example.com/repo" "" sharedWorld
      (by decide) (by decide) (by decide)).1⟩

/-- C9 (as stated, refuted): with an engine that, like `git init --bare`,
writes `core.bare = true`, a successful `Init` on the bare repository
`/shared/objs` changes `core.bare`, which was unset before the call.  And on
the repository `/work/.git`, which is not bare and whose `config` is a
directory, `initMissing` and `Init` both return `nil` although the
configuration could not be saved: `core.logAllRefUpdates` is not set. -/
theorem bare_key_changed :
    sharedRepo.IsBare = true
      ∧ (sharedRepo.Init bareEnv "" "" "" sharedWorld).err = none
      ∧ sharedWorld.cfg sharedRepo.GitDir "core.bare" = none
      ∧ (sharedRepo.Init bareEnv "" "" "" sharedWorld).world.cfg sharedRepo.GitDir "core.bare"
          = some "true"
      ∧ workRepo.IsBare = false
      ∧ (workRepo.initMissing lockedWorld).err = none
      ∧ (workRepo.initMissing lockedWorld).world.cfg workRepo.GitDir "core.logAllRefUpdates"
          = none
      ∧ (workRepo.Init sampleEnv "" "" "" lockedWorld).err = none
      ∧ (workRepo.Init sampleEnv "" "" "" lockedWorld).world.cfg workRepo.GitDir
          "core.logAllRefUpdates" = none := by
  decide

/-- C9 (amended): for a repository that is not bare, after a successful `Init`
and after a successful `initMissing` in which the save of the configuration
(whose result the code does not look at) succeeded, the key `core.bare` is
unset and `core.logAllRefUpdates` holds `true`.  For a bare repository the
steps of `Init` after the engine write neither key, so that after `Init` they
hold what the engine left, which need not be what they held before the call;
and a successful `initMissing` on a bare repository whose directory exists
leaves both keys as they were. -/
theorem bare_keys (env : Env) (v : Repository) (n u ref : String) (w : World) :
    (v.IsBare = false →
        ((v.Init env n u ref w).err = none →
          (v.normalizeBare (env.gitInitBare v.GitDir w).world).err = none →
            (v.Init env n u ref w).world.cfg v.GitDir "core.bare" = none
              ∧ (v.Init env n u ref w).world.cfg v.GitDir "core.logAllRefUpdates"
                  = some "true")
          ∧ ((v.initMissing w).err = none →
              (v.normalizeBare (fileLoop v.GitDir (initMissingFiles v)
                (mkdirLoop v.GitDir initMissingDirs w).world).world).err = none →
                (v.initMissing w).world.cfg v.GitDir "core.bare" = none
                  ∧ (v.initMissing w).world.cfg v.GitDir "core.logAllRefUpdates"
                      = some "true"))
      ∧ (v.IsBare = true →
          (∀ k, k = "core.bare" ∨ k = "core.logAllRefUpdates" →
            (v.Init env n u ref w).world.cfg v.GitDir k
              = (env.gitInitBare v.GitDir w).world.cfg v.GitDir k)
          ∧ (w.isDir v.GitDir = true → (v.initMissing w).err = none →
              ∀ k, k = "core.bare" ∨ k = "core.logAllRefUpdates" →
                (v.initMissing w).world.cfg v.GitDir k = w.cfg v.GitDir k)) := by
  refine ⟨fun hb => ⟨fun hok hsave => Init_nonbare_keys env v n u ref w hb hok hsave,
    fun hok hsave => initMissing_nonbare_keys v w hb hok hsave⟩, fun hb => ⟨fun k hk => ?_,
    fun hdir hok k hk => initMissing_bare_key v w hb hdir hok hk⟩⟩
  refine Init_bare_key env v n u ref w hb ?_
  rcases hk with rfl | rfl
  · exact (remoteURLKey_ne_bare n).symm
  · exact (remoteURLKey_ne_log n).symm

/-- C9, an instance: Scenario B, `Init` and `initMissing` on the repository
`/work/.git`, which is not bare and whose configuration holds
`core.bare = true`. -/
theorem bare_keys_witness :
    workRepo.IsBare = false
      ∧ (workRepo.Init sampleEnv "" "" "" workWorld).err = none
      ∧ (workRepo.normalizeBare (sampleEnv.gitInitBare workRepo.GitDir workWorld).world).err
          = none
      ∧ workWorld.cfg workRepo.GitDir "core.bare" = some "true"
      ∧ ((workRepo.Init sampleEnv "" "" "" workWorld).world.cfg workRepo.GitDir "core.bare"
            = none
          ∧ (workRepo.Init sampleEnv "" "" "" workWorld).world.cfg workRepo.GitDir
              "core.logAllRefUpdates" = some "true")
      ∧ (workRepo.initMissing workWorld).err = none
      ∧ (workRepo.normalizeBare (fileLoop workRepo.GitDir (initMissingFiles workRepo)
          (mkdirLoop workRepo.GitDir initMissingDirs workWorld).world).world).err = none
      ∧ ((workRepo.initMissing workWorld).world.cfg workRepo.GitDir "core.bare" = none
          ∧ (workRepo.initMissing workWorld).world.cfg workRepo.GitDir "core.logAllRefUpdates"
              = some "true") :=
  ⟨by decide, by decide, by decide, by decide,
    ((bare_keys sampleEnv workRepo "" "" "" workWorld).1 (by decide)).1 (by decide) (by decide),
    by decide, by decide,
    ((bare_keys sampleEnv workRepo "" "" "" workWorld).1 (by decide)).2 (by decide) (by decide)⟩

/-! ## `initMissing` -/

theorem layoutNames_plain :
    ∀ x ∈ initMissingDirs ++ ["description", "config", "HEAD"], x ≠ ".." := by decide

theorem not_symlink_of_isLink {e : Option Node} (h : isLink e = false) (t : FPath) :
    e ≠ some (Node.symlink t) := by
  intro he
  rw [he] at h
  cases h

/-- C5 (as stated, refuted): the repository `/work/.git`, which is not bare,
has its whole layout, and `initMissing` rewrites its configuration file: the
file held `core.bare = true` and holds `core.logAllRefUpdates = true`
afterwards. -/
theorem initMissing_complete_changes_config :
    workWorld.stat workRepo.GitDir = true
      ∧ (∀ d ∈ initMissingDirs, workWorld.stat (workRepo.GitDir.join d) = true)
      ∧ (∀ x ∈ initMissingFiles workRepo, workWorld.stat (workRepo.GitDir.join x.1) = true)
      ∧ (workRepo.initMissing workWorld).err = none
      ∧ workWorld.entry (workRepo.GitDir.join "config")
          = some (Node.file (Content.config [("core.bare", "true")]))
      ∧ (workRepo.initMissing workWorld).world.entry (workRepo.GitDir.join "config")
          = some (Node.file (Content.config [("core.logAllRefUpdates", "true")])) := by
  decide

/-- C5 (amended): on a repository whose directory and seven entries are all
there, `initMissing` returns `nil`; when the repository is bare it attempts
nothing and the state is the one from before; when it is not bare and its
entry `config` is not a symbolic link, the state is the one the save of the
normalised configuration leaves: every place other than the configuration
file is as before, the configuration file holds the configuration from before
with `core.bare` unset and `core.logAllRefUpdates = true` when the save
succeeded, and nothing at all has changed when it failed.  From any state, a second run of `initMissing`
(with the files visited in the same order) ends in the state the first run
left, and it returns `nil` when the first run did. -/
theorem initMissing_idempotent (v : Repository) (w : World) :
    (Complete v w →
        (v.initMissing w).err = none
          ∧ (v.IsBare = true → (v.initMissing w).world = w ∧ (v.initMissing w).ops = [])
          ∧ (v.IsBare = false → isLink (w.entry v.configFile) = false →
              (v.initMissing w).world = (v.normalizeBare w).world
                ∧ (∀ q, w.resolve false v.configFile ≠ some q →
                    (v.initMissing w).world.fs q = w.fs q)
                ∧ ((v.normalizeBare w).err = none →
                    (v.initMissing w).world.configAt v.GitDir = normalizeKV (w.configAt v.GitDir))
                ∧ ((v.normalizeBare w).err ≠ none → (v.initMissing w).world = w)))
      ∧ (v.initMissing (v.initMissing w).world).world = (v.initMissing w).world
      ∧ ((v.initMissing w).err = none →
          (v.initMissing (v.initMissing w).world).err = none) := by
  have hA : ∀ w0 : World, Complete v w0 → (v.initMissing w0).err = none := by
    intro w0 hc
    cases hb : v.IsBare
    · rw [initMissing_of_complete_nonbare hc hb]
    · rw [initMissing_of_complete_bare hc hb]
  refine ⟨fun hc => ⟨hA w hc, fun hb => ?_, fun hb _ => ?_⟩, initMissing_again v w,
    fun hok => hA _ (initMissing_complete hok)⟩
  · rw [initMissing_of_complete_bare hc hb]
    exact ⟨rfl, rfl⟩
  · rw [initMissing_of_complete_nonbare hc hb]
    exact ⟨rfl, fun q hq => SaveConfig_fs hq, fun hs => normalizeBare_configAt hs,
      fun hs => normalizeBare_fail hs⟩

/-- C5, an instance: the complete repository `/work/.git`, which is not bare;
after `initMissing` its configuration is the one from before, normalised. -/
theorem initMissing_idempotent_witness :
    Complete workRepo workWorld
      ∧ workRepo.IsBare = false
      ∧ isLink (workWorld.entry workRepo.configFile) = false
      ∧ (workRepo.normalizeBare workWorld).err = none
      ∧ (workRepo.initMissing workWorld).world.configAt workRepo.GitDir
          = normalizeKV (workWorld.configAt workRepo.GitDir)
      ∧ normalizeKV (workWorld.configAt workRepo.GitDir) = [("core.logAllRefUpdates", "true")] :=
  ⟨by unfold Complete; decide, rfl, by decide, by decide,
    (((initMissing_idempotent workRepo workWorld).1 (by unfold Complete; decide)).2.2 rfl
      (by decide)).2.2.1 (by decide),
    by decide⟩

/-- C6 (as stated, refuted): on the empty directory `/work/.git` of a
repository that is not bare, `initMissing` creates `config`, which was absent,
with a content that is not the default one; and on the complete repository
`/work/.git` the file `config`, which existed, does not keep its content. -/
theorem initMissing_rewrites_config :
    emptyWorkWorld.stat workRepo.GitDir = true
      ∧ (workRepo.initMissing emptyWorkWorld).err = none
      ∧ emptyWorkWorld.entry (workRepo.GitDir.join "config") = none
      ∧ (workRepo.initMissing emptyWorkWorld).world.entry (workRepo.GitDir.join "config")
          = some (Node.file (Content.config
              [("core.repositoryformatversion", "0"), ("core.logAllRefUpdates", "true")]))
      ∧ (workRepo.initMissing workWorld).err = none
      ∧ (workRepo.initMissing workWorld).world.lookup (workRepo.GitDir.join "config")
          ≠ workWorld.lookup (workRepo.GitDir.join "config") := by
  decide

/-- C6 (amended): when `os.Stat` fails on the repository directory,
`initMissing` returns an error and attempts nothing.  A successful
`initMissing` ends with the directory and the seven entries all present.
When the repository directory exists, none of the seven entries is a symbolic
link and `initMissing` succeeds, then each of `hooks`, `branches`, `info`,
`refs`, `description` and `HEAD` that existed is the entry from before, and
each that was absent is a new directory, respectively a file with its default
content.  For a bare repository the same holds of `config`.  For a repository
that is not bare, `config` is rewritten: an absent `config` is created with the
default content normalised (`core.bare` unset, `core.logAllRefUpdates = true`),
an existing regular file gets the configuration from before normalised, and a
`config` that is a directory is left as it is. -/
theorem initMissing_layout (v : Repository) (w : World) :
    (w.stat v.GitDir = false →
        (v.initMissing w).err ≠ none ∧ (v.initMissing w).world = w ∧ (v.initMissing w).ops = [])
      ∧ ((v.initMissing w).err = none → Complete v (v.initMissing w).world)
      ∧ (w.isDir v.GitDir = true →
          (∀ x ∈ initMissingDirs ++ ["description", "config", "HEAD"],
            isLink (w.entry (v.GitDir.join x)) = false) →
          (v.initMissing w).err = none →
            (∀ d ∈ ["hooks", "branches", "info", "refs"],
                (v.initMissing w).world.entry (v.GitDir.join d)
                  = some ((w.entry (v.GitDir.join d)).getD Node.dir))
              ∧ (v.initMissing w).world.entry (v.GitDir.join "description")
                  = some ((w.entry (v.GitDir.join "description")).getD
                      (Node.file (Content.text
                        ("Repository: " ++ v.Name ++ ", path: " ++ v.GitDir.render ++ "\n"))))
              ∧ (v.initMissing w).world.entry (v.GitDir.join "HEAD")
                  = some ((w.entry (v.GitDir.join "HEAD")).getD
                      (Node.file (Content.text "ref: refs/heads/master\n")))
              ∧ (v.IsBare = true →
                  (v.initMissing w).world.entry (v.GitDir.join "config")
                    = some ((w.entry (v.GitDir.join "config")).getD
                        (Node.file (Content.config [("core.repositoryformatversion", "0")]))))
              ∧ (v.IsBare = false →
                  (w.entry (v.GitDir.join "config") = none →
                    (v.initMissing w).world.entry (v.GitDir.join "config")
                      = some (Node.file (Content.config
                          (normalizeKV [("core.repositoryformatversion", "0")]))))
                  ∧ (∀ c, w.entry (v.GitDir.join "config") = some (Node.file c) →
                      (v.initMissing w).world.entry (v.GitDir.join "config")
                        = some (Node.file (Content.config (normalizeKV (w.configAt v.GitDir)))))
                  ∧ (w.entry (v.GitDir.join "config") = some Node.dir →
                      (v.initMissing w).world.entry (v.GitDir.join "config")
                        = some Node.dir))) := by
  refine ⟨fun hs => ?_, fun hok => initMissing_complete hok, fun hdir hsym hok => ?_⟩
  · rw [initMissing_absent hs]
    exact ⟨by simp, rfl, rfl⟩
  obtain ⟨G, hG⟩ := dirOf_of_isDir hdir
  obtain ⟨_, h1, h2, hw⟩ := initMissing_ok hok
  have hG2 := dirOf_le ((mkdirLoop_grows v.GitDir initMissingDirs w).trans
    (fileLoop_grows v.GitDir (initMissingFiles v)
      (mkdirLoop v.GitDir initMissingDirs w).world)).le hG
  have hGf := dirOf_le (initMissing_le v w) hG
  have hfsym : ∀ x ∈ initMissingFiles v, ∀ t, w.fs (G.join x.1) ≠ some (Node.symlink t) := by
    intro x hx t
    have hmem : x.1 ∈ initMissingDirs ++ ["description", "config", "HEAD"] := by
      rcases initMissingFiles_names v x hx with h | h | h <;> rw [h] <;> decide
    rw [← entry_join hG (layoutNames_plain _ hmem)]
    exact not_symlink_of_isLink (hsym _ hmem) t
  obtain ⟨hD, hF⟩ := initMissing_slots hG hfsym h1 h2
  have hdesc := hF ("description",
    Content.text ("Repository: " ++ v.Name ++ ", path: " ++ v.GitDir.render ++ "\n"))
    (by simp [initMissingFiles])
  have hcfg := hF ("config", Content.config [("core.repositoryformatversion", "0")])
    (by simp [initMissingFiles])
  have hhead := hF ("HEAD", Content.text "ref: refs/heads/master\n") (by simp [initMissingFiles])
  simp only at hdesc hcfg hhead
  refine ⟨fun d hd => ?_, ?_, ?_, fun hb => ?_, fun hb => ⟨fun hnone => ?_, fun c hc => ?_,
    fun hcd => ?_⟩⟩
  · have hd2 : d ∈ initMissingDirs := by revert d; decide
    rw [entry_join hGf (initMissingDirs_plain d hd2).1, entry_join hG (initMissingDirs_plain d hd2).1,
      initMissing_fs_other hG hok (initMissingDirs_plain d hd2).2]
    exact hD d hd2
  · rw [entry_join hGf (by decide), entry_join hG (by decide),
      initMissing_fs_other hG hok (by decide)]
    exact hdesc
  · rw [entry_join hGf (by decide), entry_join hG (by decide),
      initMissing_fs_other hG hok (by decide)]
    exact hhead
  · rw [entry_join hGf (by decide), entry_join hG (by decide), hw, hb]
    exact hcfg
  · rw [entry_join hG (by decide)] at hnone
    rw [hnone] at hcfg
    simp only [Option.getD_none] at hcfg
    rw [entry_join hGf (by decide), initMissing_config_file hG hok hb hcfg,
      configAt_of_fs hG2, hcfg]
  · rw [entry_join hG (by decide)] at hc
    rw [hc] at hcfg
    simp only [Option.getD_some] at hcfg
    rw [entry_join hGf (by decide), initMissing_config_file hG hok hb hcfg,
      configAt_of_fs hG2, hcfg, configAt_of_fs hG, hc]
  · rw [entry_join hG (by decide)] at hcd
    rw [hcd] at hcfg
    simp only [Option.getD_some] at hcfg
    rw [entry_join hGf (by decide)]
    exact initMissing_config_dir hG hok hb hcfg

/-- C6, an instance: Scenario A, the bare repository `/shared/objs` with
`objects` and `hooks`; `initMissing` creates `HEAD` with its default content
and keeps `hooks`. -/
theorem initMissing_layout_witness :
    sharedWorld.isDir sharedRepo.GitDir = true
      ∧ (∀ x ∈ initMissingDirs ++ ["description", "config", "HEAD"],
          isLink (sharedWorld.entry (sharedRepo.GitDir.join x)) = false)
      ∧ (sharedRepo.initMissing sharedWorld).err = none
      ∧ sharedWorld.entry (sharedRepo.GitDir.join "HEAD") = none
      ∧ (sharedRepo.initMissing sharedWorld).world.entry (sharedRepo.GitDir.join "HEAD")
          = some ((sharedWorld.entry (sharedRepo.GitDir.join "HEAD")).getD
              (Node.file (Content.text "ref: refs/heads/master\n"))) :=
  ⟨by decide, by decide, by decide, by decide,
    ((initMissing_layout sharedRepo sharedWorld).2.2 (by decide) (by decide)
      (by decide)).2.2.1⟩

/-! ## `GitInit` -/

/-- C2 (as stated, refuted): with an engine that cannot be started, `Init` on
the repository of the project fails, and `GitInit` returns `nil`. -/
theorem GitInit_swallows_init_error :
    (projRepo.Init brokenEnv "origin" "https://example.com/repo" "" sharedWorld).err
        = some "exec: git: executable file not found"
      ∧ (Project.GitInit brokenEnv
          ⟨projRepo, "origin", Except.ok "https://example.com/repo", none⟩ sharedWorld).err
        = none := by
  decide

/-- C2 (amended): the only error `GitInit` returns is the one of
`GetRemoteURL`; once the remote URL is known, `GitInit` returns `nil` whatever
the results of `Init`, `InitHooks` and `InitByLink` are. -/
theorem GitInit_error (env : Env) (v : Project) (w : World) :
    (v.GitInit env w).err
      = (match v.GetRemoteURL with
         | Except.error e => some e
         | Except.ok _ => none) := by
  unfold Project.GitInit
  cases v.GetRemoteURL with
  | error e => rfl
  | ok u =>
    cases v.ObjectsRepository with
    | none => rfl
    | some o =>
      by_cases h : v.repo.GitDir ≠ o.GitDir <;> simp [h]

end GitRepo
